import Mathlib

/-!
# Buddy allocator of `msegment.c`, `varlena_cmp`, BRIN index choice

A shallow embedding of the shared-memory buddy allocator of `msegment.c`
(`shmseg_try_alloc`, `shmseg_try_resize`, `shmseg_free`, `shmseg_get_size` and
their helpers), of `varlena_cmp` and the equality functions of
`opencl_textlib.h`, and of `pgstrom_tryfind_brinindex` of `relscan.c`, with the
properties of them that the specification states.

Conventions of the embedding.

* Chunks are identified by their offset in the segment (`addr_to_offset` /
  `offset_to_addr` are the identity on offsets).  A payload pointer is the
  offset of the chunk plus `offsetof(mchunk_item_t, data)`; `NULL` is `none`.
* `uintptr_t` / `size_t` values are natural numbers below `2 ^ (8 * sizeof(uintptr_t))`,
  arithmetic on them is reduced modulo that power.  The width is a parameter
  (`Arch`), because `fast_fls` mixes `sizeof(uintptr_t)` with the 32-bit
  `__builtin_clz`.
* `Assert` is a checked assertion (an assert-enabled build): a violated
  assertion ends the call with `Fault.assertion`.  `__builtin_clz(0)` and the
  first node of an empty list, which have no defined value, end the call with
  `Fault.undefined`.
* The local variable `buddy` of `shmseg_free` is never assigned in the source,
  so its value is indeterminate.  What it designates is an explicit argument of
  the model: `some b` when the pointer happens to designate the chunk header at
  offset `b`, `none` when it designates anything else; reading through it then
  has no defined result (in practice the process is killed) and ends the call
  with `Fault.undefined`.
-/

namespace Msegment

/-! ## Constants and platform -/

def MSEGMENT_CLASS_MIN_BITS : Nat := 6
def MSEGMENT_CLASS_MAX_BITS : Nat := 31
def MSEGMENT_CLASS_MIN_SIZE : Nat := 2 ^ MSEGMENT_CLASS_MIN_BITS

def MCHUNK_TAG_FREE : Nat := 1
def MCHUNK_TAG_ITEM : Nat := 2
/-- Data model of the C compiler: `int` is 32 bits in both, `unsigned long`,
`size_t` and `uintptr_t` are 32 bits (ILP32) or 64 bits (LP64). -/
inductive Arch where
  | ILP32
  | LP64
deriving DecidableEq, Repr

/-- Value of `sizeof(uintptr_t)`. -/
def Arch.ptrBytes : Arch → Nat
  | .ILP32 => 4
  | .LP64 => 8

/-- Number of values of `uintptr_t` / `size_t`. -/
def Arch.wordMod (A : Arch) : Nat := 2 ^ (A.ptrBytes * 8)

/-- Compilation platform: the data model and `sizeof(msegment_t)`, which depends
on `mlist_t` and `pthread_mutex_t`, declared outside this file. -/
structure Platform where
  arch : Arch
  sizeof_msegment_t : Nat

/-- Value of `offsetof(mchunk_item_t, data)`: the fields `uint16 mclass` and
`uint8 mtag` take three bytes, `data` is aligned as `uintptr_t`. -/
def offsetof_data (P : Platform) : Nat := P.arch.ptrBytes

/-- Ways a call can end without returning. -/
inductive Fault where
  | assertion
  | undefined
  | fuel
deriving DecidableEq, Repr

deriving instance DecidableEq for Except

/-! ## Bit helpers -/

/-- Leading zero bits of `x` among its low `k` bits (`x ≠ 0` at the top call). -/
def clzLoop : Nat → Nat → Nat
  | 0, _ => 0
  | k + 1, x => if x / 2 ^ k % 2 = 1 then 0 else 1 + clzLoop k x

/-- The builtin `__builtin_clz(unsigned int)`: the argument is converted to a
32-bit `unsigned int`; the result is undefined when that is zero. -/
def builtin_clz (x : Nat) : Except Fault Nat :=
  if x % 2 ^ 32 = 0 then .error .undefined else .ok (clzLoop 32 (x % 2 ^ 32))

/-- Index of the lowest set bit of `x`, searched among the low `k` bits,
counted from `i`. -/
def ctzLoop : Nat → Nat → Nat → Nat
  | 0, _, i => i
  | k + 1, x, i => if x % 2 = 1 then i else ctzLoop k (x / 2) (i + 1)

/-- The builtin `__builtin_ffsl(unsigned long)`: one plus the index of the least
significant set bit, zero for zero. -/
def builtin_ffsl (A : Arch) (x : Nat) : Nat :=
  if x % A.wordMod = 0 then 0 else ctzLoop (A.ptrBytes * 8) (x % A.wordMod) 0 + 1

/-- Source `fast_ffs`. -/
def fast_ffs (P : Platform) (value : Nat) : Nat :=
  builtin_ffsl P.arch value

/-- Source `fast_fls`: `sizeof(value) * 8 - __builtin_clz(value)`, zero for zero. -/
def fast_fls (P : Platform) (value : Nat) : Except Fault Nat :=
  if value = 0 then .ok 0
  else
    match builtin_clz value with
    | .error e => .error e
    | .ok z => .ok (P.arch.ptrBytes * 8 - z)

/-- The class computation shared by `shmseg_try_alloc` (lines 145-149) and
`shmseg_try_resize` (lines 212-216): `none` stands for the `return NULL` taken
when the class exceeds `MSEGMENT_CLASS_MAX_BITS`. -/
def request_class (P : Platform) (size : Nat) : Except Fault (Option Nat) :=
  match fast_fls P ((size + offsetof_data P - 1) % P.arch.wordMod) with
  | .error e => .error e
  | .ok mclass =>
    if mclass > MSEGMENT_CLASS_MAX_BITS then .ok none
    else if mclass < MSEGMENT_CLASS_MIN_BITS then .ok (some MSEGMENT_CLASS_MIN_BITS)
    else .ok (some mclass)

/-- The C expression `1 << c` (an `int` shift) as it enters `uintptr_t`
arithmetic.  For `c ≤ 30` this is `2 ^ c` exactly; `1 << 31` overflows `int`,
which C leaves undefined, and is taken at its mathematical value `2 ^ 31`. -/
def shl1 (c : Nat) : Nat := 2 ^ c

/-! ## Segment state -/

/-- The header fields `mclass` and `mtag`, common to `mchunk_free_t` and
`mchunk_item_t`. -/
structure mchunk_hdr where
  mclass : Nat
  mtag : Nat
deriving DecidableEq, Repr

/-- The allocator part of `struct msegment_t` together with the memory of the
segment it describes: `hdr x` is the chunk header stored at offset `x`,
`payload a` the byte stored at offset `a`.  `free_list c` lists the offsets of
the chunks linked into `free_list[c]`, the one at `free_list[c].next` first. -/
structure msegment_t where
  segment_size : Nat
  segment_usage : Nat
  free_list : Nat → List Nat
  num_active : Nat → Int
  num_free : Nat → Int
  hdr : Nat → mchunk_hdr
  payload : Nat → Nat

/-- Array or memory update at one index. -/
def upd {β : Type} (f : Nat → β) (i : Nat) (v : β) : Nat → β :=
  fun k => if k = i then v else f k

/-- Modelled from the spec: `mlist_empty` of pg_boost.h (not in the sources);
the list "FreeList[c]" has no member. -/
def mlist_empty (s : msegment_t) (c : Nat) : Bool :=
  (s.free_list c).isEmpty

/-- Modelled from the spec: `mlist_add` of pg_boost.h (not in the sources);
chunks are "pushed onto" a free list and allocation "pops the head", so the new
node becomes the first one. -/
def mlist_add (s : msegment_t) (c : Nat) (node : Nat) : msegment_t :=
  { s with free_list := upd s.free_list c (node :: s.free_list c) }

/-- Modelled from the spec: `mlist_del` of pg_boost.h (not in the sources);
the list is intrusive, the node is unlinked from the list that holds it.  For a
node that is on no list the lists stay as they are: what the function of
pg_boost.h writes through the stale links of such a node is not in the sources
and is not modelled. -/
def mlist_del (s : msegment_t) (node : Nat) : msegment_t :=
  { s with free_list := fun c => (s.free_list c).filter (fun x => x ≠ node) }

def set_mclass (s : msegment_t) (off c : Nat) : msegment_t :=
  { s with hdr := upd s.hdr off { s.hdr off with mclass := c } }

def set_mtag (s : msegment_t) (off t : Nat) : msegment_t :=
  { s with hdr := upd s.hdr off { s.hdr off with mtag := t } }

def add_num_free (s : msegment_t) (c : Nat) (d : Int) : msegment_t :=
  { s with num_free := upd s.num_free c (s.num_free c + d) }

def add_num_active (s : msegment_t) (c : Nat) (d : Int) : msegment_t :=
  { s with num_active := upd s.num_active c (s.num_active c + d) }

/-! ## shmseg_split_chunk -/

/-- Lines 120-132 of `shmseg_split_chunk`: unlink `mfree1`, a chunk of class
`mclass`, halve it, put both halves on `free_list[mclass - 1]`. -/
def split_apply (P : Platform) (s : msegment_t) (mclass mfree1 : Nat) : msegment_t :=
  let s := mlist_del s mfree1
  let s := add_num_free s mclass (-1)
  let offset := mfree1
  let mclass := mclass - 1
  let mfree2 := (offset + shl1 mclass) % P.arch.wordMod
  let s := set_mclass s mfree2 mclass
  let s := set_mclass s mfree1 mclass
  let s := set_mtag s mfree2 MCHUNK_TAG_FREE
  let s := set_mtag s mfree1 MCHUNK_TAG_FREE
  let s := mlist_add s mclass mfree1
  let s := mlist_add s mclass mfree2
  add_num_free s mclass (-2)

/-- Lines 116-134 of `shmseg_split_chunk`: take the first chunk of
`free_list[mclass]` and split it. -/
def split_step (P : Platform) (s : msegment_t) (mclass : Nat) :
    Except Fault (Bool × msegment_t) :=
  match s.free_list mclass with
  | [] => .error .undefined
  | mfree1 :: _ =>
    if (s.hdr mfree1).mclass ≠ mclass then .error .assertion
    else .ok (true, split_apply P s mclass mfree1)

/-- Source `shmseg_split_chunk`, with a bound on the recursion depth. -/
def split_chunk_fuel (P : Platform) : Nat → msegment_t → Nat → Except Fault (Bool × msegment_t)
  | 0, _, _ => .error .fuel
  | fuel + 1, s, mclass =>
    if ¬ (mclass > MSEGMENT_CLASS_MIN_BITS ∧ mclass ≤ MSEGMENT_CLASS_MAX_BITS) then
      .error .assertion
    else if mlist_empty s mclass then
      if mclass = MSEGMENT_CLASS_MAX_BITS then .ok (false, s)
      else
        match split_chunk_fuel P fuel s (mclass + 1) with
        | .error e => .error e
        | .ok (false, s1) => .ok (false, s1)
        | .ok (true, s1) => split_step P s1 mclass
    else split_step P s mclass

/-- Source `shmseg_split_chunk`. -/
def shmseg_split_chunk (P : Platform) (s : msegment_t) (mclass : Nat) :
    Except Fault (Bool × msegment_t) :=
  split_chunk_fuel P (MSEGMENT_CLASS_MAX_BITS + 1) s mclass

/-! ## shmseg_try_alloc -/

/-- Lines 176-183 of `shmseg_try_alloc`: unlink the chunk `mitem`, tag it as an
item, update the counters and the usage. -/
def alloc_apply (P : Platform) (s : msegment_t) (mclass mitem : Nat) : msegment_t :=
  let s := mlist_del s mitem
  let s := set_mtag s mitem MCHUNK_TAG_ITEM
  let s := add_num_free s mclass (-1)
  let s := add_num_active s mclass 1
  { s with segment_usage := (s.segment_usage + shl1 mclass) % P.arch.wordMod }

/-- One pass through lines 152-187 of `shmseg_try_alloc`, from the label `retry`
on: the result `none` is the failed split of line 161.  The assertion of line
178 reads the header of the chunk, which the unlinking of line 176 does not
touch; it is tested before `alloc_apply` does the unlinking. -/
def try_alloc_pass (P : Platform) (s : msegment_t) (mclass : Nat) :
    Except Fault (Option Nat × msegment_t) :=
  let refill : Except Fault (Bool × msegment_t) :=
    if mlist_empty s mclass then shmseg_split_chunk P s (mclass + 1) else .ok (true, s)
  match refill with
  | .error e => .error e
  | .ok (false, s1) => .ok (none, s1)
  | .ok (true, s1) =>
    match s1.free_list mclass with
    | [] => .error .assertion
    | mitem :: _ =>
      if (s1.hdr mitem).mclass ≠ mclass then .error .assertion
      else .ok (some (mitem + offsetof_data P), alloc_apply P s1 mclass mitem)

/-- Source `shmseg_try_alloc`: the result is the payload pointer (`none` for
`NULL`) and the segment state on return. -/
def shmseg_try_alloc (P : Platform) (s : msegment_t) (size : Nat) :
    Except Fault (Option Nat × msegment_t) :=
  match request_class P size with
  | .error e => .error e
  | .ok none => .ok (none, s)
  | .ok (some mclass) =>
    match try_alloc_pass P s mclass with
    | .error e => .error e
    | .ok (some p, s1) => .ok (some p, s1)
    | .ok (none, s1) =>
      match try_alloc_pass P s1 mclass with
      | .error e => .error e
      | .ok (some p, s2) => .ok (some p, s2)
      | .ok (none, s2) => .ok (none, s2)

/-! ## shmseg_free -/

/-- Lines 294-296 of `shmseg_free`: tag the chunk at `mfree` as free, count it
out of `num_active[mclass]` and of `segment_usage`. -/
def free_begin (P : Platform) (s : msegment_t) (mclass mfree : Nat) : msegment_t :=
  let s := set_mtag s mfree MCHUNK_TAG_FREE
  let s := add_num_active s mclass (-1)
  { s with
    segment_usage := (s.segment_usage + P.arch.wordMod - shl1 mclass % P.arch.wordMod)
      % P.arch.wordMod }

/-- Lines 328-335 of `shmseg_free`: unlink the chunk `buddy` designates, count
it out of `num_free[mclass]`, and write the header of the merged chunk, of class
`mclass + 1`, at `offset_mfree` with its low `mclass + 1` bits cleared.  The
unlinking is `mlist_del` as modelled above: a chunk that is on no list leaves
the lists as they are. -/
def merge_apply (s : msegment_t) (mclass offset_mfree buddy : Nat) : msegment_t :=
  let s := mlist_del s buddy
  let s := add_num_free s mclass (-1)
  let mclass := mclass + 1
  let offset_mfree := offset_mfree - offset_mfree % shl1 mclass
  let s := set_mclass s offset_mfree mclass
  set_mtag s offset_mfree MCHUNK_TAG_FREE

/-- Lines 341-342 of `shmseg_free`: put the chunk on `free_list[mclass]`. -/
def free_end (s : msegment_t) (mclass mfree : Nat) : msegment_t :=
  let s := mlist_add s mclass mfree
  add_num_free s mclass 1

/-- The coalesce loop of `shmseg_free` (lines 304-336).  `buddy` is what the
local variable `buddy`, which the source never assigns (it is declared at line
283 and used at lines 322 and 328), designates: the chunk header at offset `b`
for `some b`, no chunk header for `none`, in which case the read `buddy->mclass`
of line 322 has no defined result and the call ends with `Fault.undefined`.  The
same `buddy` is used in every iteration.  The result is the state, the class and
the offset of `mfree` after the loop. -/
def free_loop (P : Platform) (buddy : Option Nat) :
    Nat → msegment_t → Nat → Nat → Except Fault (msegment_t × Nat × Nat)
  | 0, s, mclass, offset_mfree =>
    if mclass < MSEGMENT_CLASS_MAX_BITS then .error .fuel else .ok (s, mclass, offset_mfree)
  | fuel + 1, s, mclass, offset_mfree =>
    if mclass < MSEGMENT_CLASS_MAX_BITS then
      let offset_buddy :=
        if offset_mfree / shl1 mclass % 2 = 1 then offset_mfree - shl1 mclass
        else offset_mfree + shl1 mclass
      if offset_buddy % shl1 mclass ≠ 0 then .error .assertion
      else if offset_buddy < P.sizeof_msegment_t ∨ offset_buddy > s.segment_size then
        .ok (s, mclass, offset_mfree)
      else
        match buddy with
        | none => .error .undefined
        | some b =>
          if (s.hdr b).mclass ≠ mclass ∨ (s.hdr b).mtag ≠ MCHUNK_TAG_FREE then
            .ok (s, mclass, offset_mfree)
          else
            free_loop P buddy fuel (merge_apply s mclass offset_mfree b) (mclass + 1)
              (offset_mfree - offset_mfree % shl1 (mclass + 1))
    else .ok (s, mclass, offset_mfree)

/-- Source `shmseg_free`; `buddy` as in `free_loop`. -/
def shmseg_free (P : Platform) (s : msegment_t) (addr : Nat) (buddy : Option Nat) :
    Except Fault msegment_t :=
  let mfree := addr - offsetof_data P
  let mclass := (s.hdr mfree).mclass
  if (s.hdr mfree).mtag = MCHUNK_TAG_FREE then .error .assertion
  else
    match free_loop P buddy (MSEGMENT_CLASS_MAX_BITS + 1)
        (free_begin P s mclass mfree) mclass mfree with
    | .error e => .error e
    | .ok (s, mclass, mfree) => .ok (free_end s mclass mfree)

/-! ## shmseg_get_size -/

/-- Source `shmseg_get_size`. -/
def shmseg_get_size (P : Platform) (s : msegment_t) (addr : Nat) : Nat :=
  let mitem := addr - offsetof_data P
  (shl1 (s.hdr mitem).mclass + P.arch.wordMod - offsetof_data P) % P.arch.wordMod

/-! ## shmseg_try_resize -/

/-- The loop of the reduction case of `shmseg_try_resize` (lines 242-258). -/
def shrink_loop (P : Platform) : Nat → msegment_t → Nat → Nat → Except Fault (msegment_t × Nat)
  | 0, s, offset_s, offset_e =>
    if offset_s < offset_e then .error .fuel else .ok (s, offset_s)
  | fuel + 1, s, offset_s, offset_e =>
    if offset_s < offset_e then
      let mfree := offset_s
      let mclass := fast_ffs P offset_s
      if ¬ (mclass ≥ MSEGMENT_CLASS_MIN_BITS ∧ mclass < MSEGMENT_CLASS_MAX_BITS) then
        .error .assertion
      else if ¬ ((offset_s + shl1 mclass) % P.arch.wordMod ≤ offset_e) then .error .assertion
      else
        let s := set_mclass s mfree mclass
        let s := set_mtag s mfree MCHUNK_TAG_FREE
        let s := mlist_add s mclass mfree
        let s := add_num_free s mclass 1
        shrink_loop P fuel s ((offset_s + shl1 mclass) % P.arch.wordMod) offset_e
    else .ok (s, offset_s)

/-- The call `memcpy(dst, src, n)` on the payload bytes. -/
def memcpy (s : msegment_t) (dst src n : Nat) : msegment_t :=
  { s with payload := fun a =>
      if dst ≤ a ∧ a < dst + n then s.payload (src + (a - dst)) else s.payload a }

/-- The expand case of `shmseg_try_resize` (lines 223-234): allocate, copy the
old payload, free the old chunk. -/
def resize_expand (P : Platform) (s : msegment_t) (mitem addr new_size : Nat)
    (buddy : Option Nat) : Except Fault (Option Nat × msegment_t) :=
  match shmseg_try_alloc P s new_size with
  | .error e => .error e
  | .ok (none, s1) => .ok (none, s1)
  | .ok (some data_new, s1) =>
    let n := (shl1 (s1.hdr mitem).mclass + P.arch.wordMod - offsetof_data P)
      % P.arch.wordMod
    let s2 := memcpy s1 data_new (mitem + offsetof_data P) n
    match shmseg_free P s2 addr buddy with
    | .error e => .error e
    | .ok s3 => .ok (some data_new, s3)

/-- The reduction case of `shmseg_try_resize` (lines 236-264): carve the tail of
the chunk into free chunks, then lower the class of the chunk. -/
def resize_reduce (P : Platform) (s : msegment_t) (mitem mclass_new : Nat) :
    Except Fault (Option Nat × msegment_t) :=
  let offset_s := (mitem + shl1 mclass_new) % P.arch.wordMod
  let offset_e := (mitem + shl1 (s.hdr mitem).mclass) % P.arch.wordMod
  match shrink_loop P (offset_e - offset_s) s offset_s offset_e with
  | .error e => .error e
  | .ok (s1, offset_s1) =>
    if offset_s1 ≠ offset_e then .error .assertion
    else
      let s2 := set_mclass s1 mitem mclass_new
      .ok (some (mitem + offsetof_data P), s2)

/-- Source `shmseg_try_resize`; `buddy` is passed to the `shmseg_free` call of
the expand case. -/
def shmseg_try_resize (P : Platform) (s : msegment_t) (addr new_size : Nat)
    (buddy : Option Nat) : Except Fault (Option Nat × msegment_t) :=
  let mitem := addr - offsetof_data P
  if (s.hdr mitem).mtag ≠ MCHUNK_TAG_ITEM then .error .assertion
  else
    match request_class P new_size with
    | .error e => .error e
    | .ok none => .ok (none, s)
    | .ok (some mclass_new) =>
      if (s.hdr mitem).mclass = mclass_new then .ok (some (mitem + offsetof_data P), s)
      else if (s.hdr mitem).mclass < mclass_new then
        resize_expand P s mitem addr new_size buddy
      else resize_reduce P s mitem mclass_new

/-! ## shmseg_init_msegment -/

/-- The loop of lines 422-423 of `shmseg_init_msegment`: lower `mclass` until
the chunk ends inside the segment.  Below class 0 the shift count would be
negative. -/
def init_truncate (P : Platform) (segment_size offset : Nat) : Nat → Except Fault Nat
  | 0 =>
    if segment_size < (offset + shl1 0) % P.arch.wordMod then .error .undefined else .ok 0
  | mclass + 1 =>
    if segment_size < (offset + shl1 (mclass + 1)) % P.arch.wordMod then
      init_truncate P segment_size offset mclass
    else .ok (mclass + 1)

/-- Lines 428-433 of `shmseg_init_msegment`: emit a free chunk of class `mclass`
at `offset`. -/
def init_emit (s : msegment_t) (mclass offset : Nat) : msegment_t :=
  let s := set_mclass s offset mclass
  let s := set_mtag s offset MCHUNK_TAG_FREE
  let s := mlist_add s mclass offset
  add_num_free s mclass 1

/-- The loop of lines 411-436 of `shmseg_init_msegment`. -/
def init_loop (P : Platform) : Nat → msegment_t → Nat → Except Fault msegment_t
  | 0, s, offset =>
    if s.segment_size ≥ (offset + MSEGMENT_CLASS_MIN_SIZE) % P.arch.wordMod then .error .fuel
    else .ok s
  | fuel + 1, s, offset =>
    if s.segment_size ≥ (offset + MSEGMENT_CLASS_MIN_SIZE) % P.arch.wordMod then
      let mclass := fast_ffs P offset
      let mclass := if mclass ≥ MSEGMENT_CLASS_MAX_BITS then MSEGMENT_CLASS_MAX_BITS else mclass
      if ¬ (mclass ≥ MSEGMENT_CLASS_MIN_BITS) then .error .assertion
      else
        match init_truncate P s.segment_size offset mclass with
        | .error e => .error e
        | .ok mclass =>
          if mclass < MSEGMENT_CLASS_MIN_BITS then .ok s
          else
            init_loop P fuel (init_emit s mclass offset)
              ((offset + shl1 mclass) % P.arch.wordMod)
    else .ok s

/-- Source `shmseg_init_msegment`, the allocator part (lines 397-436): `raw` is
the memory of the mapped region before the call.  A shift count of 32 or more
in `1 << (fast_fls(..) + 1)` has no defined value. -/
def shmseg_init_msegment (P : Platform) (raw : msegment_t) (segment_size : Nat) :
    Except Fault msegment_t :=
  let s : msegment_t :=
    { raw with
      segment_size := segment_size
      segment_usage := 0
      free_list := fun _ => []
      num_active := fun _ => 0
      num_free := fun _ => 0 }
  match fast_fls P P.sizeof_msegment_t with
  | .error e => .error e
  | .ok f =>
    if f + 1 ≥ 32 then .error .undefined
    else
      let offset := shl1 (f + 1)
      let offset := if offset < MSEGMENT_CLASS_MIN_SIZE then MSEGMENT_CLASS_MIN_SIZE else offset
      init_loop P (segment_size / MSEGMENT_CLASS_MIN_SIZE + 1) s offset

/-! ## Sample platforms and states

The sample segments are 16384 bytes long on a 32-bit build whose
`sizeof(msegment_t)` is 2608: the first chunk offset is
`1 << (fast_fls(2608) + 1) = 8192`, and the chunks tile `[8192, 16384)`. -/

/-- A 32-bit build. -/
def ilp32 : Platform := ⟨.ILP32, 2608⟩

/-- A 64-bit build. -/
def lp64 : Platform := ⟨.LP64, 4440⟩

/-- A segment whose only free chunk is one 256-byte chunk (class 8) at offset
8192; the chunks at 8448, 8704, 9216, 10240 and 12288, of classes 8 to 12, are
allocated. -/
def seg256 : msegment_t where
  segment_size := 16384
  segment_usage := 7936
  free_list := fun c => if c = 8 then [8192] else []
  num_active := fun c => if 8 ≤ c ∧ c ≤ 12 then 1 else 0
  num_free := fun c => if c = 8 then 1 else 0
  hdr := fun x =>
    if x = 8192 then ⟨8, MCHUNK_TAG_FREE⟩
    else if x = 8448 then ⟨8, MCHUNK_TAG_ITEM⟩
    else if x = 8704 then ⟨9, MCHUNK_TAG_ITEM⟩
    else if x = 9216 then ⟨10, MCHUNK_TAG_ITEM⟩
    else if x = 10240 then ⟨11, MCHUNK_TAG_ITEM⟩
    else if x = 12288 then ⟨12, MCHUNK_TAG_ITEM⟩
    else ⟨0, 0⟩
  payload := fun _ => 0

/-- A segment whose only free chunk is one 64-byte chunk (class 6) at offset
8192; the chunks at 8256, 8320, 8448, 8704, 9216, 10240 and 12288, of classes 6
to 12, are allocated. -/
def seg64 : msegment_t where
  segment_size := 16384
  segment_usage := 8128
  free_list := fun c => if c = 6 then [8192] else []
  num_active := fun c => if 6 ≤ c ∧ c ≤ 12 then 1 else 0
  num_free := fun c => if c = 6 then 1 else 0
  hdr := fun x =>
    if x = 8192 then ⟨6, MCHUNK_TAG_FREE⟩
    else if x = 8256 then ⟨6, MCHUNK_TAG_ITEM⟩
    else if x = 8320 then ⟨7, MCHUNK_TAG_ITEM⟩
    else if x = 8448 then ⟨8, MCHUNK_TAG_ITEM⟩
    else if x = 8704 then ⟨9, MCHUNK_TAG_ITEM⟩
    else if x = 9216 then ⟨10, MCHUNK_TAG_ITEM⟩
    else if x = 10240 then ⟨11, MCHUNK_TAG_ITEM⟩
    else if x = 12288 then ⟨12, MCHUNK_TAG_ITEM⟩
    else ⟨0, 0⟩
  payload := fun _ => 0

/-- A segment all of whose free lists are empty: its two chunks of 4096 bytes
(class 12), at offsets 8192 and 12288, are allocated. -/
def segFull : msegment_t where
  segment_size := 16384
  segment_usage := 8192
  free_list := fun _ => []
  num_active := fun c => if c = 12 then 2 else 0
  num_free := fun _ => 0
  hdr := fun x => if x = 8192 ∨ x = 12288 then ⟨12, MCHUNK_TAG_ITEM⟩ else ⟨0, 0⟩
  payload := fun _ => 0

/-- A segment tiled by chunks of classes 7, 7, 8, 9, 10, 11, 12 at offsets 8192,
8320, 8448, 8704, 9216, 10240, 12288; the chunk at 8192 is allocated, its buddy
at 8320 (class 7) and the chunk at 8448 (class 8) are free, the rest is
allocated. -/
def segPair : msegment_t where
  segment_size := 16384
  segment_usage := 7808
  free_list := fun c => if c = 7 then [8320] else if c = 8 then [8448] else []
  num_active := fun c => if c = 7 ∨ (9 ≤ c ∧ c ≤ 12) then 1 else 0
  num_free := fun c => if c = 7 ∨ c = 8 then 1 else 0
  hdr := fun x =>
    if x = 8192 then ⟨7, MCHUNK_TAG_ITEM⟩
    else if x = 8320 then ⟨7, MCHUNK_TAG_FREE⟩
    else if x = 8448 then ⟨8, MCHUNK_TAG_FREE⟩
    else if x = 8704 then ⟨9, MCHUNK_TAG_ITEM⟩
    else if x = 9216 then ⟨10, MCHUNK_TAG_ITEM⟩
    else if x = 10240 then ⟨11, MCHUNK_TAG_ITEM⟩
    else if x = 12288 then ⟨12, MCHUNK_TAG_ITEM⟩
    else ⟨0, 0⟩
  payload := fun _ => 0

/-- A mapped region before initialization: every byte is zero. -/
def rawZero : msegment_t where
  segment_size := 0
  segment_usage := 0
  free_list := fun _ => []
  num_active := fun _ => 0
  num_free := fun _ => 0
  hdr := fun _ => ⟨0, 0⟩
  payload := fun _ => 0

/-- The sum `Σ_c (num_active[c] + num_free[c]) * 2 ^ c` over the classes
0 to `MSEGMENT_CLASS_MAX_BITS`. -/
def accounted (s : msegment_t) : Int :=
  ((List.range (MSEGMENT_CLASS_MAX_BITS + 1)).map
    (fun c => (s.num_active c + s.num_free c) * 2 ^ c)).sum

/-- A segment tiled by an 2048-byte free chunk at 8192 (class 11), the chunks
of classes 6, 6, 7, 8, 9, 10 at 10240, 10304, 10368, 10496, 10752, 11264 and a
class-12 chunk at 12288; the chunk at 10240 is free, the others are allocated.
The payload byte at address `a` is `a % 251`. -/
def segGrow : msegment_t where
  segment_size := 16384
  segment_usage := 6080
  free_list := fun c => if c = 11 then [8192] else if c = 6 then [10240] else []
  num_active := fun c => if 6 ≤ c ∧ c ≤ 10 ∨ c = 12 then 1 else 0
  num_free := fun c => if c = 6 ∨ c = 11 then 1 else 0
  hdr := fun x =>
    if x = 8192 then ⟨11, MCHUNK_TAG_FREE⟩
    else if x = 10240 then ⟨6, MCHUNK_TAG_FREE⟩
    else if x = 10304 then ⟨6, MCHUNK_TAG_ITEM⟩
    else if x = 10368 then ⟨7, MCHUNK_TAG_ITEM⟩
    else if x = 10496 then ⟨8, MCHUNK_TAG_ITEM⟩
    else if x = 10752 then ⟨9, MCHUNK_TAG_ITEM⟩
    else if x = 11264 then ⟨10, MCHUNK_TAG_ITEM⟩
    else if x = 12288 then ⟨12, MCHUNK_TAG_ITEM⟩
    else ⟨0, 0⟩
  payload := fun a => a % 251

/-- The segment of 8704 bytes after `shmseg_init_msegment` on a 32-bit build:
one free chunk of class 9 at 8192. -/
def initSmall : msegment_t :=
  init_emit
    { rawZero with segment_size := 8704 }
    9 8192

/-- The state `initSmall` after `shmseg_try_alloc(100)`, which splits twice and
returns the chunk at 8576. -/
def initSmall_one : msegment_t :=
  alloc_apply ilp32 (split_apply ilp32 (split_apply ilp32 initSmall 9 8192) 8 8448) 7 8576

/-- The state `initSmall_one` after `shmseg_try_alloc(200)`, which returns the
chunk at 8192. -/
def initSmall_two : msegment_t :=
  alloc_apply ilp32 initSmall_one 8 8192

/-- The state `initSmall_two` after `shmseg_free` of the chunk at 8576 while
`buddy` designates its true buddy at 8448: the halves are merged, and the stale
pointer makes the loop merge once more, over the allocated chunk at 8192. -/
def initSmall_freed : msegment_t :=
  free_end
    (merge_apply (merge_apply (free_begin ilp32 initSmall_two 7 8576) 7 8576 8448) 8 8448 8448)
    9 8192

/-- The buddy offset of the chunk of class `c` at offset `x`: `x` with bit `c`
flipped. -/
def buddy_of (x c : Nat) : Nat :=
  if x / 2 ^ c % 2 = 1 then x - 2 ^ c else x + 2 ^ c

/-- The state `seg256` after the first `shmseg_try_alloc(100)` of a 32-bit
build: the chunk is split, its upper half at 8320 is allocated. -/
def seg256_one : msegment_t :=
  alloc_apply ilp32 (split_apply ilp32 seg256 8 8192) 7 8320

/-- The state `seg256_one` after the second `shmseg_try_alloc(100)`: the lower
half at 8192 is allocated too. -/
def seg256_two : msegment_t :=
  alloc_apply ilp32 seg256_one 7 8192

/-- The state `seg256_two` after `shmseg_free` of the lower half with nothing
merged. -/
def seg256_low_freed : msegment_t :=
  free_end (free_begin ilp32 seg256_two 7 8192) 7 8192

/-- The state `seg256_two` after `shmseg_free` of the lower half while `buddy`
designates that very chunk: the loop "merges" six times, up to class 13. -/
def seg256_low_cascade : msegment_t :=
  free_end
    (merge_apply (merge_apply (merge_apply (merge_apply (merge_apply (merge_apply
      (free_begin ilp32 seg256_two 7 8192) 7 8192 8192) 8 8192 8192) 9 8192 8192)
      10 8192 8192) 11 8192 8192) 12 8192 8192)
    13 8192

/-! ## State predicates -/

/-- Every member of a free list carries the tag `MCHUNK_TAG_FREE`. -/
def FreeTagged (s : msegment_t) : Prop :=
  ∀ c x, x ∈ s.free_list c → (s.hdr x).mtag = MCHUNK_TAG_FREE

/-- The free lists of `s` hold free chunks that tile `[S, E)`: each lies in the
range and carries its class and the tag Free in its header, every byte of the
range is in one of them, two of them that overlap are the same, no list has a
chunk twice, `num_free` counts the members of each list, and nothing is
allocated. -/
def Tiles (s : msegment_t) (S E : Nat) : Prop :=
  (∀ c x, x ∈ s.free_list c → S ≤ x ∧ x + 2 ^ c ≤ E ∧ s.hdr x = ⟨c, MCHUNK_TAG_FREE⟩) ∧
  (∀ a, S ≤ a → a < E → ∃ c x, x ∈ s.free_list c ∧ x ≤ a ∧ a < x + 2 ^ c) ∧
  (∀ c x d y, x ∈ s.free_list c → y ∈ s.free_list d → x < y + 2 ^ d → y < x + 2 ^ c →
    c = d ∧ x = y) ∧
  (∀ c, (s.free_list c).Nodup) ∧
  (∀ c, s.num_free c = ((s.free_list c).length : Int)) ∧
  s.segment_usage = 0 ∧ (∀ c, s.num_active c = 0)

/-- The free lists of `s` are well formed: a member of `free_list[c]` carries
class `c` in its header and its block ends inside the address space, two
members whose blocks overlap are the same member of the same list, and no list
has a chunk twice. -/
def FreeWF (P : Platform) (s : msegment_t) : Prop :=
  (∀ c x, x ∈ s.free_list c → x + 2 ^ c ≤ P.arch.wordMod ∧ (s.hdr x).mclass = c) ∧
  (∀ c x d y, x ∈ s.free_list c → y ∈ s.free_list d → x < y + 2 ^ d → y < x + 2 ^ c →
    c = d ∧ x = y) ∧
  (∀ c, (s.free_list c).Nodup)

/-! ## Events of a call

The functions below list, in program order, what a call does to the lock and to
the shared data, up to its return or to the assertion that ends it.  They follow
the control flow of the functions above statement by statement. -/

/-- One step of a call that matters to the lock discipline. -/
inductive Event where
  /-- The call `pthread_mutex_lock(&msegment->lock)`. -/
  | lock
  /-- The call `pthread_mutex_unlock(&msegment->lock)`. -/
  | unlock
  /-- Entry of `shmseg_split_chunk(mclass)`. -/
  | split (mclass : Nat)
  /-- A read or write of `free_list[]` (list links included), `num_free[]`,
  `num_active[]`, `segment_usage` or `segment_size`. -/
  | seg
  /-- A read or write of the field `mclass` or `mtag` of the chunk header at
  `offset`. -/
  | hdr (offset : Nat)
deriving DecidableEq, Repr

/-- Events of lines 116-132 of `shmseg_split_chunk`. -/
def split_step_trace (P : Platform) (s : msegment_t) (mclass : Nat) : List Event :=
  match s.free_list mclass with
  | [] => [.seg]
  | mfree1 :: _ =>
    if (s.hdr mfree1).mclass ≠ mclass then [.seg, .hdr mfree1]
    else
      let mfree2 := (mfree1 + shl1 (mclass - 1)) % P.arch.wordMod
      [.seg, .hdr mfree1, .seg, .seg, .hdr mfree2, .hdr mfree1, .hdr mfree2, .hdr mfree1,
        .seg, .seg, .seg]

/-- Events of `shmseg_split_chunk`, with the bound on the recursion depth of
`split_chunk_fuel`. -/
def split_chunk_trace (P : Platform) : Nat → msegment_t → Nat → List Event
  | 0, _, _ => []
  | fuel + 1, s, mclass =>
    .split mclass ::
      if ¬ (mclass > MSEGMENT_CLASS_MIN_BITS ∧ mclass ≤ MSEGMENT_CLASS_MAX_BITS) then []
      else if mlist_empty s mclass then
        .seg ::
          if mclass = MSEGMENT_CLASS_MAX_BITS then []
          else
            split_chunk_trace P fuel s (mclass + 1) ++
              match split_chunk_fuel P fuel s (mclass + 1) with
              | .ok (true, s1) => split_step_trace P s1 mclass
              | _ => []
      else .seg :: split_step_trace P s mclass

/-- Events of one pass through lines 152-187 of `shmseg_try_alloc`. -/
def try_alloc_pass_trace (P : Platform) (s : msegment_t) (mclass : Nat) : List Event :=
  let refill : Except Fault (Bool × msegment_t) :=
    if mlist_empty s mclass then shmseg_split_chunk P s (mclass + 1) else .ok (true, s)
  [.lock, .seg] ++
    (if mlist_empty s mclass then
      split_chunk_trace P (MSEGMENT_CLASS_MAX_BITS + 1) s (mclass + 1) else []) ++
    match refill with
    | .error _ => []
    | .ok (false, _) => [.unlock]
    | .ok (true, s1) =>
      match s1.free_list mclass with
      | [] => [.seg]
      | mitem :: _ =>
        if (s1.hdr mitem).mclass ≠ mclass then [.seg, .seg, .seg, .hdr mitem]
        else [.seg, .seg, .seg, .hdr mitem, .hdr mitem, .seg, .seg, .seg, .unlock]

/-- Events of `shmseg_try_alloc`. -/
def shmseg_try_alloc_trace (P : Platform) (s : msegment_t) (size : Nat) : List Event :=
  match request_class P size with
  | .ok (some mclass) =>
    try_alloc_pass_trace P s mclass ++
      match try_alloc_pass P s mclass with
      | .ok (none, s1) => try_alloc_pass_trace P s1 mclass
      | _ => []
  | _ => []

/-- Events of the coalesce loop of `shmseg_free` (lines 304-336).  A read
through a `buddy` that designates no chunk header is no access to a header. -/
def free_loop_trace (P : Platform) (buddy : Option Nat) :
    Nat → msegment_t → Nat → Nat → List Event
  | 0, _, _, _ => []
  | fuel + 1, s, mclass, offset_mfree =>
    if mclass < MSEGMENT_CLASS_MAX_BITS then
      let offset_buddy :=
        if offset_mfree / shl1 mclass % 2 = 1 then offset_mfree - shl1 mclass
        else offset_mfree + shl1 mclass
      if offset_buddy % shl1 mclass ≠ 0 then []
      else if offset_buddy < P.sizeof_msegment_t then []
      else if offset_buddy > s.segment_size then [.seg]
      else
        match buddy with
        | none => [.seg]
        | some b =>
          if (s.hdr b).mclass ≠ mclass ∨ (s.hdr b).mtag ≠ MCHUNK_TAG_FREE then
            [.seg, .hdr b]
          else
            let merged := offset_mfree - offset_mfree % shl1 (mclass + 1)
            [.seg, .hdr b, .seg, .seg, .hdr merged, .hdr merged] ++
              free_loop_trace P buddy fuel (merge_apply s mclass offset_mfree b) (mclass + 1)
                merged
    else []

/-- Events of `shmseg_free`. -/
def shmseg_free_trace (P : Platform) (s : msegment_t) (addr : Nat) (buddy : Option Nat) :
    List Event :=
  let mfree := addr - offsetof_data P
  let mclass := (s.hdr mfree).mclass
  [.hdr mfree, .hdr mfree] ++
    if (s.hdr mfree).mtag = MCHUNK_TAG_FREE then []
    else
      [.lock, .hdr mfree, .seg, .seg] ++
        free_loop_trace P buddy (MSEGMENT_CLASS_MAX_BITS + 1)
          (free_begin P s mclass mfree) mclass mfree ++
        match free_loop P buddy (MSEGMENT_CLASS_MAX_BITS + 1)
            (free_begin P s mclass mfree) mclass mfree with
        | .error _ => []
        | .ok _ => [.seg, .seg, .unlock]

/-- Events of the loop of the reduction case of `shmseg_try_resize` (lines
242-258). -/
def shrink_loop_trace (P : Platform) : Nat → msegment_t → Nat → Nat → List Event
  | 0, _, _, _ => []
  | fuel + 1, s, offset_s, offset_e =>
    if offset_s < offset_e then
      let mclass := fast_ffs P offset_s
      if ¬ (mclass ≥ MSEGMENT_CLASS_MIN_BITS ∧ mclass < MSEGMENT_CLASS_MAX_BITS) then []
      else if ¬ ((offset_s + shl1 mclass) % P.arch.wordMod ≤ offset_e) then []
      else
        [.hdr offset_s, .hdr offset_s, .seg, .seg] ++
          shrink_loop_trace P fuel
            (add_num_free (mlist_add (set_mtag (set_mclass s offset_s mclass) offset_s
              MCHUNK_TAG_FREE) mclass offset_s) mclass 1)
            ((offset_s + shl1 mclass) % P.arch.wordMod) offset_e
    else []

/-- Events of `shmseg_try_resize`. -/
def shmseg_try_resize_trace (P : Platform) (s : msegment_t) (addr new_size : Nat)
    (buddy : Option Nat) : List Event :=
  let mitem := addr - offsetof_data P
  .hdr mitem ::
    if (s.hdr mitem).mtag ≠ MCHUNK_TAG_ITEM then []
    else
      match request_class P new_size with
      | .ok (some mclass_new) =>
        .hdr mitem ::
          if (s.hdr mitem).mclass = mclass_new then []
          else
            .hdr mitem ::
              if (s.hdr mitem).mclass < mclass_new then
                shmseg_try_alloc_trace P s new_size ++
                  match shmseg_try_alloc P s new_size with
                  | .ok (some data_new, s1) =>
                    .hdr mitem ::
                      shmseg_free_trace P
                        (memcpy s1 data_new (mitem + offsetof_data P)
                          ((shl1 (s1.hdr mitem).mclass + P.arch.wordMod - offsetof_data P)
                            % P.arch.wordMod))
                        addr buddy
                  | _ => []
              else
                let offset_s := (mitem + shl1 mclass_new) % P.arch.wordMod
                let offset_e := (mitem + shl1 (s.hdr mitem).mclass) % P.arch.wordMod
                [.hdr mitem, .lock] ++
                  shrink_loop_trace P (offset_e - offset_s) s offset_s offset_e ++
                  match shrink_loop P (offset_e - offset_s) s offset_s offset_e with
                  | .error _ => []
                  | .ok (_, offset_s1) =>
                    if offset_s1 ≠ offset_e then [] else [.unlock, .hdr mitem]
      | _ => []

/-- Whether the lock is held after the events, started with the lock held or
not; `none` when the lock is taken while held or released while not held. -/
def lock_run : Bool → List Event → Option Bool
  | held, [] => some held
  | held, .lock :: es => if held then none else lock_run true es
  | held, .unlock :: es => if held then lock_run false es else none
  | held, _ :: es => lock_run held es

/-- The accesses (`seg`, `hdr`) among the events that are made while the lock
is not held. -/
def unlocked : Bool → List Event → List Event
  | _, [] => []
  | _, .lock :: es => unlocked true es
  | _, .unlock :: es => unlocked false es
  | held, .split _ :: es => unlocked held es
  | held, e :: es => if held then unlocked held es else e :: unlocked held es

/-- The classes of the calls of `shmseg_split_chunk` among the events, in the
order of the calls. -/
def split_calls : List Event → List Nat
  | [] => []
  | .split c :: es => c :: split_calls es
  | _ :: es => split_calls es

/-- A segment of 48 MB (50331648 bytes) tiled by allocated chunks: one of class
`k` at offset `2 ^ k` for each `k` from 13 to 24, and the last one, of 16 MB
(class 24), at offset 32 MB (33554432). -/
def segTail : msegment_t where
  segment_size := 50331648
  segment_usage := 50323456
  free_list := fun _ => []
  num_active := fun c => if 13 ≤ c ∧ c ≤ 23 then 1 else if c = 24 then 2 else 0
  num_free := fun _ => 0
  hdr := fun x =>
    if x = 33554432 then ⟨24, MCHUNK_TAG_ITEM⟩
    else if x = 16777216 then ⟨24, MCHUNK_TAG_ITEM⟩
    else if x = 8388608 then ⟨23, MCHUNK_TAG_ITEM⟩
    else if x = 4194304 then ⟨22, MCHUNK_TAG_ITEM⟩
    else if x = 2097152 then ⟨21, MCHUNK_TAG_ITEM⟩
    else if x = 1048576 then ⟨20, MCHUNK_TAG_ITEM⟩
    else if x = 524288 then ⟨19, MCHUNK_TAG_ITEM⟩
    else if x = 262144 then ⟨18, MCHUNK_TAG_ITEM⟩
    else if x = 131072 then ⟨17, MCHUNK_TAG_ITEM⟩
    else if x = 65536 then ⟨16, MCHUNK_TAG_ITEM⟩
    else if x = 32768 then ⟨15, MCHUNK_TAG_ITEM⟩
    else if x = 16384 then ⟨14, MCHUNK_TAG_ITEM⟩
    else if x = 8192 then ⟨13, MCHUNK_TAG_ITEM⟩
    else ⟨0, 0⟩
  payload := fun _ => 0

/-- The segment of 24576 bytes after `shmseg_init_msegment` on a 32-bit build:
one free chunk of class 14 at 8192. -/
def initOne : msegment_t :=
  init_emit
    { rawZero with segment_size := 24576 }
    14 8192

/-- The state `initOne` after `shmseg_try_alloc(100)`, which splits seven times,
from class 14 down to class 8, and returns the chunk at 24448. -/
def initOne_alloc : msegment_t :=
  alloc_apply ilp32
    (split_apply ilp32 (split_apply ilp32 (split_apply ilp32 (split_apply ilp32
      (split_apply ilp32 (split_apply ilp32 (split_apply ilp32 initOne 14 8192) 13 16384)
        12 20480) 11 22528) 10 23552) 9 24064) 8 24320)
    7 24448

end Msegment

/-! ## varlena_cmp and the equality functions (opencl_textlib.h) -/

namespace Textlib

/-- Modelled from the spec: a `varlena` datum, whose layout and accessor macros
(`VARDATA_ANY`, `VARSIZE_ANY_EXHDR`) are not in the sources; the claim speaks of
a "varlena byte string" and of its "payload bytes (compared as cl_char
values)".  `data` lists the payload as the `cl_char` values `VARDATA_ANY`
points to, in address order; `VARSIZE_ANY_EXHDR` is their number, which the
format keeps below `2 ^ 30`, so `cl_int` holds it. -/
structure varlena where
  data : List Int
deriving DecidableEq, Repr

/-- The loop of lines 35-45 of `varlena_cmp`: `s1` and `s2` are the bytes from
the two pointers on, `len` the count left.  `some (some r)` is `return r` inside
the loop, `some none` the end of the loop, `none` a read past the end of a
payload. -/
def varlena_cmp_loop : Nat → List Int → List Int → Option (Option Int)
  | 0, _, _ => some none
  | _ + 1, [], _ => none
  | _ + 1, _ :: _, [] => none
  | len + 1, c1 :: s1, c2 :: s2 =>
    if c1 < c2 then some (some (-1))
    else if c1 > c2 then some (some 1)
    else varlena_cmp_loop len s1 s2

/-- Source `varlena_cmp` (the variant compiled, under `#if 1`); `none` is a read
past the end of a payload. -/
def varlena_cmp (arg1 arg2 : varlena) : Option Int :=
  let len1 := arg1.data.length
  let len2 := arg2.data.length
  let len := min len1 len2
  match varlena_cmp_loop len arg1.data arg2.data with
  | none => none
  | some (some r) => some r
  | some none =>
    if len1 ≠ len2 then some (if len1 > len2 then 1 else -1)
    else some 0

/-- Modelled from the spec: the argument type `pg_text_t` / `pg_bpchar_t` that
the macro `STROMCL_VARLENA_TYPE_TEMPLATE`, not in the sources, declares: a
varlena value and the flag `isnull` ("non-null arguments"). -/
structure pg_varlena_t where
  value : varlena
  isnull : Bool
deriving DecidableEq, Repr

/-- Modelled from the spec: the result type `pg_bool_t`, declared outside the
sources ("yield true"); `value = none` is a field `value` left unassigned. -/
structure pg_bool_t where
  isnull : Bool
  value : Option Bool
deriving DecidableEq, Repr

/-- Source `pgfn_bpchareq`; `none` as in `varlena_cmp`. -/
def pgfn_bpchareq (arg1 arg2 : pg_varlena_t) : Option pg_bool_t :=
  let isnull := arg1.isnull || arg2.isnull
  if ¬ isnull then
    match varlena_cmp arg1.value arg2.value with
    | none => none
    | some r => some { isnull := isnull, value := some (decide (r = 0)) }
  else some { isnull := isnull, value := none }

/-- Source `pgfn_texteq`; `none` as in `varlena_cmp`. -/
def pgfn_texteq (arg1 arg2 : pg_varlena_t) : Option pg_bool_t :=
  let isnull := arg1.isnull || arg2.isnull
  if ¬ isnull then
    match varlena_cmp arg1.value arg2.value with
    | none => none
    | some r => some { isnull := isnull, value := some (decide (r = 0)) }
  else some { isnull := isnull, value := none }

end Textlib

/-! ## pgstrom_tryfind_brinindex (relscan.c) -/

namespace Relscan

end Relscan

namespace Msegment

/-! ## Bit-level facts -/

theorem clzLoop_spec (k x : Nat) (hx : 0 < x) (hlt : x < 2 ^ k) :
    clzLoop k x < k ∧ 2 ^ (k - 1 - clzLoop k x) ≤ x ∧ x < 2 ^ (k - clzLoop k x) := by
  induction k with
  | zero => simp at hlt; omega
  | succ k ih =>
    unfold clzLoop
    have hdiv : x / 2 ^ k < 2 := by
      rw [Nat.div_lt_iff_lt_mul (Nat.two_pow_pos k)]
      rw [pow_succ] at hlt; omega
    by_cases h1 : x / 2 ^ k % 2 = 1
    · have hq : x / 2 ^ k = 1 := by
        generalize x / 2 ^ k = q at hdiv h1
        omega
      have hge : 2 ^ k ≤ x := by
        by_contra hcon
        have : x / 2 ^ k = 0 := Nat.div_eq_of_lt (Nat.lt_of_not_le hcon)
        rw [this] at hq
        exact absurd hq (by decide)
      simp [h1, hge, hlt]
    · have hq : x / 2 ^ k = 0 := by
        generalize x / 2 ^ k = q at hdiv h1
        omega
      have hlt2 : x < 2 ^ k := by
        by_contra hcon
        have : 0 < x / 2 ^ k := Nat.div_pos (Nat.le_of_not_lt hcon) (Nat.two_pow_pos k)
        rw [hq] at this
        exact absurd this (by decide)
      obtain ⟨a, b, c⟩ := ih hlt2
      simp only [h1, if_false]
      refine ⟨by omega, ?_, ?_⟩
      · have : k + 1 - 1 - (1 + clzLoop k x) = k - 1 - clzLoop k x := by omega
        rw [this]; exact b
      · have : k + 1 - (1 + clzLoop k x) = k - clzLoop k x := by omega
        rw [this]; exact c

/-- On a 32-bit build `fast_fls` is the bit length: for `0 < v < 2 ^ 32` it
returns the `f` with `2 ^ (f - 1) ≤ v < 2 ^ f`. -/
theorem fast_fls_ilp32 (P : Platform) (hP : P.arch = .ILP32) (v : Nat) (hv : 0 < v)
    (hlt : v < 2 ^ 32) :
    ∃ f, fast_fls P v = .ok f ∧ 1 ≤ f ∧ f ≤ 32 ∧ 2 ^ (f - 1) ≤ v ∧ v < 2 ^ f := by
  obtain ⟨a, b, c⟩ := clzLoop_spec 32 v hv hlt
  have hmod : v % 2 ^ 32 = v := Nat.mod_eq_of_lt hlt
  refine ⟨32 - clzLoop 32 v, ?_, by omega, by omega, ?_, c⟩
  · unfold fast_fls builtin_clz
    rw [hmod]
    have h0 : v ≠ 0 := by omega
    simp [h0, hP, Arch.ptrBytes]
  · have : 32 - clzLoop 32 v - 1 = 32 - 1 - clzLoop 32 v := by omega
    rw [this]; exact b

/-- On a 32-bit build, without wrap-around of `size + offsetof(..) - 1`, the
class computed for a request within `2 ^ MSEGMENT_CLASS_MAX_BITS` is the
smallest class of `[MIN_BITS, MAX_BITS]` whose chunk holds the request and the
header. -/
theorem request_class_ilp32 (P : Platform) (hP : P.arch = .ILP32) (size : Nat)
    (hsz : size + offsetof_data P ≤ 2 ^ MSEGMENT_CLASS_MAX_BITS) :
    ∃ c, request_class P size = .ok (some c) ∧
      MSEGMENT_CLASS_MIN_BITS ≤ c ∧ c ≤ MSEGMENT_CLASS_MAX_BITS ∧
      size + offsetof_data P ≤ 2 ^ c ∧
      ∀ d, MSEGMENT_CLASS_MIN_BITS ≤ d → size + offsetof_data P ≤ 2 ^ d → c ≤ d := by
  have hH : offsetof_data P = 4 := by simp [offsetof_data, hP, Arch.ptrBytes]
  have hM : P.arch.wordMod = 2 ^ 32 := by simp [Arch.wordMod, hP, Arch.ptrBytes]
  simp only [MSEGMENT_CLASS_MAX_BITS, MSEGMENT_CLASS_MIN_BITS, hH] at hsz ⊢
  have hv31 : size + 4 - 1 < 2 ^ 31 := by omega
  have hv32 : size + 4 - 1 < 2 ^ 32 := by
    have : (2:Nat) ^ 31 < 2 ^ 32 := by norm_num
    omega
  obtain ⟨f, hf, h1, h32, hlo, hhi⟩ := fast_fls_ilp32 P hP (size + 4 - 1) (by omega) hv32
  have hf31 : f ≤ 31 := by
    by_contra hcon
    have : (2:Nat) ^ 31 ≤ 2 ^ (f - 1) := Nat.pow_le_pow_right (by decide) (by omega)
    omega
  have hmin : ∀ d, size + 4 ≤ 2 ^ d → f ≤ d := by
    intro d hd
    by_contra hcon
    have : (2:Nat) ^ d ≤ 2 ^ (f - 1) := Nat.pow_le_pow_right (by decide) (by omega)
    omega
  unfold request_class
  rw [hH, hM, Nat.mod_eq_of_lt hv32, hf]
  simp only [MSEGMENT_CLASS_MAX_BITS, MSEGMENT_CLASS_MIN_BITS]
  by_cases h6 : f < 6
  · refine ⟨6, by simp [h6]; omega, le_refl _, by decide, ?_, fun d hd _ => hd⟩
    have : (2:Nat) ^ f ≤ 2 ^ 6 := Nat.pow_le_pow_right (by decide) (by omega)
    omega
  · refine ⟨f, ?_, by omega, hf31, by omega, fun d _ hd => hmin d hd⟩
    have : ¬ f > 31 := by omega
    simp [this, h6]

/-- C1 (evaluation at the failing input): on a 64-bit build a request of 100
bytes, for which the claim names class 7, gets `fast_fls(107) = 64 - 25 = 39`;
this exceeds `MSEGMENT_CLASS_MAX_BITS`, and the class computation of
`shmseg_try_alloc` takes the `return NULL` branch. -/
theorem C1_class_of_100_on_lp64 :
    fast_fls lp64 (100 + offsetof_data lp64 - 1) = .ok 39 ∧
    request_class lp64 100 = .ok none ∧
    100 + offsetof_data lp64 ≤ 2 ^ MSEGMENT_CLASS_MAX_BITS := by
  decide

/-- On a 64-bit build no request with `0 < size + offsetof(..) - 1 < 2 ^ 32`
gets a class: `fast_fls` returns 33 or more. -/
theorem request_class_lp64 (P : Platform) (hP : P.arch = .LP64) (size : Nat)
    (hsz : size + offsetof_data P ≤ 2 ^ 32) : request_class P size = .ok none := by
  have hH : offsetof_data P = 8 := by simp [offsetof_data, hP, Arch.ptrBytes]
  have hM : P.arch.wordMod = 2 ^ 64 := by simp [Arch.wordMod, hP, Arch.ptrBytes]
  rw [hH] at hsz
  have hv32 : size + 8 - 1 < 2 ^ 32 := by omega
  have hv64 : size + 8 - 1 < 2 ^ 64 := by
    have : (2:Nat) ^ 32 < 2 ^ 64 := by norm_num
    omega
  obtain ⟨a, _, _⟩ := clzLoop_spec 32 (size + 8 - 1) (by omega) hv32
  have h0 : size + 8 - 1 ≠ 0 := by omega
  have hgt : 8 * 8 - clzLoop 32 (size + 8 - 1) > 31 := by omega
  unfold request_class fast_fls builtin_clz
  rw [hH, hM, Nat.mod_eq_of_lt hv64, Nat.mod_eq_of_lt hv32]
  simp only [h0, if_false, hP, Arch.ptrBytes, MSEGMENT_CLASS_MAX_BITS, hgt, if_true]

/-! ## Facts about splitting -/

theorem split_apply_num_active (P : Platform) (s : msegment_t) (c x : Nat) :
    (split_apply P s c x).num_active = s.num_active := rfl

theorem split_apply_usage (P : Platform) (s : msegment_t) (c x : Nat) :
    (split_apply P s c x).segment_usage = s.segment_usage := rfl

theorem split_apply_hdr (P : Platform) (s : msegment_t) (c x z : Nat) :
    (split_apply P s c x).hdr z =
      if z = x ∨ z = (x + shl1 (c - 1)) % P.arch.wordMod then ⟨c - 1, MCHUNK_TAG_FREE⟩
      else s.hdr z := by
  simp only [split_apply, mlist_add, mlist_del, set_mclass, set_mtag, add_num_free, upd]
  generalize (x + shl1 (c - 1)) % P.arch.wordMod = y
  by_cases h1 : z = x <;> by_cases h2 : z = y <;> by_cases h3 : x = y <;>
    simp_all [eq_comm]

theorem split_apply_free_list (P : Platform) (s : msegment_t) (c x k : Nat) :
    (split_apply P s c x).free_list k =
      if k = c - 1 then
        (x + shl1 (c - 1)) % P.arch.wordMod :: x :: (s.free_list k).filter (fun z => z ≠ x)
      else (s.free_list k).filter (fun z => z ≠ x) := by
  simp only [split_apply, mlist_add, mlist_del, set_mclass, set_mtag, add_num_free, upd]
  by_cases hk : k = c - 1 <;> simp [hk]

theorem split_apply_freeTagged (P : Platform) (s : msegment_t) (c x : Nat)
    (h : FreeTagged s) : FreeTagged (split_apply P s c x) := by
  intro k z hz
  rw [split_apply_hdr]
  rw [split_apply_free_list] at hz
  by_cases hzx : z = x ∨ z = (x + shl1 (c - 1)) % P.arch.wordMod
  · simp [hzx]
  · have hmem : z ∈ s.free_list k := by
      push_neg at hzx
      by_cases hk : k = c - 1
      · simp [hk, hzx.1, hzx.2] at hz
        rw [hk]; exact hz
      · simp [hk, hzx.1] at hz
        exact hz
    simpa [hzx] using h k z hmem

/-- A property of states kept by every single split is kept by
`shmseg_split_chunk`. -/
theorem split_chunk_fuel_inv (P : Platform) (I : msegment_t → Prop)
    (hI : ∀ s c x, I s → I (split_apply P s c x)) :
    ∀ (fuel : Nat) (s : msegment_t) (c : Nat) (b : Bool) (s1 : msegment_t),
      I s → split_chunk_fuel P fuel s c = .ok (b, s1) → I s1 := by
  have hstep : ∀ (s : msegment_t) (c : Nat) (b : Bool) (s1 : msegment_t),
      I s → split_step P s c = .ok (b, s1) → I s1 := by
    intro s c b s1 hs h
    unfold split_step at h
    split at h
    · cases h
    · split at h
      · cases h
      · cases h; exact hI _ _ _ hs
  intro fuel
  induction fuel with
  | zero => intro s c b s1 _ h; simp [split_chunk_fuel] at h
  | succ fuel ih =>
    intro s c b s1 hs h
    unfold split_chunk_fuel at h
    split at h
    · cases h
    · split at h
      · split at h
        · cases h; exact hs
        · split at h
          · cases h
          · rename_i s2 heq
            cases h; exact ih _ _ _ _ hs heq
          · rename_i s2 heq
            exact hstep _ _ _ _ (ih _ _ _ _ hs heq) h
      · exact hstep _ _ _ _ hs h

/-- A failed `shmseg_split_chunk` (result `false`) has not changed the state. -/
theorem split_chunk_fuel_false (P : Platform) :
    ∀ (fuel : Nat) (s : msegment_t) (c : Nat) (s1 : msegment_t),
      split_chunk_fuel P fuel s c = .ok (false, s1) → s1 = s := by
  have hstep : ∀ (s : msegment_t) (c : Nat) (s1 : msegment_t),
      split_step P s c = .ok (false, s1) → False := by
    intro s c s1 h
    unfold split_step at h
    split at h
    · cases h
    · split at h <;> cases h
  intro fuel
  induction fuel with
  | zero => intro s c s1 h; simp [split_chunk_fuel] at h
  | succ fuel ih =>
    intro s c s1 h
    unfold split_chunk_fuel at h
    split at h
    · cases h
    · split at h
      · split at h
        · cases h; rfl
        · split at h
          · cases h
          · rename_i s2 heq
            cases h; exact ih _ _ _ heq
          · exact (hstep _ _ _ h).elim
      · exact (hstep _ _ _ h).elim

/-- After a successful `shmseg_split_chunk(c)` the list of class `c - 1` is not
empty. -/
theorem split_chunk_fuel_true_nonempty (P : Platform) (fuel : Nat) (s : msegment_t) (c : Nat)
    (s1 : msegment_t) (h : split_chunk_fuel P fuel s c = .ok (true, s1)) :
    s1.free_list (c - 1) ≠ [] := by
  have hstep : ∀ (s : msegment_t) (s1 : msegment_t),
      split_step P s c = .ok (true, s1) → s1.free_list (c - 1) ≠ [] := by
    intro s s1 h
    unfold split_step at h
    split at h
    · cases h
    · split at h
      · cases h
      · cases h
        simp [split_apply, mlist_add, mlist_del, set_mclass, set_mtag, add_num_free, upd]
  cases fuel with
  | zero => simp [split_chunk_fuel] at h
  | succ fuel =>
    unfold split_chunk_fuel at h
    split at h
    · cases h
    · split at h
      · split at h
        · cases h
        · split at h
          · cases h
          · cases h
          · exact hstep _ _ h
      · exact hstep _ _ h

/-- The recursion bound of `shmseg_split_chunk` is never reached. -/
theorem split_chunk_fuel_enough (P : Platform) :
    ∀ (fuel : Nat) (s : msegment_t) (c : Nat), MSEGMENT_CLASS_MAX_BITS - c < fuel →
      split_chunk_fuel P fuel s c ≠ .error .fuel := by
  have hstep : ∀ (s : msegment_t) (c : Nat), split_step P s c ≠ .error .fuel := by
    intro s c h
    unfold split_step at h
    split at h
    · cases h
    · split at h <;> cases h
  intro fuel
  induction fuel with
  | zero => intro s c h; omega
  | succ fuel ih =>
    intro s c hfuel h
    unfold split_chunk_fuel at h
    split at h
    · cases h
    · rename_i hassert
      split at h
      · split at h
        · cases h
        · rename_i hmax
          have hrec := ih s (c + 1) (by
            simp only [MSEGMENT_CLASS_MAX_BITS, MSEGMENT_CLASS_MIN_BITS] at hassert hmax hfuel ⊢
            omega)
          split at h
          · rename_i e heq
            cases h
            exact hrec heq
          · cases h
          · exact hstep _ _ h
      · exact hstep _ _ h

theorem shmseg_split_chunk_terminates (P : Platform) (s : msegment_t) (c : Nat) :
    shmseg_split_chunk P s c ≠ .error .fuel :=
  split_chunk_fuel_enough P _ s c (by simp only [MSEGMENT_CLASS_MAX_BITS]; omega)

/-! ## Facts about allocation -/

theorem request_class_range (P : Platform) (size r : Nat)
    (h : request_class P size = .ok (some r)) :
    MSEGMENT_CLASS_MIN_BITS ≤ r ∧ r ≤ MSEGMENT_CLASS_MAX_BITS := by
  unfold request_class at h
  split at h
  · cases h
  · split at h
    · cases h
    · split at h
      · cases h; exact ⟨le_refl _, by decide⟩
      · cases h; omega

/-- A pass of `shmseg_try_alloc` that fails leaves the state as it was. -/
theorem try_alloc_pass_none (P : Platform) (s s1 : msegment_t) (r : Nat)
    (h : try_alloc_pass P s r = .ok (none, s1)) : s1 = s := by
  unfold try_alloc_pass at h
  simp only at h
  split at h
  · cases h
  · rename_i s2 heq
    cases h
    split at heq
    · exact split_chunk_fuel_false P _ _ _ _ heq
    · cases heq
  · split at h
    · cases h
    · split at h <;> cases h

/-- What a successful pass of `shmseg_try_alloc` has done: `s1` is the state in
which the chunk is taken from the list, the given state or the one left by the
split. -/
theorem try_alloc_pass_some (P : Platform) (s s2 : msegment_t) (r p : Nat)
    (h : try_alloc_pass P s r = .ok (some p, s2)) :
    ∃ s1 off rest,
      ((s.free_list r ≠ [] ∧ s1 = s) ∨
        (s.free_list r = [] ∧ shmseg_split_chunk P s (r + 1) = .ok (true, s1))) ∧
      s1.free_list r = off :: rest ∧ (s1.hdr off).mclass = r ∧
      p = off + offsetof_data P ∧ s2 = alloc_apply P s1 r off := by
  unfold try_alloc_pass at h
  simp only at h
  split at h
  · cases h
  · cases h
  · rename_i s1 heq
    split at h
    · cases h
    · rename_i off rest hlist
      split at h
      · cases h
      · rename_i hcls
        cases h
        refine ⟨s1, off, rest, ?_, hlist, by simpa using hcls, rfl, rfl⟩
        split at heq
        · rename_i hemp
          right
          exact ⟨by simpa [mlist_empty] using hemp, heq⟩
        · rename_i hemp
          cases heq
          left
          exact ⟨by simpa [mlist_empty] using hemp, rfl⟩

/-- A successful `shmseg_try_alloc` is a successful first pass for the class of
the request. -/
theorem try_alloc_some (P : Platform) (s s2 : msegment_t) (size p : Nat)
    (h : shmseg_try_alloc P s size = .ok (some p, s2)) :
    ∃ r, request_class P size = .ok (some r) ∧ try_alloc_pass P s r = .ok (some p, s2) := by
  unfold shmseg_try_alloc at h
  split at h
  · cases h
  · cases h
  · rename_i r hr
    refine ⟨r, hr, ?_⟩
    split at h
    · cases h
    · rename_i q s1 heq
      cases h; exact heq
    · rename_i s1 heq
      have hs1 := try_alloc_pass_none P s s1 r heq
      subst hs1
      rw [heq] at h
      cases h

theorem alloc_apply_hdr (P : Platform) (s : msegment_t) (r off z : Nat) :
    (alloc_apply P s r off).hdr z =
      if z = off then ⟨(s.hdr off).mclass, MCHUNK_TAG_ITEM⟩ else s.hdr z := by
  simp only [alloc_apply, mlist_del, set_mtag, add_num_free, add_num_active, upd]

theorem alloc_apply_free_list (P : Platform) (s : msegment_t) (r off c : Nat) :
    (alloc_apply P s r off).free_list c = (s.free_list c).filter (fun z => z ≠ off) := rfl

theorem alloc_apply_num_active (P : Platform) (s : msegment_t) (r off c : Nat) :
    (alloc_apply P s r off).num_active c =
      if c = r then s.num_active r + 1 else s.num_active c := by
  simp only [alloc_apply, mlist_del, set_mtag, add_num_free, add_num_active, upd]

theorem alloc_apply_usage (P : Platform) (s : msegment_t) (r off : Nat) :
    (alloc_apply P s r off).segment_usage = (s.segment_usage + 2 ^ r) % P.arch.wordMod := rfl

/-- On a 32-bit build, without wrap-around of `size + offsetof(..) - 1`, a
request that gets a class fits the chunk of that class together with the
header. -/
theorem request_class_fits_ilp32 (P : Platform) (hP : P.arch = .ILP32) (size r : Nat)
    (hsz : size + offsetof_data P ≤ 2 ^ 32) (h : request_class P size = .ok (some r)) :
    size + offsetof_data P ≤ 2 ^ r := by
  have hH : offsetof_data P = 4 := by simp [offsetof_data, hP, Arch.ptrBytes]
  have hM : P.arch.wordMod = 2 ^ 32 := by simp [Arch.wordMod, hP, Arch.ptrBytes]
  rw [hH] at hsz ⊢
  have hv32 : size + 4 - 1 < 2 ^ 32 := by omega
  obtain ⟨f, hf, h1, h32, hlo, hhi⟩ := fast_fls_ilp32 P hP (size + 4 - 1) (by omega) hv32
  unfold request_class at h
  rw [hH, hM, Nat.mod_eq_of_lt hv32, hf] at h
  simp only [MSEGMENT_CLASS_MAX_BITS, MSEGMENT_CLASS_MIN_BITS] at h
  split at h
  · cases h
  · split at h
    · cases h
      have : (2:Nat) ^ f ≤ 2 ^ 6 := Nat.pow_le_pow_right (by decide) (by omega)
      omega
    · cases h; omega

/-- On a 32-bit build, without wrap-around of `size + offsetof(..) - 1`, a
request beyond `2 ^ MSEGMENT_CLASS_MAX_BITS` is refused and the state is the
one given. -/
theorem try_alloc_oversize_ilp32 (P : Platform) (hP : P.arch = .ILP32) (s : msegment_t)
    (size : Nat) (hlo : 2 ^ MSEGMENT_CLASS_MAX_BITS < size + offsetof_data P)
    (hhi : size + offsetof_data P ≤ 2 ^ 32) :
    shmseg_try_alloc P s size = .ok (none, s) := by
  have hH : offsetof_data P = 4 := by simp [offsetof_data, hP, Arch.ptrBytes]
  have hM : P.arch.wordMod = 2 ^ 32 := by simp [Arch.wordMod, hP, Arch.ptrBytes]
  simp only [MSEGMENT_CLASS_MAX_BITS, hH] at hlo hhi
  have hv32 : size + 4 - 1 < 2 ^ 32 := by omega
  obtain ⟨f, hf, h1, h32, hflo, hfhi⟩ := fast_fls_ilp32 P hP (size + 4 - 1) (by omega) hv32
  have hf31 : f > 31 := by
    by_contra hcon
    have : (2:Nat) ^ f ≤ 2 ^ 31 := Nat.pow_le_pow_right (by decide) (by omega)
    omega
  have hrc : request_class P size = .ok none := by
    unfold request_class
    rw [hH, hM, Nat.mod_eq_of_lt hv32, hf]
    simp [MSEGMENT_CLASS_MAX_BITS, hf31]
  unfold shmseg_try_alloc
  rw [hrc]

/-- The size reported for a pointer that `shmseg_try_alloc` returned is
`2 ^ c - offsetof(mchunk_item_t, data)` for the class `c` in the chunk header,
and `c` is the class of the request; on a 32-bit build it is at least the
requested size as long as `size + offsetof(..)` does not wrap around. -/
theorem get_size_of_alloc (P : Platform) (s s2 : msegment_t) (size p : Nat)
    (h : shmseg_try_alloc P s size = .ok (some p, s2)) :
    request_class P size = .ok (some (s2.hdr (p - offsetof_data P)).mclass) ∧
    shmseg_get_size P s2 p = 2 ^ (s2.hdr (p - offsetof_data P)).mclass - offsetof_data P ∧
    (P.arch = .ILP32 → size + offsetof_data P ≤ 2 ^ 32 → size ≤ shmseg_get_size P s2 p) := by
  obtain ⟨r, hr, hpass⟩ := try_alloc_some P s s2 size p h
  obtain ⟨s1, off, rest, _, hlist, hcls, hp, hs2⟩ := try_alloc_pass_some P s s2 r p hpass
  obtain ⟨hr6, hr31⟩ := request_class_range P size r hr
  simp only [MSEGMENT_CLASS_MIN_BITS, MSEGMENT_CLASS_MAX_BITS] at hr6 hr31
  have hoff : p - offsetof_data P = off := by omega
  have hc : (s2.hdr (p - offsetof_data P)).mclass = r := by
    rw [hoff, hs2, alloc_apply_hdr]; simp [hcls]
  have hH : offsetof_data P ≤ 8 := by
    unfold offsetof_data Arch.ptrBytes; cases P.arch <;> simp
  have hM : 2 ^ 32 ≤ P.arch.wordMod := by
    unfold Arch.wordMod Arch.ptrBytes; cases P.arch <;> simp
  have h64 : (2:Nat) ^ 6 ≤ 2 ^ r := Nat.pow_le_pow_right (by decide) hr6
  have h31 : (2:Nat) ^ r ≤ 2 ^ 31 := Nat.pow_le_pow_right (by decide) hr31
  have hMpos : 0 < P.arch.wordMod := by omega
  have hsize : shmseg_get_size P s2 p = 2 ^ r - offsetof_data P := by
    unfold shmseg_get_size
    simp only [hc, shl1]
    have e : 2 ^ r + P.arch.wordMod - offsetof_data P
        = (2 ^ r - offsetof_data P) + P.arch.wordMod := by omega
    rw [e, Nat.add_mod_right, Nat.mod_eq_of_lt]
    omega
  refine ⟨by rw [hc]; exact hr, by rw [hc]; exact hsize, ?_⟩
  intro hP hsz
  have := request_class_fits_ilp32 P hP size r hsz hr
  rw [hsize]; omega

/-- C2 (evaluation at the failing input): on a 32-bit build, in a segment with a
free 64-byte chunk, `shmseg_try_alloc(4294967295)` succeeds, because
`size + 4 - 1` wraps around to 2, and `shmseg_get_size` of the returned pointer
is 60, less than the requested size. -/
theorem C2_get_size_below_request :
    (shmseg_try_alloc ilp32 seg64 4294967295).map
        (fun r => (r.1, r.1.map (shmseg_get_size ilp32 r.2))) = .ok (some 8196, some 60) ∧
    (60 : Nat) < 4294967295 ∧ 4294967295 < ilp32.arch.wordMod := by
  decide

/-- C3: a successful `shmseg_try_alloc` for a request of class `r` takes the
head `off` of `free_list[r]` (of the given state, or of the state the split has
left when the list was empty); that chunk was Free with class `r`, is tagged
`MCHUNK_TAG_ITEM` with class `r` on return, is in no free list, `num_active[r]`
has grown by one and `segment_usage` by `2 ^ r`. -/
theorem C3_try_alloc_takes_free_chunk (P : Platform) (s s2 : msegment_t) (size p : Nat)
    (hfree : FreeTagged s) (h : shmseg_try_alloc P s size = .ok (some p, s2)) :
    ∃ r s1 off, request_class P size = .ok (some r) ∧ p = off + offsetof_data P ∧
      ((s.free_list r ≠ [] ∧ s1 = s) ∨
        (s.free_list r = [] ∧ shmseg_split_chunk P s (r + 1) = .ok (true, s1))) ∧
      (s1.free_list r).head? = some off ∧ s1.hdr off = ⟨r, MCHUNK_TAG_FREE⟩ ∧
      s2.hdr off = ⟨r, MCHUNK_TAG_ITEM⟩ ∧ (∀ c, off ∉ s2.free_list c) ∧
      s2.num_active r = s.num_active r + 1 ∧
      s2.segment_usage = (s.segment_usage + 2 ^ r) % P.arch.wordMod ∧
      (s.segment_usage + 2 ^ r < P.arch.wordMod →
        s2.segment_usage = s.segment_usage + 2 ^ r) := by
  obtain ⟨r, hr, hpass⟩ := try_alloc_some P s s2 size p h
  obtain ⟨s1, off, rest, hs1, hlist, hcls, hp, hs2⟩ := try_alloc_pass_some P s s2 r p hpass
  have hkeep : FreeTagged s1 ∧ s1.num_active = s.num_active ∧
      s1.segment_usage = s.segment_usage := by
    rcases hs1 with ⟨_, rfl⟩ | ⟨_, hsplit⟩
    · exact ⟨hfree, rfl, rfl⟩
    · exact split_chunk_fuel_inv P
        (fun t => FreeTagged t ∧ t.num_active = s.num_active ∧
          t.segment_usage = s.segment_usage)
        (fun t c x ht => ⟨split_apply_freeTagged P t c x ht.1, ht.2⟩)
        _ s (r + 1) true s1 ⟨hfree, rfl, rfl⟩ hsplit
  obtain ⟨hft, hna, hus⟩ := hkeep
  have htag : (s1.hdr off).mtag = MCHUNK_TAG_FREE := hft r off (by rw [hlist]; simp)
  have husage : s2.segment_usage = (s.segment_usage + 2 ^ r) % P.arch.wordMod := by
    rw [hs2, alloc_apply_usage, hus]
  refine ⟨r, s1, off, hr, hp, hs1, by rw [hlist]; rfl, ?_, ?_, ?_, ?_, husage, ?_⟩
  · cases hh : s1.hdr off with
    | mk a b => rw [hh] at hcls htag; simp at hcls htag; rw [hcls, htag]
  · rw [hs2, alloc_apply_hdr]; simp [hcls]
  · intro c
    rw [hs2, alloc_apply_free_list]
    simp
  · rw [hs2, alloc_apply_num_active, hna]; simp
  · intro hlt
    rw [husage, Nat.mod_eq_of_lt hlt]

/-- Witness of C3: in the segment whose only chunk is a free 256-byte chunk,
`shmseg_try_alloc(100)` succeeds on a 32-bit build, after one split. -/
theorem C3_try_alloc_takes_free_chunk_witness :
    FreeTagged seg256 ∧
    ∃ r s1 off, request_class ilp32 100 = .ok (some r) ∧ 8324 = off + offsetof_data ilp32 ∧
      ((seg256.free_list r ≠ [] ∧ s1 = seg256) ∨
        (seg256.free_list r = [] ∧ shmseg_split_chunk ilp32 seg256 (r + 1) = .ok (true, s1))) ∧
      (s1.free_list r).head? = some off ∧ s1.hdr off = ⟨r, MCHUNK_TAG_FREE⟩ ∧
      (alloc_apply ilp32 (split_apply ilp32 seg256 8 8192) 7 8320).hdr off
        = ⟨r, MCHUNK_TAG_ITEM⟩ ∧
      (∀ c, off ∉ (alloc_apply ilp32 (split_apply ilp32 seg256 8 8192) 7 8320).free_list c) ∧
      (alloc_apply ilp32 (split_apply ilp32 seg256 8 8192) 7 8320).num_active r
        = seg256.num_active r + 1 ∧
      (alloc_apply ilp32 (split_apply ilp32 seg256 8 8192) 7 8320).segment_usage
        = (seg256.segment_usage + 2 ^ r) % ilp32.arch.wordMod ∧
      (seg256.segment_usage + 2 ^ r < ilp32.arch.wordMod →
        (alloc_apply ilp32 (split_apply ilp32 seg256 8 8192) 7 8320).segment_usage
          = seg256.segment_usage + 2 ^ r) :=
  have hft : FreeTagged seg256 := by
    intro c x hx
    by_cases hc : c = 8
    · subst hc
      have : x = 8192 := by simpa [seg256] using hx
      subst this
      rfl
    · simp [seg256, hc] at hx
  ⟨hft, C3_try_alloc_takes_free_chunk ilp32 seg256 _ 100 8324 hft rfl⟩

/-- C4 (evaluation at the failing input): on a 32-bit build the request
`size = 4294967293` has `size + 4 > 2 ^ 31`, yet `size + 4 - 1` wraps around to
0, the class is clamped to 6 and `shmseg_try_alloc` returns a pointer and
takes the chunk off `free_list[6]` and changes the counters and the usage. -/
theorem C4_oversize_request_served :
    2 ^ MSEGMENT_CLASS_MAX_BITS < 4294967293 + offsetof_data ilp32 ∧
    4294967293 < ilp32.arch.wordMod ∧
    (seg64.free_list 6, seg64.num_free 6, seg64.num_active 6, seg64.segment_usage)
      = ([8192], 1, 1, 8128) ∧
    (shmseg_try_alloc ilp32 seg64 4294967293).map
        (fun r => (r.1, r.2.free_list 6, r.2.num_free 6, r.2.num_active 6, r.2.segment_usage))
      = .ok (some 8196, [], 0, 2, 8192) := by
  decide

/-- With every free list from class `c` up to `MSEGMENT_CLASS_MAX_BITS` empty,
`shmseg_split_chunk(c)` returns `false` and leaves the state as it was. -/
theorem split_chunk_fuel_exhausted (P : Platform) (s : msegment_t) :
    ∀ (fuel c : Nat), MSEGMENT_CLASS_MIN_BITS < c → c ≤ MSEGMENT_CLASS_MAX_BITS →
      MSEGMENT_CLASS_MAX_BITS - c < fuel →
      (∀ k, c ≤ k → k ≤ MSEGMENT_CLASS_MAX_BITS → s.free_list k = []) →
      split_chunk_fuel P fuel s c = .ok (false, s) := by
  intro fuel
  induction fuel with
  | zero => intro c _ _ h; omega
  | succ fuel ih =>
    intro c h6 h31 hfuel hemp
    unfold split_chunk_fuel
    have hassert : c > MSEGMENT_CLASS_MIN_BITS ∧ c ≤ MSEGMENT_CLASS_MAX_BITS := ⟨h6, h31⟩
    have hE : mlist_empty s c = true := by
      simp [mlist_empty, hemp c (le_refl _) h31]
    simp only [hassert, not_true_eq_false, if_false, hE, if_true, and_self]
    by_cases hmax : c = MSEGMENT_CLASS_MAX_BITS
    · simp [hmax]
    · have hrec := ih (c + 1) (by omega) (by omega) (by omega)
        (fun k hk hk31 => hemp k (by omega) hk31)
      simp [hmax, hrec]

/-- Exhaustion below the largest class: when the class `r` of the request is
less than `MSEGMENT_CLASS_MAX_BITS` and every free list from `r` up is empty,
`shmseg_try_alloc` returns `NULL` after its retry and the state is the one
given. -/
theorem try_alloc_exhausted (P : Platform) (s : msegment_t) (size r : Nat)
    (hr : request_class P size = .ok (some r)) (hlt : r < MSEGMENT_CLASS_MAX_BITS)
    (hemp : ∀ k, r ≤ k → k ≤ MSEGMENT_CLASS_MAX_BITS → s.free_list k = []) :
    shmseg_try_alloc P s size = .ok (none, s) := by
  obtain ⟨hr6, hr31⟩ := request_class_range P size r hr
  have hsplit : shmseg_split_chunk P s (r + 1) = .ok (false, s) :=
    split_chunk_fuel_exhausted P s _ (r + 1) (by omega) (by omega)
      (by simp only [MSEGMENT_CLASS_MAX_BITS]; omega) (fun k hk hk31 => hemp k (by omega) hk31)
  have hpass : try_alloc_pass P s r = .ok (none, s) := by
    unfold try_alloc_pass
    have hE : mlist_empty s r = true := by
      simp [mlist_empty, hemp r (le_refl _) hr31]
    simp [hE, hsplit]
  unfold shmseg_try_alloc
  simp [hr, hpass]

/-- C5 (evaluation at the failing input): on a 32-bit build a request of
`2 ^ 30` bytes has class 31 = `MSEGMENT_CLASS_MAX_BITS`; with `free_list[31]`
empty `shmseg_try_alloc` calls `shmseg_split_chunk(32)`, whose entry assertion
`mclass <= MSEGMENT_CLASS_MAX_BITS` fails, instead of returning `NULL`. -/
theorem C5_exhausted_at_max_class_asserts :
    request_class ilp32 (2 ^ 30) = .ok (some MSEGMENT_CLASS_MAX_BITS) ∧
    (∀ c, segFull.free_list c = []) ∧
    shmseg_split_chunk ilp32 segFull (MSEGMENT_CLASS_MAX_BITS + 1) = .error .assertion ∧
    shmseg_try_alloc ilp32 segFull (2 ^ 30) = .error .assertion :=
  ⟨by decide, fun _ => rfl, rfl, rfl⟩

/-! ## Facts about freeing -/

theorem buddy_offset_aligned (x c : Nat) (hx : x % 2 ^ c = 0) :
    (if x / 2 ^ c % 2 = 1 then x - 2 ^ c else x + 2 ^ c) % 2 ^ c = 0 := by
  have hd : 2 ^ c ∣ x := Nat.dvd_of_mod_eq_zero hx
  split
  · exact Nat.mod_eq_zero_of_dvd (Nat.dvd_sub' hd (dvd_refl _))
  · exact Nat.mod_eq_zero_of_dvd (Nat.dvd_add hd (dvd_refl _))

/-- Started on an aligned chunk, the coalesce loop of `shmseg_free` ends without
a failed assertion whenever `buddy` designates a chunk header, whichever it is;
it leaves `num_active` and `segment_usage` alone and never removes a tag
`MCHUNK_TAG_FREE`. -/
theorem free_loop_ok (P : Platform) (buddy : Nat) :
    ∀ (fuel : Nat) (s : msegment_t) (c x : Nat), x % 2 ^ c = 0 →
      MSEGMENT_CLASS_MAX_BITS - c ≤ fuel →
      ∃ s1 c1 x1, free_loop P (some buddy) fuel s c x = .ok (s1, c1, x1) ∧
        s1.num_active = s.num_active ∧ s1.segment_usage = s.segment_usage ∧
        ∀ z, (s.hdr z).mtag = MCHUNK_TAG_FREE → (s1.hdr z).mtag = MCHUNK_TAG_FREE := by
  intro fuel
  induction fuel with
  | zero =>
    intro s c x _ hfuel
    have : ¬ c < MSEGMENT_CLASS_MAX_BITS := by omega
    exact ⟨s, c, x, by simp [free_loop, this], rfl, rfl, fun _ h => h⟩
  | succ fuel ih =>
    intro s c x hx hfuel
    unfold free_loop
    by_cases hc : c < MSEGMENT_CLASS_MAX_BITS
    · have hal := buddy_offset_aligned x c hx
      simp only [hc, if_true, shl1]
      generalize (if x / 2 ^ c % 2 = 1 then x - 2 ^ c else x + 2 ^ c) = ob at hal ⊢
      simp only [hal, ne_eq, not_true_eq_false, if_false]
      by_cases hr : ob < P.sizeof_msegment_t ∨ ob > s.segment_size
      · simp only [hr, if_true]
        exact ⟨s, c, x, rfl, rfl, rfl, fun _ h => h⟩
      · simp only [hr, if_false]
        by_cases hh : ¬(s.hdr buddy).mclass = c ∨ ¬(s.hdr buddy).mtag = MCHUNK_TAG_FREE
        · simp only [hh, if_true]
          exact ⟨s, c, x, rfl, rfl, rfl, fun _ h => h⟩
        · simp only [hh, if_false]
          have hx1 : (x - x % 2 ^ (c + 1)) % 2 ^ (c + 1) = 0 :=
            Nat.sub_mod_eq_zero_of_mod_eq (by simp)
          obtain ⟨s1, c1, x1, hrun, hna, hus, htag⟩ :=
            ih (merge_apply s c x buddy) (c + 1) (x - x % 2 ^ (c + 1)) hx1 (by omega)
          refine ⟨s1, c1, x1, hrun, hna, hus, ?_⟩
          intro z hz
          apply htag
          simp only [merge_apply, set_mtag, set_mclass, add_num_free, mlist_del, upd, shl1]
          by_cases hzx : z = x - x % 2 ^ (c + 1)
          · simp [hzx]
          · simp [hzx, hz]
    · exact ⟨s, c, x, by simp [hc], rfl, rfl, fun _ h => h⟩

/-- What `shmseg_free` does when `buddy` happens to designate a chunk header,
whichever it is: for a chunk at offset `off` tagged `MCHUNK_TAG_ITEM`, of class
`c ≤ MSEGMENT_CLASS_MAX_BITS` and aligned to `2 ^ c`, the call on its payload
pointer returns with the chunk tagged Free, `num_active[c]` less by one, the
other `num_active[k]` as before, and `segment_usage` less by `2 ^ c`. -/
theorem shmseg_free_marks_and_counts (P : Platform) (s : msegment_t) (off c buddy : Nat)
    (htag : (s.hdr off).mtag = MCHUNK_TAG_ITEM) (hcls : (s.hdr off).mclass = c)
    (hc : c ≤ MSEGMENT_CLASS_MAX_BITS) (halign : off % 2 ^ c = 0) :
    ∃ s2, shmseg_free P s (off + offsetof_data P) (some buddy) = .ok s2 ∧
      (s2.hdr off).mtag = MCHUNK_TAG_FREE ∧
      s2.num_active c = s.num_active c - 1 ∧
      (∀ k, k ≠ c → s2.num_active k = s.num_active k) ∧
      s2.segment_usage = (s.segment_usage + P.arch.wordMod - 2 ^ c) % P.arch.wordMod ∧
      (2 ^ c ≤ s.segment_usage → s.segment_usage < P.arch.wordMod →
        s2.segment_usage = s.segment_usage - 2 ^ c) := by
  have hM : 2 ^ 32 ≤ P.arch.wordMod := by
    unfold Arch.wordMod Arch.ptrBytes; cases P.arch <;> simp
  have h31 : (2:Nat) ^ c ≤ 2 ^ 31 := Nat.pow_le_pow_right (by decide) hc
  have hmod : 2 ^ c % P.arch.wordMod = 2 ^ c := Nat.mod_eq_of_lt (by omega)
  obtain ⟨s1, c1, x1, hrun, hna, hus, hkeep⟩ :=
    free_loop_ok P buddy (MSEGMENT_CLASS_MAX_BITS + 1) (free_begin P s c off)
      c off halign (by omega)
  have hne : ¬ (s.hdr off).mtag = MCHUNK_TAG_FREE := by
    rw [htag]; decide
  have hfree : shmseg_free P s (off + offsetof_data P) (some buddy)
      = .ok (free_end s1 c1 x1) := by
    unfold shmseg_free
    simp only [Nat.add_sub_cancel, hne, if_false, hcls]
    rw [hrun]
  refine ⟨_, hfree, ?_, ?_, ?_, ?_, ?_⟩
  · have := hkeep off (by simp [free_begin, set_mtag, add_num_active, upd])
    simpa [free_end, add_num_free, mlist_add] using this
  · simp only [free_end, free_begin, add_num_free, mlist_add, hna, add_num_active, set_mtag, upd]
    simp; ring
  · intro k hk
    simp only [free_end, free_begin, add_num_free, mlist_add, hna, add_num_active, set_mtag, upd]
    simp [hk]
  · simp only [free_end, free_begin, add_num_free, mlist_add, hus, add_num_active, set_mtag,
      shl1, hmod]
  · intro hge hlt
    simp only [free_end, free_begin, add_num_free, mlist_add, hus, add_num_active, set_mtag,
      shl1, hmod]
    have e : s.segment_usage + P.arch.wordMod - 2 ^ c
        = (s.segment_usage - 2 ^ c) + P.arch.wordMod := by omega
    rw [e, Nat.add_mod_right, Nat.mod_eq_of_lt]
    omega

/-- When the header that `buddy` designates does not read "class of the freed
chunk, tag Free", `shmseg_free` merges nothing: the chunk goes on the list of
its own class. -/
theorem shmseg_free_no_merge (P : Platform) (s : msegment_t) (off b : Nat)
    (hnot : (s.hdr off).mtag ≠ MCHUNK_TAG_FREE) (hb : b ≠ off)
    (hmis : (s.hdr b).mclass ≠ (s.hdr off).mclass ∨ (s.hdr b).mtag ≠ MCHUNK_TAG_FREE)
    (halign : off % 2 ^ (s.hdr off).mclass = 0) :
    shmseg_free P s (off + offsetof_data P) (some b)
      = .ok (free_end (free_begin P s (s.hdr off).mclass off) (s.hdr off).mclass off) := by
  have hhdr : (free_begin P s (s.hdr off).mclass off).hdr b = s.hdr b := by
    simp [free_begin, set_mtag, add_num_active, upd, hb]
  have hloop : free_loop P (some b) (MSEGMENT_CLASS_MAX_BITS + 1)
      (free_begin P s (s.hdr off).mclass off) (s.hdr off).mclass off
      = .ok (free_begin P s (s.hdr off).mclass off, (s.hdr off).mclass, off) := by
    unfold free_loop
    by_cases hc : (s.hdr off).mclass < MSEGMENT_CLASS_MAX_BITS
    · have hal := buddy_offset_aligned off _ halign
      simp only [hc, if_true, shl1]
      generalize (if off / 2 ^ (s.hdr off).mclass % 2 = 1 then off - 2 ^ (s.hdr off).mclass
        else off + 2 ^ (s.hdr off).mclass) = ob at hal ⊢
      simp only [hal, ne_eq, not_true_eq_false, if_false, hhdr]
      by_cases hr : ob < P.sizeof_msegment_t ∨
          ob > (free_begin P s (s.hdr off).mclass off).segment_size
      · simp only [hr, if_true]
      · have hmis2 : ¬(s.hdr b).mclass = (s.hdr off).mclass ∨
            ¬(s.hdr b).mtag = MCHUNK_TAG_FREE := hmis
        simp only [hr, if_false, hmis2, if_true]
    · simp [hc]
  unfold shmseg_free
  simp only [Nat.add_sub_cancel, hnot, if_false]
  rw [hloop]

/-- With a `buddy` that designates no chunk header, `shmseg_free` does not
return once the coalesce loop gets to line 322: for a chunk whose tag is not
`MCHUNK_TAG_FREE`, of a class `c` below `MSEGMENT_CLASS_MAX_BITS`, aligned to
`2 ^ c`, whose buddy offset passes the range test of lines 315-316, the read of
`buddy->mclass` has no defined result. -/
theorem shmseg_free_unassigned_buddy (P : Platform) (s : msegment_t) (off c : Nat)
    (hne : (s.hdr off).mtag ≠ MCHUNK_TAG_FREE) (hcls : (s.hdr off).mclass = c)
    (hc : c < MSEGMENT_CLASS_MAX_BITS) (halign : off % 2 ^ c = 0)
    (hlo : P.sizeof_msegment_t ≤ buddy_of off c) (hhi : buddy_of off c ≤ s.segment_size) :
    shmseg_free P s (off + offsetof_data P) none = .error .undefined := by
  have hal := buddy_offset_aligned off c halign
  have hseg : (free_begin P s c off).segment_size = s.segment_size := rfl
  unfold buddy_of at hlo hhi
  have hloop : free_loop P none (MSEGMENT_CLASS_MAX_BITS + 1) (free_begin P s c off) c off
      = .error .undefined := by
    unfold free_loop
    simp only [hc, if_true, shl1, hseg]
    generalize (if off / 2 ^ c % 2 = 1 then off - 2 ^ c else off + 2 ^ c) = ob at hal hlo hhi ⊢
    have hr : ¬ (ob < P.sizeof_msegment_t ∨ ob > s.segment_size) := by omega
    simp only [hal, ne_eq, not_true_eq_false, if_false, hr]
  unfold shmseg_free
  simp only [Nat.add_sub_cancel, hne, if_false, hcls]
  rw [hloop]

/-- The buddy offset of a chunk that is not aligned to its size is not aligned
either. -/
theorem buddy_offset_misaligned (x c : Nat) (hx : x % 2 ^ c ≠ 0) :
    (if x / 2 ^ c % 2 = 1 then x - 2 ^ c else x + 2 ^ c) % 2 ^ c ≠ 0 := by
  split
  · rename_i h
    have hge : 2 ^ c ≤ x := by
      by_contra hlt
      have : x / 2 ^ c = 0 := Nat.div_eq_of_lt (by omega)
      rw [this] at h
      cases h
    rw [← Nat.mod_eq_sub_mod hge]
    exact hx
  · rw [Nat.add_mod_right]
    exact hx

/-- For a chunk whose tag is not `MCHUNK_TAG_FREE`, of a class `c` below
`MSEGMENT_CLASS_MAX_BITS`, at an offset that is not a multiple of `2 ^ c`,
`shmseg_free` fails the assertion of line 310, whatever `buddy` designates. -/
theorem shmseg_free_misaligned (P : Platform) (s : msegment_t) (off c : Nat)
    (buddy : Option Nat)
    (hne : (s.hdr off).mtag ≠ MCHUNK_TAG_FREE) (hcls : (s.hdr off).mclass = c)
    (hc : c < MSEGMENT_CLASS_MAX_BITS) (halign : off % 2 ^ c ≠ 0) :
    shmseg_free P s (off + offsetof_data P) buddy = .error .assertion := by
  have hal := buddy_offset_misaligned off c halign
  have hloop : free_loop P buddy (MSEGMENT_CLASS_MAX_BITS + 1) (free_begin P s c off) c off
      = .error .assertion := by
    unfold free_loop
    simp only [hc, if_true, shl1]
    generalize (if off / 2 ^ c % 2 = 1 then off - 2 ^ c else off + 2 ^ c) = ob at hal ⊢
    simp only [hal, ne_eq, not_false_eq_true, if_true]
  unfold shmseg_free
  simp only [Nat.add_sub_cancel, hne, if_false, hcls]
  rw [hloop]

/-- C6 (the code at the failing inputs): on a 32-bit build, after
`shmseg_init_msegment` with `segment_size = 8704` and `shmseg_try_alloc(100)`,
the chunk at 8576 is allocated with class 7 and aligned to 128; its buddy
offset, 8448, passes the range test, so `shmseg_free(8580)` reads
`buddy->mclass` through the pointer that was never assigned.  When that pointer
designates no chunk header the read has no defined result: the call does not
return, and its events end after the read of `segment_size`, with the lock
held.  After `shmseg_init_msegment` with `segment_size = 40960`,
`shmseg_try_alloc(10000)` returns the class-14 chunk at 24576, which is not a
multiple of `2 ^ 14`, and `shmseg_free` of it fails the assertion of line 310
with the lock held, whatever `buddy` designates. -/
theorem C6_free_of_allocated_chunk_faults :
    shmseg_init_msegment ilp32 rawZero 8704 = .ok initSmall ∧
    shmseg_try_alloc ilp32 initSmall 100 = .ok (some 8580, initSmall_one) ∧
    initSmall_one.hdr 8576 = ⟨7, MCHUNK_TAG_ITEM⟩ ∧ 8576 % 2 ^ 7 = 0 ∧
    buddy_of 8576 7 = 8448 ∧ ilp32.sizeof_msegment_t ≤ 8448 ∧
    8448 ≤ initSmall_one.segment_size ∧
    shmseg_free ilp32 initSmall_one 8580 none = .error .undefined ∧
    shmseg_free_trace ilp32 initSmall_one 8580 none
      = [.hdr 8576, .hdr 8576, .lock, .hdr 8576, .seg, .seg, .seg] ∧
    lock_run false (shmseg_free_trace ilp32 initSmall_one 8580 none) = some true ∧
    ((shmseg_init_msegment ilp32 rawZero 40960).bind
        (fun s => shmseg_try_alloc ilp32 s 10000)).map (fun r => (r.1, r.2.hdr 24576))
      = .ok (some 24580, ⟨14, MCHUNK_TAG_ITEM⟩) ∧
    24576 % 2 ^ 14 ≠ 0 ∧
    ∀ buddy : Option Nat,
      ((shmseg_init_msegment ilp32 rawZero 40960).bind
          (fun s => shmseg_try_alloc ilp32 s 10000)).bind
          (fun r => (shmseg_free ilp32 r.2 24580 buddy).map (fun _ => ()))
        = .error .assertion ∧
      ((shmseg_init_msegment ilp32 rawZero 40960).bind
          (fun s => shmseg_try_alloc ilp32 s 10000)).map
          (fun r => lock_run false (shmseg_free_trace ilp32 r.2 24580 buddy))
        = .ok (some true) := by
  refine ⟨rfl, rfl, by decide, by decide, by decide, by decide, by decide, rfl, by decide,
    by decide, by decide, by decide, ?_⟩
  intro buddy
  have h : (shmseg_init_msegment ilp32 rawZero 40960).bind
      (fun s => shmseg_try_alloc ilp32 s 10000)
      = .ok (some 24580,
          alloc_apply ilp32
            (init_emit (init_emit { rawZero with segment_size := 40960 } 14 8192) 14 24576)
            14 24576) := rfl
  rw [h]
  exact ⟨rfl, rfl⟩

/-- C7 (the code at the failing input): in `segPair` the chunk at 8192 is freed
while its buddy at 8320 is a Free chunk of class 7 and the buddy of their union,
at 8448, is a Free chunk of class 8.  Whatever chunk header the unassigned
`buddy` designates, short of the freed chunk itself, `shmseg_free` ends by
putting a chunk `X` of a class `c < MSEGMENT_CLASS_MAX_BITS` on `free_list[c]`
while the block at the buddy offset, inside the segment, is a Free chunk of
class `c` on the same list. -/
theorem C7_free_leaves_free_buddy_pair (b : Nat) (hb : b ≠ 8192) :
    ∃ s2 X c, shmseg_free ilp32 segPair 8196 (some b) = .ok s2 ∧
      (s2.free_list c).head? = some X ∧ c < MSEGMENT_CLASS_MAX_BITS ∧
      ilp32.sizeof_msegment_t ≤ buddy_of X c ∧ buddy_of X c + 2 ^ c ≤ s2.segment_size ∧
      s2.hdr (buddy_of X c) = ⟨c, MCHUNK_TAG_FREE⟩ ∧ buddy_of X c ∈ s2.free_list c := by
  by_cases hb2 : b = 8320
  · subst hb2
    refine ⟨free_end (merge_apply (free_begin ilp32 segPair 7 8192) 7 8192 8320) 8 8192,
      8192, 8, rfl, ?_, ?_, ?_, ?_, ?_, ?_⟩ <;> decide
  · have hmis : (segPair.hdr b).mclass ≠ (segPair.hdr 8192).mclass ∨
        (segPair.hdr b).mtag ≠ MCHUNK_TAG_FREE := by
      simp only [segPair, hb, hb2, if_false]
      split_ifs <;> decide
    have hfree := shmseg_free_no_merge ilp32 segPair 8192 b (by decide) hb hmis (by decide)
    refine ⟨_, 8192, 7, hfree, ?_, ?_, ?_, ?_, ?_, ?_⟩ <;> decide

/-- Witness of C7: `buddy` designating the true buddy, offset 8320. -/
theorem C7_free_leaves_free_buddy_pair_witness :
    8320 ≠ 8192 ∧
    ∃ s2 X c, shmseg_free ilp32 segPair 8196 (some 8320) = .ok s2 ∧
      (s2.free_list c).head? = some X ∧ c < MSEGMENT_CLASS_MAX_BITS ∧
      ilp32.sizeof_msegment_t ≤ buddy_of X c ∧ buddy_of X c + 2 ^ c ≤ s2.segment_size ∧
      s2.hdr (buddy_of X c) = ⟨c, MCHUNK_TAG_FREE⟩ ∧ buddy_of X c ∈ s2.free_list c :=
  ⟨by decide, C7_free_leaves_free_buddy_pair 8320 (by decide)⟩

theorem except_map_ok {α β : Type} (e : Except Fault α) (f : α → β) (v : β)
    (h : e.map f = .ok v) : ∃ a, e = .ok a ∧ f a = v := by
  cases e with
  | error x => cases h
  | ok a => exact ⟨a, rfl, by simpa [Except.map] using h⟩

/-- In the states of the scenario on `seg256` no header other than those of the
two halves carries the tag `MCHUNK_TAG_FREE`. -/
theorem seg256_hdr_other (b : Nat) (h1 : b ≠ 8192) :
    (seg256.hdr b).mtag ≠ MCHUNK_TAG_FREE := by
  simp only [seg256, h1, if_false]
  split_ifs <;> decide

theorem seg256_one_hdr_other (b : Nat) (h1 : b ≠ 8192) (h2 : b ≠ 8320) :
    (seg256_one.hdr b).mtag ≠ MCHUNK_TAG_FREE := by
  have h := seg256_hdr_other b h1
  have e : seg256_one.hdr b = seg256.hdr b := by
    simp [seg256_one, alloc_apply_hdr, split_apply_hdr, h1, h2, shl1,
      ilp32, Arch.wordMod, Arch.ptrBytes]
  rw [e]; exact h

theorem seg256_two_hdr_other (b : Nat) (h1 : b ≠ 8192) (h2 : b ≠ 8320) :
    (seg256_two.hdr b).mtag ≠ MCHUNK_TAG_FREE := by
  have h := seg256_one_hdr_other b h1 h2
  have e : seg256_two.hdr b = seg256_one.hdr b := by
    simp [seg256_two, alloc_apply_hdr, h1]
  rw [e]; exact h

theorem seg256_low_freed_hdr_other (b : Nat) (h1 : b ≠ 8192) (h2 : b ≠ 8320) :
    (seg256_low_freed.hdr b).mtag ≠ MCHUNK_TAG_FREE := by
  have h := seg256_two_hdr_other b h1 h2
  have e : seg256_low_freed.hdr b = seg256_two.hdr b := by
    simp [seg256_low_freed, free_end, free_begin, mlist_add, add_num_free, add_num_active,
      set_mtag, upd, h1]
  rw [e]; exact h

theorem seg256_low_cascade_hdr_other (b : Nat) (h1 : b ≠ 8192) (h2 : b ≠ 8320) :
    (seg256_low_cascade.hdr b).mtag ≠ MCHUNK_TAG_FREE := by
  have h := seg256_two_hdr_other b h1 h2
  have e : seg256_low_cascade.hdr b = seg256_two.hdr b := by
    simp [seg256_low_cascade, merge_apply, free_end, free_begin, mlist_add, mlist_del,
      add_num_free, add_num_active, set_mtag, set_mclass, upd, shl1, h1]
  rw [e]; exact h

/-- A state with a member in `free_list[7]` or `free_list[13]` is not the state
whose free lists hold the single 256-byte chunk at 8192. -/
theorem not_single_256 (s : msegment_t)
    (h : (decide (s.free_list 7 ≠ []) || decide (s.free_list 13 ≠ [])) = true) :
    ¬ (s.free_list 8 = [8192] ∧ ∀ c, c ≠ 8 → s.free_list c = []) := by
  rintro ⟨_, hall⟩
  have h7 := hall 7 (by decide)
  have h13 := hall 13 (by decide)
  simp [h7, h13] at h

/-- Freeing the upper half after the lower half was put on `free_list[7]`
unmerged: no chunk header that `buddy` may designate leaves the single 256-byte
chunk. -/
theorem free_upper_after_low_freed (b2 : Nat) :
    ∃ s4, shmseg_free ilp32 seg256_low_freed 8324 (some b2) = .ok s4 ∧
      ¬ (s4.free_list 8 = [8192] ∧ ∀ c, c ≠ 8 → s4.free_list c = []) := by
  by_cases h1 : b2 = 8320
  · subst h1
    obtain ⟨s4, hs4, hobs⟩ := except_map_ok (shmseg_free ilp32 seg256_low_freed 8324 (some 8320))
      (fun s => decide (s.free_list 7 ≠ []) || decide (s.free_list 13 ≠ [])) true (by decide)
    exact ⟨s4, hs4, not_single_256 s4 hobs⟩
  · by_cases h2 : b2 = 8192
    · subst h2
      obtain ⟨s4, hs4, hobs⟩ := except_map_ok (shmseg_free ilp32 seg256_low_freed 8324 (some 8192))
        (fun s => decide (s.free_list 7 ≠ []) || decide (s.free_list 13 ≠ [])) true (by decide)
      exact ⟨s4, hs4, not_single_256 s4 hobs⟩
    · have hmis : (seg256_low_freed.hdr b2).mclass ≠ (seg256_low_freed.hdr 8320).mclass ∨
          (seg256_low_freed.hdr b2).mtag ≠ MCHUNK_TAG_FREE := by
        exact Or.inr (seg256_low_freed_hdr_other b2 h2 h1)
      have hfree := shmseg_free_no_merge ilp32 seg256_low_freed 8320 b2 (by decide) h1 hmis
        (by decide)
      exact ⟨_, hfree, not_single_256 _ (by decide)⟩

/-- Freeing the upper half after the lower half went through the cascade: no
chunk header that `buddy` may designate leaves the single 256-byte chunk. -/
theorem free_upper_after_cascade (b2 : Nat) :
    ∃ s4, shmseg_free ilp32 seg256_low_cascade 8324 (some b2) = .ok s4 ∧
      ¬ (s4.free_list 8 = [8192] ∧ ∀ c, c ≠ 8 → s4.free_list c = []) := by
  by_cases h1 : b2 = 8320
  · subst h1
    obtain ⟨s4, hs4, hobs⟩ := except_map_ok (shmseg_free ilp32 seg256_low_cascade 8324 (some 8320))
      (fun s => decide (s.free_list 7 ≠ []) || decide (s.free_list 13 ≠ [])) true (by decide)
    exact ⟨s4, hs4, not_single_256 s4 hobs⟩
  · by_cases h2 : b2 = 8192
    · subst h2
      obtain ⟨s4, hs4, hobs⟩ :=
        except_map_ok (shmseg_free ilp32 seg256_low_cascade 8324 (some 8192))
        (fun s => decide (s.free_list 7 ≠ []) || decide (s.free_list 13 ≠ [])) true (by decide)
      exact ⟨s4, hs4, not_single_256 s4 hobs⟩
    · have hmis : (seg256_low_cascade.hdr b2).mclass ≠ (seg256_low_cascade.hdr 8320).mclass ∨
          (seg256_low_cascade.hdr b2).mtag ≠ MCHUNK_TAG_FREE := by
        exact Or.inr (seg256_low_cascade_hdr_other b2 h2 h1)
      have hfree := shmseg_free_no_merge ilp32 seg256_low_cascade 8320 b2 (by decide) h1 hmis
        (by decide)
      exact ⟨_, hfree, not_single_256 _ (by decide)⟩

/-- C8 (the code on the witness scenario): on a 32-bit build, from the state
whose only free chunk is the 256-byte chunk at 8192, two `shmseg_try_alloc(100)`
return the two 128-byte halves (pointers 8324 and 8196).  Freeing the lower half
and then the upper half does not leave the single free 256-byte chunk, whatever
chunk header the unassigned `buddy` designates in either call. -/
theorem C8_free_both_children_not_restored (b1 b2 : Nat) :
    shmseg_try_alloc ilp32 seg256 100 = .ok (some 8324, seg256_one) ∧
    shmseg_try_alloc ilp32 seg256_one 100 = .ok (some 8196, seg256_two) ∧
    ∃ s3 s4, shmseg_free ilp32 seg256_two 8196 (some b1) = .ok s3 ∧
      shmseg_free ilp32 s3 8324 (some b2) = .ok s4 ∧
      ¬ (s4.free_list 8 = [8192] ∧ ∀ c, c ≠ 8 → s4.free_list c = []) := by
  refine ⟨rfl, rfl, ?_⟩
  by_cases h1 : b1 = 8192
  · subst h1
    obtain ⟨s4, hs4, hbad⟩ := free_upper_after_cascade b2
    exact ⟨seg256_low_cascade, s4, rfl, hs4, hbad⟩
  · have hmis : (seg256_two.hdr b1).mclass ≠ (seg256_two.hdr 8192).mclass ∨
        (seg256_two.hdr b1).mtag ≠ MCHUNK_TAG_FREE := by
      by_cases h2 : b1 = 8320
      · subst h2; decide
      · exact Or.inr (seg256_two_hdr_other b1 h1 h2)
    have hfree : shmseg_free ilp32 seg256_two 8196 (some b1) = .ok seg256_low_freed :=
      shmseg_free_no_merge ilp32 seg256_two 8192 b1 (by decide) h1 hmis (by decide)
    obtain ⟨s4, hs4, hbad⟩ := free_upper_after_low_freed b2
    exact ⟨seg256_low_freed, s4, hfree, hs4, hbad⟩

/-- C9 (the code at the failing input): on a 32-bit build, from the state whose
only free chunk is the 256-byte chunk at 8192, `shmseg_try_alloc(100)` returns
the pointer 8324 and `shmseg_free(8324)` right after it returns, but the free
lists are not those of the starting state, whatever chunk header the unassigned
`buddy` designates. -/
theorem C9_round_trip_not_restored (b : Nat) :
    ∃ s1 s2, shmseg_try_alloc ilp32 seg256 100 = .ok (some 8324, s1) ∧
      shmseg_free ilp32 s1 8324 (some b) = .ok s2 ∧
      ∃ c, s2.free_list c ≠ seg256.free_list c := by
  have key : ∃ s2, shmseg_free ilp32 seg256_one 8324 (some b) = .ok s2 ∧
      (decide (s2.free_list 7 ≠ []) || decide (s2.free_list 13 ≠ [])) = true := by
    by_cases h1 : b = 8320
    · subst h1
      exact except_map_ok (shmseg_free ilp32 seg256_one 8324 (some 8320))
        (fun s => decide (s.free_list 7 ≠ []) || decide (s.free_list 13 ≠ [])) true (by decide)
    · by_cases h2 : b = 8192
      · subst h2
        exact except_map_ok (shmseg_free ilp32 seg256_one 8324 (some 8192))
          (fun s => decide (s.free_list 7 ≠ []) || decide (s.free_list 13 ≠ [])) true
          (by decide)
      · have hmis : (seg256_one.hdr b).mclass ≠ (seg256_one.hdr 8320).mclass ∨
            (seg256_one.hdr b).mtag ≠ MCHUNK_TAG_FREE := by
          exact Or.inr (seg256_one_hdr_other b h2 h1)
        have hfree := shmseg_free_no_merge ilp32 seg256_one 8320 b (by decide) h1 hmis
          (by decide)
        exact ⟨_, hfree, by decide⟩
  obtain ⟨s2, hs2, hbad⟩ := key
  refine ⟨seg256_one, s2, rfl, hs2, ?_⟩
  by_cases h7 : s2.free_list 7 = []
  · refine ⟨13, ?_⟩
    simp [h7] at hbad
    simpa [seg256] using hbad
  · exact ⟨7, by simpa [seg256] using h7⟩

/-! ## Facts about resizing -/

/-- C10: for a chunk at offset `off` tagged `MCHUNK_TAG_ITEM` whose class `c` is
the class computed for `new_size`, `shmseg_try_resize` returns the pointer it
was given and the state it was given (free lists, counters, headers and usage
included); doing it a second time gives the same result again. -/
theorem C10_resize_same_class (P : Platform) (s : msegment_t) (off c new_size : Nat)
    (buddy : Option Nat)
    (htag : (s.hdr off).mtag = MCHUNK_TAG_ITEM) (hcls : (s.hdr off).mclass = c)
    (hreq : request_class P new_size = .ok (some c)) :
    shmseg_try_resize P s (off + offsetof_data P) new_size buddy
      = .ok (some (off + offsetof_data P), s) ∧
    (shmseg_try_resize P s (off + offsetof_data P) new_size buddy).bind
        (fun r => shmseg_try_resize P r.2 (off + offsetof_data P) new_size buddy)
      = shmseg_try_resize P s (off + offsetof_data P) new_size buddy := by
  have h1 : shmseg_try_resize P s (off + offsetof_data P) new_size buddy
      = .ok (some (off + offsetof_data P), s) := by
    unfold shmseg_try_resize
    simp [htag, hreq, hcls]
  refine ⟨h1, ?_⟩
  rw [h1]
  exact h1

/-- Witness of C10: the allocated 128-byte chunk at offset 8192 of `seg256_two`,
resized to 100 bytes on a 32-bit build. -/
theorem C10_resize_same_class_witness :
    (seg256_two.hdr 8192).mtag = MCHUNK_TAG_ITEM ∧ (seg256_two.hdr 8192).mclass = 7 ∧
    request_class ilp32 100 = .ok (some 7) ∧
    shmseg_try_resize ilp32 seg256_two (8192 + offsetof_data ilp32) 100 none
      = .ok (some (8192 + offsetof_data ilp32), seg256_two) ∧
    (shmseg_try_resize ilp32 seg256_two (8192 + offsetof_data ilp32) 100 none).bind
        (fun r => shmseg_try_resize ilp32 r.2 (8192 + offsetof_data ilp32) 100 none)
      = shmseg_try_resize ilp32 seg256_two (8192 + offsetof_data ilp32) 100 none :=
  ⟨by decide, by decide, by decide,
    C10_resize_same_class ilp32 seg256_two 8192 7 100 none (by decide) (by decide)
      (by decide)⟩

/-- A failed `shmseg_try_alloc` (result `NULL`) has not changed the state. -/
theorem try_alloc_none (P : Platform) (s s1 : msegment_t) (size : Nat)
    (h : shmseg_try_alloc P s size = .ok (none, s1)) : s1 = s := by
  unfold shmseg_try_alloc at h
  split at h
  · cases h
  · cases h; rfl
  · rename_i r hr
    split at h
    · cases h
    · cases h
    · rename_i s2 heq
      have hs2 := try_alloc_pass_none P s s2 r heq
      subst hs2
      rw [heq] at h
      cases h; rfl

/-- C13: when `shmseg_try_resize` on an allocated chunk returns `NULL`, the state
is the one it was given, so the chunk is still allocated with its class and
payload and no list, counter or usage has changed; it returns `NULL` when the
class of the request exceeds `MSEGMENT_CLASS_MAX_BITS` and when the class is
larger than that of the chunk and the inner `shmseg_try_alloc` fails. -/
theorem C13_resize_failure_keeps_state (P : Platform) (s : msegment_t)
    (off new_size : Nat) (buddy : Option Nat) (htag : (s.hdr off).mtag = MCHUNK_TAG_ITEM) :
    (request_class P new_size = .ok none →
      shmseg_try_resize P s (off + offsetof_data P) new_size buddy = .ok (none, s)) ∧
    (∀ n s1, request_class P new_size = .ok (some n) → (s.hdr off).mclass < n →
      shmseg_try_alloc P s new_size = .ok (none, s1) →
      shmseg_try_resize P s (off + offsetof_data P) new_size buddy = .ok (none, s)) ∧
    (∀ s2, shmseg_try_resize P s (off + offsetof_data P) new_size buddy = .ok (none, s2) →
      s2 = s ∧ (s2.hdr off).mtag = MCHUNK_TAG_ITEM) := by
  refine ⟨?_, ?_, ?_⟩
  · intro hreq
    unfold shmseg_try_resize
    simp [htag, hreq]
  · intro n s1 hreq hlt halloc
    have hs1 := try_alloc_none P s s1 new_size halloc
    subst hs1
    have hne : ¬ (s1.hdr off).mclass = n := by omega
    unfold shmseg_try_resize resize_expand
    simp [htag, hreq, hne, hlt, halloc]
  · intro s2 h
    have hs2 : s2 = s := by
      unfold shmseg_try_resize at h
      simp only [Nat.add_sub_cancel, htag, ne_eq, not_true_eq_false, if_false] at h
      split at h
      · cases h
      · cases h; rfl
      · split at h
        · cases h
        · split at h
          · unfold resize_expand at h
            split at h
            · cases h
            · rename_i s1 heq
              cases h
              exact try_alloc_none P s _ new_size heq
            · simp only at h
              split at h <;> cases h
          · unfold resize_reduce at h
            simp only at h
            split at h
            · cases h
            · split at h <;> cases h
    exact ⟨hs2, by rw [hs2]; exact htag⟩

/-- Witness of C13: growing the 4096-byte chunk at 8192 of `segFull` to 10000
bytes on a 32-bit build; there is nothing to allocate from. -/
theorem C13_resize_failure_keeps_state_witness :
    (segFull.hdr 8192).mtag = MCHUNK_TAG_ITEM ∧
    shmseg_try_resize ilp32 segFull (8192 + offsetof_data ilp32) 10000 none
      = .ok (none, segFull) ∧
    ((request_class ilp32 10000 = .ok none →
      shmseg_try_resize ilp32 segFull (8192 + offsetof_data ilp32) 10000 none
        = .ok (none, segFull)) ∧
    (∀ n s1, request_class ilp32 10000 = .ok (some n) → (segFull.hdr 8192).mclass < n →
      shmseg_try_alloc ilp32 segFull 10000 = .ok (none, s1) →
      shmseg_try_resize ilp32 segFull (8192 + offsetof_data ilp32) 10000 none
        = .ok (none, segFull)) ∧
    (∀ s2, shmseg_try_resize ilp32 segFull (8192 + offsetof_data ilp32) 10000 none
        = .ok (none, s2) →
      s2 = segFull ∧ (s2.hdr 8192).mtag = MCHUNK_TAG_ITEM)) :=
  ⟨by decide, rfl, C13_resize_failure_keeps_state ilp32 segFull 8192 10000 none (by decide)⟩

/-! ## The reduction case -/

theorem ctzLoop_pow_mul (m : Nat) (hm : m % 2 = 1) :
    ∀ (n k i : Nat), n < k → ctzLoop k (2 ^ n * m) i = i + n := by
  intro n
  induction n with
  | zero =>
    intro k i hk
    obtain ⟨k, rfl⟩ : ∃ j, k = j + 1 := ⟨k - 1, by omega⟩
    simp [ctzLoop, hm]
  | succ n ih =>
    intro k i hk
    obtain ⟨k, rfl⟩ : ∃ j, k = j + 1 := ⟨k - 1, by omega⟩
    have heven : 2 ^ (n + 1) * m % 2 = 0 := by
      rw [pow_succ, Nat.mul_assoc, Nat.mul_comm (2 ^ n), Nat.mul_assoc]
      exact Nat.mul_mod_right 2 _
    have hhalf : 2 ^ (n + 1) * m / 2 = 2 ^ n * m := by
      rw [pow_succ, Nat.mul_comm (2 ^ n) 2, Nat.mul_assoc]
      exact Nat.mul_div_cancel_left _ (by decide)
    have hne : ¬ (2 ^ (n + 1) * m % 2 = 1) := by omega
    unfold ctzLoop
    rw [if_neg hne, hhalf, ih k (i + 1) (by omega)]
    omega

/-- `fast_ffs` of an odd multiple of `2 ^ n` is `n + 1`: the builtin counts the
bits from one. -/
theorem fast_ffs_odd_multiple (P : Platform) (n m : Nat) (hm : m % 2 = 1)
    (hlt : 2 ^ n * m < P.arch.wordMod) : fast_ffs P (2 ^ n * m) = n + 1 := by
  have hmpos : 0 < m := by omega
  have hpos : 0 < 2 ^ n * m := Nat.mul_pos (Nat.two_pow_pos n) hmpos
  have hn : n < P.arch.ptrBytes * 8 := by
    by_contra hcon
    have h1 : 2 ^ (P.arch.ptrBytes * 8) ≤ 2 ^ n := Nat.pow_le_pow_right (by decide) (by omega)
    have h2 : 2 ^ n ≤ 2 ^ n * m := Nat.le_mul_of_pos_right _ hmpos
    unfold Arch.wordMod at hlt
    omega
  unfold fast_ffs builtin_ffsl
  rw [Nat.mod_eq_of_lt hlt]
  have h0 : ¬ (2 ^ n * m = 0) := by omega
  rw [if_neg h0, ctzLoop_pow_mul m hm n _ 0 hn]
  omega

/-- Started at an odd multiple of `2 ^ n` below an even multiple `E` of `2 ^ n`,
the loop of the reduction case always ends in a failed assertion: every piece
gets class `n + 1`, so the offset stays an odd multiple of `2 ^ n` and steps
over `E`. -/
theorem shrink_loop_asserts (P : Platform) (n e : Nat) (he : e % 2 = 0)
    (hM : 2 ^ n * e + 2 ^ (n + 1) ≤ P.arch.wordMod) :
    ∀ (fuel : Nat) (s : msegment_t) (m : Nat), m % 2 = 1 → 2 ^ n * m < 2 ^ n * e →
      2 ^ n * e - 2 ^ n * m ≤ fuel →
      shrink_loop P fuel s (2 ^ n * m) (2 ^ n * e) = .error .assertion := by
  intro fuel
  induction fuel with
  | zero => intro s m _ hlt hfuel; omega
  | succ fuel ih =>
    intro s m hm hlt hfuel
    have hffs : fast_ffs P (2 ^ n * m) = n + 1 :=
      fast_ffs_odd_multiple P n m hm (by
        have : 0 < 2 ^ (n + 1) := Nat.two_pow_pos _
        omega)
    unfold shrink_loop
    simp only [hlt, if_true, hffs, shl1]
    by_cases h1 : n + 1 ≥ MSEGMENT_CLASS_MIN_BITS ∧ n + 1 < MSEGMENT_CLASS_MAX_BITS
    · simp only [h1, and_self, not_true_eq_false, if_false]
      have hstep : 2 ^ n * m + 2 ^ (n + 1) = 2 ^ n * (m + 2) := by
        rw [pow_succ]; ring
      have hnowrap : (2 ^ n * m + 2 ^ (n + 1)) % P.arch.wordMod = 2 ^ n * (m + 2) := by
        rw [Nat.mod_eq_of_lt (by omega), hstep]
      rw [hnowrap]
      by_cases h2 : 2 ^ n * (m + 2) ≤ 2 ^ n * e
      · simp only [h2, not_true_eq_false, if_false]
        have hne : 2 ^ n * (m + 2) ≠ 2 ^ n * e := by
          intro heq
          have := Nat.eq_of_mul_eq_mul_left (Nat.two_pow_pos n) heq
          omega
        have hpos : 0 < 2 ^ (n + 1) := Nat.two_pow_pos _
        exact ih _ (m + 2) (by omega) (by omega) (by omega)
      · simp only [h2, not_false_eq_true, if_true]
    · simp only [h1, not_false_eq_true, if_true]

/-- Every reduction fails the assertion of line 249: for a chunk at an offset
`B` that is a multiple of `2 ^ o`, of class `o`, and a request of class `n < o`,
`shmseg_try_resize` ends in a failed assertion. -/
theorem resize_reduce_asserts (P : Platform) (s : msegment_t) (B o n : Nat)
    (hcls : (s.hdr B).mclass = o) (halign : B % 2 ^ o = 0) (hlt : n < o)
    (hM : B + 2 ^ o + 2 ^ o ≤ P.arch.wordMod) :
    resize_reduce P s B n = .error .assertion := by
  obtain ⟨t, ht⟩ : ∃ t, B = 2 ^ o * t := Nat.dvd_of_mod_eq_zero halign
  obtain ⟨d, hd⟩ : ∃ d, o = n + 1 + d := ⟨o - n - 1, by omega⟩
  have hpow : 2 ^ o = 2 ^ n * (2 * 2 ^ d) := by
    rw [hd, pow_add, pow_succ]; ring
  have hle : 2 ^ (n + 1) ≤ 2 ^ o := Nat.pow_le_pow_right (by decide) (by omega)
  have hnpos : 0 < 2 ^ n := Nat.two_pow_pos n
  have hs : B + 2 ^ n = 2 ^ n * (2 * 2 ^ d * t + 1) := by
    rw [ht, hpow]; ring
  have he : B + 2 ^ o = 2 ^ n * (2 * 2 ^ d * (t + 1)) := by
    rw [ht, hpow]; ring
  have hlt2 : 2 ^ n < 2 ^ o := Nat.pow_lt_pow_right (by decide) hlt
  unfold resize_reduce
  simp only [hcls, shl1]
  rw [Nat.mod_eq_of_lt (by omega : B + 2 ^ n < P.arch.wordMod),
    Nat.mod_eq_of_lt (by omega : B + 2 ^ o < P.arch.wordMod), hs, he]
  rw [shrink_loop_asserts P n (2 * 2 ^ d * (t + 1))
    (by rw [Nat.mul_assoc]; exact Nat.mul_mod_right 2 _)
    (by rw [← he]; omega) _ s (2 * 2 ^ d * t + 1)
    (by rw [Nat.mul_assoc]; omega) (by rw [← hs, ← he]; omega) (le_refl _)]

/-- C11 (counterexample): on a 32-bit build the chunk at 8192 of `seg256_two` is
allocated with class 7; `shmseg_try_resize(p, 40)` does not return `p`: 40 bytes
have class 6, the reduction case runs and its assertion of line 249 fails. -/
theorem C11_resize_40_not_same_class :
    seg256_two.hdr 8192 = ⟨7, MCHUNK_TAG_ITEM⟩ ∧
    request_class ilp32 40 = .ok (some 6) ∧
    shmseg_try_resize ilp32 seg256_two (8192 + offsetof_data ilp32) 40 none
      = .error .assertion :=
  ⟨by decide, by decide, rfl⟩

/-- C11 (amended): on a 32-bit build, for an allocated chunk of class 7 with
pointer `p`, `shmseg_try_resize(p, new_size)` returns `p` and the state it was
given for every `new_size` from 61 to 124 bytes, the sizes of class 7; 40 bytes
have class 6, and `shmseg_try_resize(p, 40)` is the reduction case. -/
theorem C11_resize_within_class_7 (P : Platform) (hP : P.arch = .ILP32) (s : msegment_t)
    (off : Nat) (buddy : Option Nat) (htag : (s.hdr off).mtag = MCHUNK_TAG_ITEM)
    (hcls : (s.hdr off).mclass = 7) :
    (∀ new_size, 61 ≤ new_size → new_size ≤ 124 →
      shmseg_try_resize P s (off + offsetof_data P) new_size buddy
        = .ok (some (off + offsetof_data P), s)) ∧
    request_class P 40 = .ok (some 6) ∧
    shmseg_try_resize P s (off + offsetof_data P) 40 buddy = resize_reduce P s off 6 := by
  have hH : offsetof_data P = 4 := by simp [offsetof_data, hP, Arch.ptrBytes]
  have h40 : request_class P 40 = .ok (some 6) := by
    obtain ⟨c, hc, h6, _, hfit, hmin⟩ := request_class_ilp32 P hP 40
      (by rw [hH]; simp [MSEGMENT_CLASS_MAX_BITS])
    have : c ≤ 6 := hmin 6 (le_refl _) (by rw [hH]; norm_num)
    simp only [MSEGMENT_CLASS_MIN_BITS] at h6
    have hc6 : c = 6 := by omega
    rw [hc, hc6]
  refine ⟨?_, h40, ?_⟩
  · intro new_size hlo hhi
    obtain ⟨c, hc, h6, _, hfit, hmin⟩ := request_class_ilp32 P hP new_size
      (by rw [hH]; simp only [MSEGMENT_CLASS_MAX_BITS]; omega)
    have h7 : c ≤ 7 := hmin 7 (by decide) (by rw [hH]; omega)
    simp only [MSEGMENT_CLASS_MIN_BITS] at h6
    have hc7 : c = 7 := by
      by_contra hne
      have hc6 : c = 6 := by omega
      rw [hc6, hH] at hfit
      omega
    rw [hc7] at hc
    unfold shmseg_try_resize
    simp [htag, hc, hcls]
  · unfold shmseg_try_resize
    simp [htag, h40, hcls]

/-- Witness of C11 (amended): the allocated class-7 chunk at 8192 of
`seg256_two`. -/
theorem C11_resize_within_class_7_witness :
    ilp32.arch = .ILP32 ∧ (seg256_two.hdr 8192).mtag = MCHUNK_TAG_ITEM ∧
    (seg256_two.hdr 8192).mclass = 7 ∧
    ((∀ new_size, 61 ≤ new_size → new_size ≤ 124 →
      shmseg_try_resize ilp32 seg256_two (8192 + offsetof_data ilp32) new_size none
        = .ok (some (8192 + offsetof_data ilp32), seg256_two)) ∧
    request_class ilp32 40 = .ok (some 6) ∧
    shmseg_try_resize ilp32 seg256_two (8192 + offsetof_data ilp32) 40 none
      = resize_reduce ilp32 seg256_two 8192 6) :=
  ⟨rfl, by decide, by decide,
    C11_resize_within_class_7 ilp32 rfl seg256_two 8192 none (by decide) (by decide)⟩

/-- C14 (the code on every reduction): for an allocated chunk of class `o` at an
offset `B` that is a multiple of `2 ^ o`, and a request of class `n < o`,
`shmseg_try_resize` does not return: `fast_ffs` gives every carved piece the
class `n + 1`, one more than the index of the lowest set bit of its offset, and
the assertion `offset_s + (1 << mclass) <= offset_e` of line 249 (or the
assertion `mclass < MSEGMENT_CLASS_MAX_BITS` of line 247) fails. -/
theorem C14_reduction_fails_assertion (P : Platform) (s : msegment_t)
    (B o n new_size : Nat) (buddy : Option Nat) (htag : (s.hdr B).mtag = MCHUNK_TAG_ITEM)
    (hcls : (s.hdr B).mclass = o) (halign : B % 2 ^ o = 0)
    (hreq : request_class P new_size = .ok (some n)) (hlt : n < o)
    (hM : B + 2 ^ o + 2 ^ o ≤ P.arch.wordMod) :
    shmseg_try_resize P s (B + offsetof_data P) new_size buddy = .error .assertion := by
  have hne : ¬ o = n := by omega
  have hnlt : ¬ o < n := by omega
  unfold shmseg_try_resize
  simp only [Nat.add_sub_cancel, htag, ne_eq, not_true_eq_false, if_false, hreq, hcls, hne,
    hnlt]
  exact resize_reduce_asserts P s B o n hcls halign hlt hM

/-- Witness of C14: the allocated 4096-byte chunk at 8192 of `segFull`, resized
to 100 bytes (class 7) on a 32-bit build. -/
theorem C14_reduction_fails_assertion_witness :
    (segFull.hdr 8192).mtag = MCHUNK_TAG_ITEM ∧ (segFull.hdr 8192).mclass = 12 ∧
    8192 % 2 ^ 12 = 0 ∧ request_class ilp32 100 = .ok (some 7) ∧ 7 < 12 ∧
    8192 + 2 ^ 12 + 2 ^ 12 ≤ ilp32.arch.wordMod ∧
    shmseg_try_resize ilp32 segFull (8192 + offsetof_data ilp32) 100 none
      = .error .assertion :=
  ⟨by decide, by decide, by decide, by decide, by decide, by decide,
    C14_reduction_fails_assertion ilp32 segFull 8192 12 7 100 none (by decide) (by decide)
      (by decide) (by decide) (by decide) (by decide)⟩

/-! ## Initialization and the states reached from it -/

/-- C15 (the code at the failing input): on a 32-bit build
`shmseg_init_msegment` with `segment_size = 24576` carves 16384 bytes, and the
sum `Σ_c (num_active[c] + num_free[c]) * 2 ^ c` is 16384; after one
`shmseg_try_alloc(100)`, which splits seven times, the sum is -48640: each split
subtracts 2 from `num_free[mclass - 1]` (line 132) instead of adding 2. -/
theorem C15_conservation_broken_by_split :
    (shmseg_init_msegment ilp32 rawZero 24576).map
        (fun s => (accounted s, s.free_list 14, s.num_free 14)) = .ok (16384, [8192], 1) ∧
    ((shmseg_init_msegment ilp32 rawZero 24576).bind
        (fun s => shmseg_try_alloc ilp32 s 100)).map
        (fun r => (r.1, accounted r.2, r.2.num_free 13, r.2.num_free 7, r.2.num_active 7))
      = .ok (some 24452, -48640, -3, -3, 1) := by
  decide

/-- After the sequence that leads to `initSmall_freed` no chunk header carries
the tag `MCHUNK_TAG_ITEM`. -/
theorem initSmall_freed_no_item (x : Nat) :
    (initSmall_freed.hdr x).mtag ≠ MCHUNK_TAG_ITEM := by
  by_cases h1 : x = 8192
  · subst h1; decide
  · by_cases h2 : x = 8448
    · subst h2; decide
    · by_cases h3 : x = 8576
      · subst h3; decide
      · have e : initSmall_freed.hdr x = ⟨0, 0⟩ := by
          simp [initSmall_freed, initSmall_two, initSmall_one, initSmall, rawZero, init_emit,
            free_end, merge_apply, free_begin, alloc_apply_hdr, split_apply_hdr, mlist_add,
            mlist_del, add_num_free, add_num_active, set_mtag, set_mclass, upd, shl1, h1, h2, h3,
            ilp32, Arch.wordMod, Arch.ptrBytes]
        rw [e]; decide

/-- C16 (the code at the failing input): on a 32-bit build, after
`shmseg_init_msegment` with `segment_size = 8704`, `shmseg_try_alloc(100)`
(pointer 8580), `shmseg_try_alloc(200)` (pointer 8196) and `shmseg_free(8580)`,
with the unassigned `buddy` designating the true buddy at 8448, `segment_usage`
is 256, for the allocation at 8196 that was never freed, while no chunk header
at all is tagged `MCHUNK_TAG_ITEM`: the header at 8192 now reads class 9, Free. -/
theorem C16_usage_without_allocated_chunk :
    shmseg_init_msegment ilp32 rawZero 8704 = .ok initSmall ∧
    shmseg_try_alloc ilp32 initSmall 100 = .ok (some 8580, initSmall_one) ∧
    shmseg_try_alloc ilp32 initSmall_one 200 = .ok (some 8196, initSmall_two) ∧
    shmseg_free ilp32 initSmall_two 8580 (some 8448) = .ok initSmall_freed ∧
    initSmall_freed.segment_usage = 256 ∧
    initSmall_freed.hdr 8192 = ⟨9, MCHUNK_TAG_FREE⟩ ∧
    ∀ x, (initSmall_freed.hdr x).mtag ≠ MCHUNK_TAG_ITEM :=
  ⟨rfl, rfl, rfl, rfl, by decide, by decide, initSmall_freed_no_item⟩

/-- C18 (the code at the failing input): on a 32-bit build, after
`shmseg_init_msegment` with `segment_size = 8704`, `shmseg_try_alloc(100)`
(pointer 8580), `shmseg_try_alloc(200)` (pointer 8196) and `shmseg_free(8580)`,
with the unassigned `buddy` designating the true buddy at 8448, the chunk at
8192 of class 9, which spans the allocation at 8196, is on `free_list[9]`, and
`shmseg_try_alloc(400)` returns the pointer 8196 a second time while the first
allocation at 8196 is still live. -/
theorem C18_live_allocation_handed_out_twice :
    (shmseg_init_msegment ilp32 rawZero 8704).bind (fun s0 =>
      (shmseg_try_alloc ilp32 s0 100).bind (fun r1 =>
        (shmseg_try_alloc ilp32 r1.2 200).bind (fun r2 =>
          (shmseg_free ilp32 r2.2 8580 (some 8448)).bind (fun s3 =>
            (shmseg_try_alloc ilp32 s3 400).map (fun r3 =>
              (r1.1, r2.1, s3.free_list 9, s3.hdr 8192, r3.1))))))
      = .ok (some 8580, some 8196, [8192], ⟨9, MCHUNK_TAG_FREE⟩, some 8196) := by
  decide

/-- C12 (the code at the failing input): on a 32-bit build, in `segGrow`, the
allocated class-6 chunk at 10304 (pointer 10308) is resized to 1024 bytes while
the unassigned `buddy` designates its true buddy, the free chunk at 10240.
`shmseg_try_resize` returns the new pointer 8196 of the class-11 chunk at 8192,
but the stale `buddy` makes the coalesce loop of the inner `shmseg_free` merge
on up to class 12: on return the header of the returned chunk reads class 12,
Free, and the chunk is on `free_list[12]`. -/
theorem C12_grown_chunk_is_on_free_list :
    segGrow.hdr 10304 = ⟨6, MCHUNK_TAG_ITEM⟩ ∧
    request_class ilp32 1024 = .ok (some 11) ∧
    (shmseg_try_alloc ilp32 segGrow 1024).map (fun r => r.1) = .ok (some 8196) ∧
    (shmseg_try_resize ilp32 segGrow 10308 1024 (some 10240)).map
        (fun r => (r.1, r.2.hdr 8192, r.2.free_list 12, r.2.free_list 6))
      = .ok (some 8196, ⟨12, MCHUNK_TAG_FREE⟩, [8192], []) := by
  decide

/-! ## The expand case -/

/-- A property of states kept by every merge step is kept by the coalesce loop
of `shmseg_free`. -/
theorem free_loop_inv (P : Platform) (buddy : Option Nat) (I : msegment_t → Prop)
    (hI : ∀ s c x b, I s → I (merge_apply s c x b)) :
    ∀ (fuel : Nat) (s : msegment_t) (c x : Nat) (s1 : msegment_t) (c1 x1 : Nat),
      I s → free_loop P buddy fuel s c x = .ok (s1, c1, x1) → I s1 := by
  intro fuel
  induction fuel with
  | zero =>
    intro s c x s1 c1 x1 hs h
    unfold free_loop at h
    split at h
    · cases h
    · cases h; exact hs
  | succ fuel ih =>
    intro s c x s1 c1 x1 hs h
    unfold free_loop at h
    by_cases hc : c < MSEGMENT_CLASS_MAX_BITS
    · simp only [hc, if_true] at h
      generalize (if x / shl1 c % 2 = 1 then x - shl1 c else x + shl1 c) = ob at h
      by_cases h1 : ob % shl1 c = 0
      · simp only [h1, ne_eq, not_true_eq_false, if_false] at h
        by_cases h2 : ob < P.sizeof_msegment_t ∨ ob > s.segment_size
        · simp only [h2, if_true] at h
          cases h; exact hs
        · simp only [h2, if_false] at h
          cases buddy with
          | none => cases h
          | some b =>
            simp only at h
            by_cases h3 : (s.hdr b).mclass ≠ c ∨ (s.hdr b).mtag ≠ MCHUNK_TAG_FREE
            · simp only [h3, if_true] at h
              cases h; exact hs
            · simp only [h3, if_false] at h
              exact ih _ _ _ _ _ _ (hI _ _ _ _ hs) h
      · simp only [h1, ne_eq, not_false_eq_true, if_true] at h
        cases h
    · simp only [hc, if_false] at h
      cases h; exact hs

theorem shmseg_free_payload (P : Platform) (s s1 : msegment_t) (addr : Nat)
    (buddy : Option Nat)
    (h : shmseg_free P s addr buddy = .ok s1) : s1.payload = s.payload := by
  unfold shmseg_free at h
  simp only at h
  split at h
  · cases h
  · split at h
    · cases h
    · rename_i s2 c2 x2 heq
      cases h
      show s2.payload = s.payload
      exact free_loop_inv P buddy (fun t => t.payload = s.payload) (fun t c x b ht => ht)
        _ (free_begin P s (s.hdr (addr - offsetof_data P)).mclass (addr - offsetof_data P))
        _ _ _ _ _ rfl heq

/-- For a chunk tagged as an item, of class at most `MSEGMENT_CLASS_MAX_BITS` and
aligned to its size, `shmseg_free` returns and the chunk is tagged Free, when
`buddy` designates a chunk header. -/
theorem shmseg_free_returns (P : Platform) (s : msegment_t) (off c buddy : Nat)
    (htag : (s.hdr off).mtag = MCHUNK_TAG_ITEM) (hcls : (s.hdr off).mclass = c)
    (hc : c ≤ MSEGMENT_CLASS_MAX_BITS) (halign : off % 2 ^ c = 0) :
    ∃ s2, shmseg_free P s (off + offsetof_data P) (some buddy) = .ok s2 ∧
      (s2.hdr off).mtag = MCHUNK_TAG_FREE := by
  obtain ⟨s1, c1, x1, hrun, _, _, hkeep⟩ :=
    free_loop_ok P buddy (MSEGMENT_CLASS_MAX_BITS + 1) (free_begin P s c off)
      c off halign (by omega)
  have hne : ¬ (s.hdr off).mtag = MCHUNK_TAG_FREE := by
    rw [htag]; decide
  refine ⟨free_end s1 c1 x1, ?_, ?_⟩
  · unfold shmseg_free
    simp only [Nat.add_sub_cancel, hne, if_false, hcls]
    rw [hrun]
  · have := hkeep off (by simp [free_begin, set_mtag, add_num_active, upd])
    simpa [free_end, add_num_free, mlist_add] using this

theorem try_alloc_payload (P : Platform) (s s1 : msegment_t) (size : Nat) (p : Option Nat)
    (h : shmseg_try_alloc P s size = .ok (p, s1)) : s1.payload = s.payload := by
  cases p with
  | none => rw [try_alloc_none P s s1 size h]
  | some q =>
    obtain ⟨r, _, hpass⟩ := try_alloc_some P s s1 size q h
    obtain ⟨s0, off, rest, hs0, _, _, _, hs1⟩ := try_alloc_pass_some P s s1 r q hpass
    rw [hs1]
    show s0.payload = s.payload
    rcases hs0 with ⟨_, rfl⟩ | ⟨_, hsplit⟩
    · rfl
    · exact split_chunk_fuel_inv P (fun t => t.payload = s.payload) (fun t c x ht => ht)
        _ s (r + 1) true s0 rfl hsplit

/-- What the expand case does whatever chunk header `buddy` designates: when
the inner `shmseg_try_alloc` returns `q` and the old chunk, of class `o`, is
still tagged as an item and aligned, `shmseg_try_resize` returns `q`, the
`2 ^ o - H` bytes at `q` are those of the old payload, no other payload byte has
changed, and the old chunk is tagged Free. -/
theorem resize_expand_copies (P : Platform) (s s1 : msegment_t)
    (off o n new_size q buddy : Nat)
    (htag : (s.hdr off).mtag = MCHUNK_TAG_ITEM) (hcls : (s.hdr off).mclass = o)
    (hreq : request_class P new_size = .ok (some n)) (hlt : o < n)
    (halloc : shmseg_try_alloc P s new_size = .ok (some q, s1))
    (htag1 : (s1.hdr off).mtag = MCHUNK_TAG_ITEM) (hcls1 : (s1.hdr off).mclass = o)
    (ho6 : MSEGMENT_CLASS_MIN_BITS ≤ o) (halign : off % 2 ^ o = 0) :
    ∃ s3, shmseg_try_resize P s (off + offsetof_data P) new_size (some buddy)
        = .ok (some q, s3) ∧
      (∀ a, q ≤ a → a < q + (2 ^ o - offsetof_data P) →
        s3.payload a = s.payload (off + offsetof_data P + (a - q))) ∧
      (∀ a, ¬ (q ≤ a ∧ a < q + (2 ^ o - offsetof_data P)) → s3.payload a = s.payload a) ∧
      (s3.hdr off).mtag = MCHUNK_TAG_FREE := by
  obtain ⟨_, hn31⟩ := request_class_range P new_size n hreq
  have ho31 : o ≤ MSEGMENT_CLASS_MAX_BITS := by omega
  have hM : 2 ^ 32 ≤ P.arch.wordMod := by
    unfold Arch.wordMod Arch.ptrBytes; cases P.arch <;> simp
  have h31 : (2:Nat) ^ o ≤ 2 ^ 31 := Nat.pow_le_pow_right (by decide) ho31
  have hH8 : offsetof_data P ≤ 8 := by
    unfold offsetof_data Arch.ptrBytes; cases P.arch <;> simp
  have h64 : (2:Nat) ^ 6 ≤ 2 ^ o := Nat.pow_le_pow_right (by decide) ho6
  have hcount : (shl1 o + P.arch.wordMod - offsetof_data P) % P.arch.wordMod
      = 2 ^ o - offsetof_data P := by
    unfold shl1
    have e : 2 ^ o + P.arch.wordMod - offsetof_data P
        = (2 ^ o - offsetof_data P) + P.arch.wordMod := by omega
    rw [e, Nat.add_mod_right, Nat.mod_eq_of_lt (by omega)]
  have hpay1 := try_alloc_payload P s s1 new_size (some q) halloc
  obtain ⟨s3, hfree, hfreetag⟩ :=
    shmseg_free_returns P (memcpy s1 q (off + offsetof_data P) (2 ^ o - offsetof_data P))
      off o buddy htag1 hcls1 ho31 halign
  have hpay3 := shmseg_free_payload P _ s3 _ (some buddy) hfree
  have hne : ¬ o = n := by omega
  refine ⟨s3, ?_, ?_, ?_, hfreetag⟩
  · unfold shmseg_try_resize resize_expand
    simp only [Nat.add_sub_cancel, htag, ne_eq, not_true_eq_false, if_false, hreq, hcls, hne,
      hlt, if_true, halloc, hcls1, hcount]
    rw [hfree]
  · intro a h1 h2
    rw [hpay3]
    simp [memcpy, h1, h2, hpay1]
  · intro a ha
    rw [hpay3]
    simp only [memcpy, hpay1]
    rw [if_neg ha]

/-! ## Initialization on a 32-bit build -/

/-- `fast_ffs` of a non-zero multiple of 64 is at least 7. -/
theorem fast_ffs_ge_seven (P : Platform) (x : Nat) (h64 : x % 64 = 0) (hpos : 0 < x)
    (hlt : x < P.arch.wordMod) : 7 ≤ fast_ffs P x := by
  obtain ⟨k, m, hm, hx⟩ := Nat.exists_eq_two_pow_mul_odd (Nat.pos_iff_ne_zero.mp hpos)
  have hm1 : m % 2 = 1 := Nat.odd_iff.mp hm
  have hk : 6 ≤ k := by
    by_contra hcon
    obtain ⟨q, hq⟩ : 64 ∣ x := Nat.dvd_of_mod_eq_zero h64
    obtain ⟨d, hd⟩ : ∃ d, 6 = k + 1 + d := ⟨5 - k, by omega⟩
    have h64pow : (64 : Nat) = 2 ^ k * (2 * 2 ^ d) := by
      have : (64 : Nat) = 2 ^ 6 := by norm_num
      rw [this, hd, pow_add, pow_succ]; ring
    rw [hx, h64pow, Nat.mul_assoc] at hq
    have hcancel := Nat.eq_of_mul_eq_mul_left (Nat.two_pow_pos k) hq
    rw [Nat.mul_assoc] at hcancel
    omega
  rw [hx] at hlt ⊢
  rw [fast_ffs_odd_multiple P k m hm1 hlt]
  omega

/-- The truncation loop of `shmseg_init_msegment`: when a chunk of class 6 fits
and nothing wraps around, it returns a class between 6 and the given one whose
chunk fits. -/
theorem init_truncate_spec (P : Platform) (segment_size offset : Nat)
    (hfit : offset + 2 ^ 6 ≤ segment_size) :
    ∀ mclass, 6 ≤ mclass → offset + 2 ^ mclass < P.arch.wordMod →
      ∃ c, init_truncate P segment_size offset mclass = .ok c ∧ 6 ≤ c ∧ c ≤ mclass ∧
        offset + 2 ^ c ≤ segment_size := by
  intro mclass
  induction mclass with
  | zero => intro h; omega
  | succ k ih =>
    intro h6 hM
    unfold init_truncate
    simp only [shl1, Nat.mod_eq_of_lt hM]
    by_cases hlt : segment_size < offset + 2 ^ (k + 1)
    · simp only [hlt, if_true]
      have hk6 : 6 ≤ k := by
        by_contra hcon
        have hk5 : k = 5 := by omega
        rw [hk5] at hlt
        omega
      have hle : 2 ^ k ≤ 2 ^ (k + 1) := Nat.pow_le_pow_right (by decide) (by omega)
      obtain ⟨c, hc, hc6, hck, hcfit⟩ := ih hk6 (by omega)
      exact ⟨c, hc, hc6, by omega, hcfit⟩
    · simp only [hlt, if_false]
      exact ⟨k + 1, rfl, h6, le_refl _, by omega⟩

theorem init_emit_free_list (s : msegment_t) (c E k : Nat) :
    (init_emit s c E).free_list k = if k = c then E :: s.free_list c else s.free_list k := by
  simp only [init_emit, add_num_free, mlist_add, set_mtag, set_mclass, upd]

theorem init_emit_hdr (s : msegment_t) (c E z : Nat) :
    (init_emit s c E).hdr z = if z = E then ⟨c, MCHUNK_TAG_FREE⟩ else s.hdr z := by
  simp only [init_emit, add_num_free, mlist_add, set_mtag, set_mclass, upd]
  by_cases hz : z = E <;> simp [hz]

theorem init_emit_num_free (s : msegment_t) (c E k : Nat) :
    (init_emit s c E).num_free k = if k = c then s.num_free c + 1 else s.num_free k := by
  simp only [init_emit, add_num_free, mlist_add, set_mtag, set_mclass, upd]

/-- Emitting a chunk of class `c` at the end `E` of a tiling extends the tiling
to `E + 2 ^ c`. -/
theorem tiles_emit (s : msegment_t) (S E c : Nat) (h : Tiles s S E) (hSE : S ≤ E) :
    Tiles (init_emit s c E) S (E + 2 ^ c) := by
  obtain ⟨hmem, hcov, hdis, hnd, hnum, hus, hna⟩ := h
  have hpos : 0 < 2 ^ c := Nat.two_pow_pos c
  have hold : ∀ d y, y ∈ s.free_list d → y < E := by
    intro d y hy
    have := (hmem d y hy).2.1
    have : 0 < 2 ^ d := Nat.two_pow_pos d
    omega
  have hcases : ∀ d y, y ∈ (init_emit s c E).free_list d →
      (d = c ∧ y = E) ∨ y ∈ s.free_list d := by
    intro d y hy
    rw [init_emit_free_list] at hy
    by_cases hd : d = c
    · simp only [hd, if_true, List.mem_cons] at hy
      rcases hy with h1 | h1
      · exact Or.inl ⟨hd, h1⟩
      · exact Or.inr (by rw [hd]; exact h1)
    · simp only [hd, if_false] at hy
      exact Or.inr hy
  refine ⟨?_, ?_, ?_, ?_, ?_, hus, hna⟩
  · intro d y hy
    rcases hcases d y hy with ⟨hd, hyE⟩ | hy'
    · subst hd; subst hyE
      exact ⟨hSE, le_refl _, by rw [init_emit_hdr]; simp⟩
    · obtain ⟨h1, h2, h3⟩ := hmem d y hy'
      have hlt := hold d y hy'
      refine ⟨h1, by omega, ?_⟩
      rw [init_emit_hdr, if_neg (by omega), h3]
  · intro a ha1 ha2
    by_cases haE : a < E
    · obtain ⟨d, y, hy, h1, h2⟩ := hcov a ha1 haE
      refine ⟨d, y, ?_, h1, h2⟩
      rw [init_emit_free_list]
      by_cases hd : d = c
      · simp only [hd, if_true, List.mem_cons]
        exact Or.inr (by rw [← hd]; exact hy)
      · simp only [hd, if_false]; exact hy
    · refine ⟨c, E, ?_, by omega, ha2⟩
      rw [init_emit_free_list]; simp
  · intro d y d' y' hy hy' h1 h2
    rcases hcases d y hy with ⟨hd, hyE⟩ | hyo
    · rcases hcases d' y' hy' with ⟨hd', hyE'⟩ | hyo'
      · exact ⟨by rw [hd, hd'], by rw [hyE, hyE']⟩
      · have := (hmem d' y' hyo').2.1
        omega
    · rcases hcases d' y' hy' with ⟨hd', hyE'⟩ | hyo'
      · have := (hmem d y hyo).2.1
        omega
      · exact hdis d y d' y' hyo hyo' h1 h2
  · intro d
    rw [init_emit_free_list]
    by_cases hd : d = c
    · simp only [hd, if_true, List.nodup_cons]
      refine ⟨?_, hnd c⟩
      intro hin
      have := hold c E hin
      omega
    · simp only [hd, if_false]; exact hnd d
  · intro d
    rw [init_emit_free_list, init_emit_num_free]
    by_cases hd : d = c
    · simp only [hd, if_true, List.length_cons, hnum c]
      push_cast; ring
    · simp only [hd, if_false]; exact hnum d

theorem pow_mod_64 (c : Nat) (hc : 6 ≤ c) : 2 ^ c % 64 = 0 := by
  obtain ⟨d, hd⟩ : ∃ d, c = 6 + d := ⟨c - 6, by omega⟩
  rw [hd, pow_add]
  norm_num

/-- The loop of `shmseg_init_msegment`, where nothing wraps around: started on a
tiling of `[S, offset)` it returns, with a tiling of `[S, E)` that leaves less
than 64 bytes of the segment. -/
theorem init_loop_tiles (P : Platform) (S : Nat) (hM : 2 ^ 32 ≤ P.arch.wordMod) :
    ∀ (fuel : Nat) (s : msegment_t) (offset : Nat), Tiles s S offset → offset % 64 = 0 →
      0 < offset → S ≤ offset → s.segment_size < 2 ^ 31 →
      (offset ≤ 2 ^ 30 ∨ offset ≤ s.segment_size) → s.segment_size < offset + 64 * fuel →
      ∃ s1 E, init_loop P fuel s offset = .ok s1 ∧ Tiles s1 S E ∧ offset ≤ E ∧
        s1.segment_size = s.segment_size ∧ s.segment_size < E + 64 ∧
        (E = offset ∨ E ≤ s.segment_size) := by
  intro fuel
  induction fuel with
  | zero =>
    intro s offset ht _ _ _ hsz hoff hfuel
    have hlt : offset + 64 < P.arch.wordMod := by omega
    have hcond : ¬ (s.segment_size ≥ (offset + MSEGMENT_CLASS_MIN_SIZE) % P.arch.wordMod) := by
      simp only [MSEGMENT_CLASS_MIN_SIZE, MSEGMENT_CLASS_MIN_BITS]
      rw [Nat.mod_eq_of_lt (by norm_num; omega)]
      norm_num; omega
    refine ⟨s, offset, ?_, ht, le_refl _, rfl, by omega, Or.inl rfl⟩
    unfold init_loop
    rw [if_neg hcond]
  | succ fuel ih =>
    intro s offset ht h64 hpos hS hsz hoff hfuel
    have hlt : offset + 64 < P.arch.wordMod := by omega
    have hmodeq : (offset + MSEGMENT_CLASS_MIN_SIZE) % P.arch.wordMod = offset + 64 := by
      simp only [MSEGMENT_CLASS_MIN_SIZE, MSEGMENT_CLASS_MIN_BITS]
      rw [Nat.mod_eq_of_lt (by norm_num; omega)]
      norm_num
    unfold init_loop
    rw [hmodeq]
    by_cases hge : s.segment_size ≥ offset + 64
    · have hoffM : offset < P.arch.wordMod := by omega
      have hffs := fast_ffs_ge_seven P offset h64 hpos hoffM
      simp only [hge, if_true]
      generalize hm1 : (if fast_ffs P offset ≥ MSEGMENT_CLASS_MAX_BITS
        then MSEGMENT_CLASS_MAX_BITS else fast_ffs P offset) = mclass
      have hm6 : 6 ≤ mclass ∧ mclass ≤ 31 := by
        rw [← hm1]
        simp only [MSEGMENT_CLASS_MAX_BITS]
        split <;> omega
      have hassert : mclass ≥ MSEGMENT_CLASS_MIN_BITS := hm6.1
      simp only [hassert, not_true_eq_false, if_false]
      have h31 : (2:Nat) ^ mclass ≤ 2 ^ 31 := Nat.pow_le_pow_right (by decide) hm6.2
      obtain ⟨c, hc, hc6, hcm, hcfit⟩ := init_truncate_spec P s.segment_size offset
        (by norm_num; omega) mclass hm6.1 (by omega)
      rw [hc]
      have hnot : ¬ c < MSEGMENT_CLASS_MIN_BITS := by
        simp only [MSEGMENT_CLASS_MIN_BITS]; omega
      simp only [hnot, if_false, shl1]
      have hcpos : 64 ≤ 2 ^ c := by
        have : (2:Nat) ^ 6 ≤ 2 ^ c := Nat.pow_le_pow_right (by decide) hc6
        norm_num at this; exact this
      have hnowrap : (offset + 2 ^ c) % P.arch.wordMod = offset + 2 ^ c :=
        Nat.mod_eq_of_lt (by omega)
      rw [hnowrap]
      have hmod : (offset + 2 ^ c) % 64 = 0 := by
        have := pow_mod_64 c hc6
        omega
      obtain ⟨s1, E, hrun, ht1, hle, hsize, htail, hE⟩ :=
        ih (init_emit s c offset) (offset + 2 ^ c) (tiles_emit s S offset c ht hS) hmod
          (by omega) (by omega) hsz (Or.inr hcfit)
          (by show s.segment_size < offset + 2 ^ c + 64 * fuel; omega)
      refine ⟨s1, E, hrun, ht1, by omega, hsize, htail, Or.inr ?_⟩
      rcases hE with hE | hE
      · rw [hE]; exact hcfit
      · exact hE
    · simp only [hge, if_false]
      exact ⟨s, offset, rfl, ht, le_refl _, rfl, by omega, Or.inl rfl⟩

/-- On a 32-bit build, for every `segment_size` below `2 ^ 31` (and a
`sizeof(msegment_t)` below `2 ^ 29`), `shmseg_init_msegment` returns; the first
offset `S` is at least `sizeof(msegment_t)`, the emitted free chunks tile
`[S, E)` with `E` within the segment unless nothing is emitted, less than 64
bytes of the segment are left over, `segment_usage` and `num_active` are zero and
`num_free` counts the members of each list. -/
theorem init_tiles_ilp32 (P : Platform) (hP : P.arch = .ILP32) (raw : msegment_t)
    (segment_size : Nat) (hsz : segment_size < 2 ^ 31)
    (hsizeof : P.sizeof_msegment_t < 2 ^ 29) :
    ∃ s S E, shmseg_init_msegment P raw segment_size = .ok s ∧
      P.sizeof_msegment_t ≤ S ∧ Tiles s S E ∧ S ≤ E ∧ s.segment_size = segment_size ∧
      segment_size < E + 64 ∧ (E = S ∨ E ≤ segment_size) := by
  have hM : P.arch.wordMod = 2 ^ 32 := by simp [Arch.wordMod, hP, Arch.ptrBytes]
  have hfls : ∃ f, fast_fls P P.sizeof_msegment_t = .ok f ∧ f ≤ 29 ∧
      P.sizeof_msegment_t < 2 ^ f := by
    by_cases h0 : P.sizeof_msegment_t = 0
    · exact ⟨0, by simp [fast_fls, h0], by omega, by rw [h0]; norm_num⟩
    · obtain ⟨f, hf, h1, h32, hlo, hhi⟩ := fast_fls_ilp32 P hP P.sizeof_msegment_t (by omega)
        (by
          have : (2:Nat) ^ 29 < 2 ^ 32 := by norm_num
          omega)
      refine ⟨f, hf, ?_, hhi⟩
      by_contra hcon
      have : (2:Nat) ^ 29 ≤ 2 ^ (f - 1) := Nat.pow_le_pow_right (by decide) (by omega)
      omega
  obtain ⟨f, hf, hf29, hflt⟩ := hfls
  have hpowle : (2:Nat) ^ (f + 1) ≤ 2 ^ 30 := Nat.pow_le_pow_right (by decide) (by omega)
  have hpowge : (2:Nat) ^ f ≤ 2 ^ (f + 1) := Nat.pow_le_pow_right (by decide) (by omega)
  generalize hS : (if shl1 (f + 1) < MSEGMENT_CLASS_MIN_SIZE then MSEGMENT_CLASS_MIN_SIZE
    else shl1 (f + 1)) = S
  have hSfacts : S % 64 = 0 ∧ 64 ≤ S ∧ S ≤ 2 ^ 30 ∧ P.sizeof_msegment_t ≤ S := by
    rw [← hS]
    simp only [shl1, MSEGMENT_CLASS_MIN_SIZE, MSEGMENT_CLASS_MIN_BITS]
    split
    · rename_i hsmall
      norm_num at hsmall ⊢
      omega
    · rename_i hbig
      have h6 : 6 ≤ f + 1 := by
        by_contra hcon
        have : (2:Nat) ^ (f + 1) ≤ 2 ^ 5 := Nat.pow_le_pow_right (by decide) (by omega)
        norm_num at hbig this
        omega
      have := pow_mod_64 (f + 1) h6
      norm_num at hbig ⊢
      omega
  obtain ⟨hS64, hSge, hSle, hSsz⟩ := hSfacts
  have ht0 : Tiles
      { raw with
        segment_size := segment_size
        segment_usage := 0
        free_list := fun _ => []
        num_active := fun _ => 0
        num_free := fun _ => 0 } S S := by
    refine ⟨?_, ?_, ?_, ?_, ?_, rfl, fun _ => rfl⟩
    · intro c x hx; simp at hx
    · intro a h1 h2; omega
    · intro c x d y hx; simp at hx
    · intro c; simp
    · intro c; simp
  obtain ⟨s1, E, hrun, ht1, hle, hsize, htail, hE⟩ :=
    init_loop_tiles P S (by rw [hM]) (segment_size / MSEGMENT_CLASS_MIN_SIZE + 1) _ S ht0 hS64
      (by omega) (le_refl _) hsz (Or.inl hSle)
      (by
        show segment_size < S + 64 * (segment_size / MSEGMENT_CLASS_MIN_SIZE + 1)
        simp only [MSEGMENT_CLASS_MIN_SIZE, MSEGMENT_CLASS_MIN_BITS]
        norm_num
        omega)
  refine ⟨s1, S, E, ?_, hSsz, ht1, hle, hsize, htail, hE⟩
  unfold shmseg_init_msegment
  have hnot : ¬ (f + 1 ≥ 32) := by omega
  simp only [hf, hnot, if_false, hS]
  exact hrun

/-- The loop of `shmseg_init_msegment` only adds to the free lists. -/
theorem init_loop_mono (P : Platform) :
    ∀ (fuel : Nat) (s : msegment_t) (offset : Nat) (s1 : msegment_t),
      init_loop P fuel s offset = .ok s1 →
      ∀ c x, x ∈ s.free_list c → x ∈ s1.free_list c := by
  intro fuel
  induction fuel with
  | zero =>
    intro s offset s1 h c x hx
    unfold init_loop at h
    split at h
    · cases h
    · cases h; exact hx
  | succ fuel ih =>
    intro s offset s1 h c x hx
    unfold init_loop at h
    by_cases hcond : s.segment_size ≥ (offset + MSEGMENT_CLASS_MIN_SIZE) % P.arch.wordMod
    · simp only [hcond, if_true] at h
      generalize (if fast_ffs P offset ≥ MSEGMENT_CLASS_MAX_BITS
        then MSEGMENT_CLASS_MAX_BITS else fast_ffs P offset) = mclass at h
      by_cases hassert : mclass ≥ MSEGMENT_CLASS_MIN_BITS
      · simp only [hassert, not_true_eq_false, if_false] at h
        cases htr : init_truncate P s.segment_size offset mclass with
        | error e => rw [htr] at h; cases h
        | ok d =>
          rw [htr] at h
          simp only at h
          by_cases hd : d < MSEGMENT_CLASS_MIN_BITS
          · simp only [hd, if_true] at h
            cases h; exact hx
          · simp only [hd, if_false] at h
            refine ih _ _ _ h c x ?_
            rw [init_emit_free_list]
            split
            · rename_i hc
              rw [← hc]; exact List.mem_cons_of_mem _ hx
            · exact hx
      · simp only [hassert, not_false_eq_true, if_true] at h
        cases h
    · simp only [hcond, if_false] at h
      cases h; exact hx

/-- On the 32-bit sample build (`sizeof(msegment_t) = 2608`, first offset 8192),
for every `segment_size` from 24576 up to `2 ^ 31`, `shmseg_init_msegment`
returns with the chunk at offset 8192 on `free_list[14]`, its header reading
class 14, Free. -/
theorem init_first_chunk_ilp32 (raw : msegment_t) (segment_size : Nat)
    (h1 : 24576 ≤ segment_size) (h2 : segment_size < 2 ^ 31) :
    ∃ s, shmseg_init_msegment ilp32 raw segment_size = .ok s ∧
      8192 ∈ s.free_list 14 ∧ s.hdr 8192 = ⟨14, MCHUNK_TAG_FREE⟩ := by
  obtain ⟨s, S, E, hinit, _, ht, _, _, _, _⟩ :=
    init_tiles_ilp32 ilp32 rfl raw segment_size h2 (by decide)
  have hmem : 8192 ∈ s.free_list 14 := by
    have hstart : shmseg_init_msegment ilp32 raw segment_size
        = init_loop ilp32 (segment_size / MSEGMENT_CLASS_MIN_SIZE + 1)
            { raw with
              segment_size := segment_size
              segment_usage := 0
              free_list := fun _ => []
              num_active := fun _ => 0
              num_free := fun _ => 0 } 8192 := rfl
    rw [hstart] at hinit
    have hffs : fast_ffs ilp32 8192 = 14 := by decide
    have hcond : segment_size ≥ (8192 + MSEGMENT_CLASS_MIN_SIZE) % ilp32.arch.wordMod := by
      have : (8192 + MSEGMENT_CLASS_MIN_SIZE) % ilp32.arch.wordMod = 8256 := by decide
      omega
    have htrunc : init_truncate ilp32 segment_size 8192 14 = .ok 14 := by
      unfold init_truncate
      have e : (8192 + shl1 (13 + 1)) % ilp32.arch.wordMod = 24576 := by decide
      rw [e, if_neg (by omega)]
    have hnext : (8192 + shl1 14) % ilp32.arch.wordMod = 24576 := by decide
    unfold init_loop at hinit
    simp only [hcond, if_true, hffs] at hinit
    have hclamp : (if 14 ≥ MSEGMENT_CLASS_MAX_BITS then MSEGMENT_CLASS_MAX_BITS else 14)
        = 14 := by decide
    have hassert : (14 : Nat) ≥ MSEGMENT_CLASS_MIN_BITS := by decide
    have hnot : ¬ ((14 : Nat) < MSEGMENT_CLASS_MIN_BITS) := by decide
    simp only [hclamp, hassert, not_true_eq_false, if_false, htrunc, hnot, hnext] at hinit
    exact init_loop_mono ilp32 _ _ _ s hinit 14 8192 (by rw [init_emit_free_list]; simp)
  exact ⟨s, hinit, hmem, (ht.1 14 8192 hmem).2.2⟩

/-- C17 (the code at the failing input): on the 32-bit sample build, for every
`segment_size` from 24576 up to `2 ^ 31`, `shmseg_init_msegment` leaves on
`free_list[14]` the chunk at offset 8192, which is not a multiple of `2 ^ 14`.
With `segment_size = 40960` the list holds the chunks at 24576 and 8192;
`shmseg_try_alloc(10000)` then returns the chunk at 24576, an allocated chunk
of class 14 at an offset that is not a multiple of `2 ^ 14`, and `shmseg_free`
of it fails the alignment assertion of line 310 whatever `buddy` designates. -/
theorem C17_init_chunks_misaligned (raw : msegment_t) (segment_size : Nat)
    (b : Option Nat)
    (h1 : 24576 ≤ segment_size) (h2 : segment_size < 2 ^ 31) :
    (∃ s, shmseg_init_msegment ilp32 raw segment_size = .ok s ∧
      8192 ∈ s.free_list 14 ∧ s.hdr 8192 = ⟨14, MCHUNK_TAG_FREE⟩) ∧
    8192 % 2 ^ 14 ≠ 0 ∧ 24576 % 2 ^ 14 ≠ 0 ∧
    (shmseg_init_msegment ilp32 rawZero 40960).map
        (fun s => (s.free_list 14, s.hdr 8192, s.hdr 24576))
      = .ok ([24576, 8192], ⟨14, MCHUNK_TAG_FREE⟩, ⟨14, MCHUNK_TAG_FREE⟩) ∧
    ((shmseg_init_msegment ilp32 rawZero 40960).bind
        (fun s => shmseg_try_alloc ilp32 s 10000)).map (fun r => (r.1, r.2.hdr 24576))
      = .ok (some 24580, ⟨14, MCHUNK_TAG_ITEM⟩) ∧
    ((shmseg_init_msegment ilp32 rawZero 40960).bind
        (fun s => shmseg_try_alloc ilp32 s 10000)).bind
        (fun r => (shmseg_free ilp32 r.2 24580 b).map (fun _ => ()))
      = .error .assertion := by
  refine ⟨init_first_chunk_ilp32 raw segment_size h1 h2, by decide, by decide, by decide,
    by decide, ?_⟩
  have h : (shmseg_init_msegment ilp32 rawZero 40960).bind
      (fun s => shmseg_try_alloc ilp32 s 10000)
      = .ok (some 24580,
          alloc_apply ilp32
            (init_emit (init_emit { rawZero with segment_size := 40960 } 14 8192) 14 24576)
            14 24576) := rfl
  rw [h]
  rfl

/-- Witness of C17: the default segment size of 128 MB. -/
theorem C17_init_chunks_misaligned_witness :
    24576 ≤ 134217728 ∧ 134217728 < 2 ^ 31 ∧
    ((∃ s, shmseg_init_msegment ilp32 rawZero 134217728 = .ok s ∧
      8192 ∈ s.free_list 14 ∧ s.hdr 8192 = ⟨14, MCHUNK_TAG_FREE⟩) ∧
    8192 % 2 ^ 14 ≠ 0 ∧ 24576 % 2 ^ 14 ≠ 0 ∧
    (shmseg_init_msegment ilp32 rawZero 40960).map
        (fun s => (s.free_list 14, s.hdr 8192, s.hdr 24576))
      = .ok ([24576, 8192], ⟨14, MCHUNK_TAG_FREE⟩, ⟨14, MCHUNK_TAG_FREE⟩) ∧
    ((shmseg_init_msegment ilp32 rawZero 40960).bind
        (fun s => shmseg_try_alloc ilp32 s 10000)).map (fun r => (r.1, r.2.hdr 24576))
      = .ok (some 24580, ⟨14, MCHUNK_TAG_ITEM⟩) ∧
    ((shmseg_init_msegment ilp32 rawZero 40960).bind
        (fun s => shmseg_try_alloc ilp32 s 10000)).bind
        (fun r => (shmseg_free ilp32 r.2 24580 none).map (fun _ => ()))
      = .error .assertion) :=
  ⟨by decide, by decide,
    C17_init_chunks_misaligned rawZero 134217728 none (by decide) (by decide)⟩

/-- C19 (the code at the failing input): on the 32-bit sample build, for every
`segment_size` from 24576 up to `2 ^ 31`, the chunk that
`shmseg_init_msegment` emits at offset 8192 has class 14, `fast_ffs(8192)`,
although 8192 is not divisible by `2 ^ 14`; class 13 divides 8192 and fits. -/
theorem C19_init_class_one_too_large (raw : msegment_t) (segment_size : Nat)
    (h1 : 24576 ≤ segment_size) (h2 : segment_size < 2 ^ 31) :
    (∃ s, shmseg_init_msegment ilp32 raw segment_size = .ok s ∧
      8192 ∈ s.free_list 14 ∧ s.hdr 8192 = ⟨14, MCHUNK_TAG_FREE⟩) ∧
    fast_ffs ilp32 8192 = 14 ∧
    8192 % 2 ^ 14 ≠ 0 ∧ 8192 % 2 ^ 13 = 0 ∧ 8192 + 2 ^ 13 ≤ segment_size :=
  ⟨init_first_chunk_ilp32 raw segment_size h1 h2, by decide, by decide, by decide,
    by omega⟩

/-- Witness of C19: the smallest configurable segment size, 32 MB. -/
theorem C19_init_class_one_too_large_witness :
    24576 ≤ 33554432 ∧ 33554432 < 2 ^ 31 ∧
    ((∃ s, shmseg_init_msegment ilp32 rawZero 33554432 = .ok s ∧
      8192 ∈ s.free_list 14 ∧ s.hdr 8192 = ⟨14, MCHUNK_TAG_FREE⟩) ∧
    fast_ffs ilp32 8192 = 14 ∧
    8192 % 2 ^ 14 ≠ 0 ∧ 8192 % 2 ^ 13 = 0 ∧ 8192 + 2 ^ 13 ≤ 33554432) :=
  ⟨by decide, by decide,
    C19_init_class_one_too_large rawZero 33554432 (by decide) (by decide)⟩

/-- C20 (the code at the failing input): on a 64-bit build, whatever the raw
memory, `segment_size` and the value of `sizeof(msegment_t)` (non-zero, below
`2 ^ 32`), `shmseg_init_msegment` does not get to its loop:
`fast_fls(sizeof(msegment_t))` is 33 or more, and the first offset
`1 << (fast_fls(sizeof(msegment_t)) + 1)` shifts an `int` by more than its
width, which has no defined value. -/
theorem C20_init_shift_undefined_on_lp64 (P : Platform) (raw : msegment_t)
    (segment_size : Nat) (hP : P.arch = .LP64) (hpos : 0 < P.sizeof_msegment_t)
    (hlt : P.sizeof_msegment_t < 2 ^ 32) :
    (∃ f, fast_fls P P.sizeof_msegment_t = .ok f ∧ 33 ≤ f) ∧
    shmseg_init_msegment P raw segment_size = .error .undefined := by
  obtain ⟨hclz, _, _⟩ := clzLoop_spec 32 P.sizeof_msegment_t hpos hlt
  have h0 : ¬ P.sizeof_msegment_t = 0 := by omega
  have hfls : fast_fls P P.sizeof_msegment_t
      = .ok (8 * 8 - clzLoop 32 P.sizeof_msegment_t) := by
    unfold fast_fls builtin_clz
    rw [Nat.mod_eq_of_lt hlt]
    simp only [h0, if_false, hP, Arch.ptrBytes]
  refine ⟨⟨_, hfls, by omega⟩, ?_⟩
  unfold shmseg_init_msegment
  have hge : 8 * 8 - clzLoop 32 P.sizeof_msegment_t + 1 ≥ 32 := by omega
  simp only [hfls, hge, if_true]

/-- Witness of C20: the 64-bit sample build, `sizeof(msegment_t) = 4440`, and a
segment of 128 MB. -/
theorem C20_init_shift_undefined_on_lp64_witness :
    lp64.arch = .LP64 ∧ 0 < lp64.sizeof_msegment_t ∧ lp64.sizeof_msegment_t < 2 ^ 32 ∧
    ((∃ f, fast_fls lp64 lp64.sizeof_msegment_t = .ok f ∧ 33 ≤ f) ∧
    shmseg_init_msegment lp64 rawZero 134217728 = .error .undefined) :=
  ⟨rfl, by decide, by decide,
    C20_init_shift_undefined_on_lp64 lp64 rawZero 134217728 rfl (by decide) (by decide)⟩

/-! ## Counters of a split -/

/-- What one split step of `shmseg_split_chunk` does to `num_free`. -/
theorem split_apply_num_free (P : Platform) (s : msegment_t) (c x k : Nat) (hc : 0 < c) :
    (split_apply P s c x).num_free k =
      if k = c - 1 then s.num_free k - 2 else if k = c then s.num_free k - 1
      else s.num_free k := by
  have hcc : c - 1 ≠ c := by omega
  simp only [split_apply, mlist_add, mlist_del, set_mclass, set_mtag, add_num_free, upd]
  by_cases h1 : k = c - 1
  · simp [h1, hcc]; ring
  · by_cases h2 : k = c
    · subst h2
      simp [h1]; ring
    · simp [h1, h2]

/-- With `free_list[c]` not empty, a `shmseg_split_chunk(c)` that returns true
has split the first chunk of the list. -/
theorem split_chunk_nonempty (P : Platform) (s s2 : msegment_t) (c : Nat)
    (hne : s.free_list c ≠ []) (h : shmseg_split_chunk P s c = .ok (true, s2)) :
    MSEGMENT_CLASS_MIN_BITS < c ∧ c ≤ MSEGMENT_CLASS_MAX_BITS ∧
    ∃ x rest, s.free_list c = x :: rest ∧ (s.hdr x).mclass = c ∧
      s2 = split_apply P s c x := by
  have hE : mlist_empty s c = false := by
    simpa [mlist_empty] using hne
  unfold shmseg_split_chunk at h
  rw [split_chunk_fuel] at h
  by_cases hassert : c > MSEGMENT_CLASS_MIN_BITS ∧ c ≤ MSEGMENT_CLASS_MAX_BITS
  · simp only [hassert, and_self, not_true_eq_false, if_false, hE, Bool.false_eq_true] at h
    refine ⟨hassert.1, hassert.2, ?_⟩
    unfold split_step at h
    cases hl : s.free_list c with
    | nil => exact (hne hl).elim
    | cons x rest =>
      rw [hl] at h
      simp only at h
      by_cases hcls : (s.hdr x).mclass = c
      · simp only [hcls, ne_eq, not_true_eq_false, if_false] at h
        cases h
        exact ⟨x, rest, rfl, hcls, rfl⟩
      · simp only [ne_eq, hcls, not_false_eq_true, if_true] at h
        cases h
  · simp only [hassert, not_false_eq_true, if_true] at h
    cases h

/-- C24 (the code on every input of the claim): when `free_list[c]` is not empty
on entry and `shmseg_split_chunk(c)` returns true, `num_free[c]` is less by one,
`num_free[c - 1]` is less by two (line 132 subtracts where the claim, and the
two `mlist_add` calls above it, have an increase by two), and the other
counters are as before. -/
theorem C24_split_lowers_child_counter (P : Platform) (s s2 : msegment_t) (c : Nat)
    (hne : s.free_list c ≠ []) (h : shmseg_split_chunk P s c = .ok (true, s2)) :
    s2.num_free c = s.num_free c - 1 ∧
    s2.num_free (c - 1) = s.num_free (c - 1) - 2 ∧
    s2.num_free (c - 1) ≠ s.num_free (c - 1) + 2 ∧
    (∀ k, k ≠ c → k ≠ c - 1 → s2.num_free k = s.num_free k) ∧
    s2.num_active = s.num_active := by
  obtain ⟨h6, _, x, rest, _, _, rfl⟩ := split_chunk_nonempty P s s2 c hne h
  have hc : 0 < c := by
    simp only [MSEGMENT_CLASS_MIN_BITS] at h6; omega
  have hcc : c ≠ c - 1 := by omega
  refine ⟨?_, ?_, ?_, ?_, rfl⟩
  · rw [split_apply_num_free _ _ _ _ _ hc]; simp [hcc]
  · rw [split_apply_num_free _ _ _ _ _ hc]; simp
  · rw [split_apply_num_free _ _ _ _ _ hc]; simp only [if_true]; omega
  · intro k hk1 hk2
    rw [split_apply_num_free _ _ _ _ _ hc]; simp [hk1, hk2]

/-- Witness of C24: splitting the free 256-byte chunk of `seg256`;
`num_free[7]` goes from 0 to -2. -/
theorem C24_split_lowers_child_counter_witness :
    seg256.free_list 8 ≠ [] ∧
    shmseg_split_chunk ilp32 seg256 8 = .ok (true, split_apply ilp32 seg256 8 8192) ∧
    (split_apply ilp32 seg256 8 8192).num_free 7 = -2 ∧
    ((split_apply ilp32 seg256 8 8192).num_free 8 = seg256.num_free 8 - 1 ∧
    (split_apply ilp32 seg256 8 8192).num_free (8 - 1) = seg256.num_free (8 - 1) - 2 ∧
    (split_apply ilp32 seg256 8 8192).num_free (8 - 1) ≠ seg256.num_free (8 - 1) + 2 ∧
    (∀ k, k ≠ 8 → k ≠ 8 - 1 →
      (split_apply ilp32 seg256 8 8192).num_free k = seg256.num_free k) ∧
    (split_apply ilp32 seg256 8 8192).num_active = seg256.num_active) :=
  ⟨by decide, rfl, by decide,
    C24_split_lowers_child_counter ilp32 seg256 (split_apply ilp32 seg256 8 8192) 8
      (by decide) rfl⟩

/-! ## The tag test of shmseg_free -/

/-- For a chunk whose tag is not `MCHUNK_TAG_FREE`, of class at most
`MSEGMENT_CLASS_MAX_BITS` and aligned to its size, `shmseg_free` returns
whatever chunk header `buddy` designates: the chunk is tagged Free,
`num_active[c]` is less by one and `segment_usage` less by `2 ^ c`. -/
theorem shmseg_free_not_free (P : Platform) (s : msegment_t) (off c buddy : Nat)
    (hne : (s.hdr off).mtag ≠ MCHUNK_TAG_FREE) (hcls : (s.hdr off).mclass = c)
    (hc : c ≤ MSEGMENT_CLASS_MAX_BITS) (halign : off % 2 ^ c = 0) :
    ∃ s2, shmseg_free P s (off + offsetof_data P) (some buddy) = .ok s2 ∧
      (s2.hdr off).mtag = MCHUNK_TAG_FREE ∧
      s2.num_active c = s.num_active c - 1 ∧
      s2.segment_usage = (s.segment_usage + P.arch.wordMod - 2 ^ c) % P.arch.wordMod := by
  have hM : 2 ^ 32 ≤ P.arch.wordMod := by
    unfold Arch.wordMod Arch.ptrBytes; cases P.arch <;> simp
  have h31 : (2:Nat) ^ c ≤ 2 ^ 31 := Nat.pow_le_pow_right (by decide) hc
  have hmod : 2 ^ c % P.arch.wordMod = 2 ^ c := Nat.mod_eq_of_lt (by omega)
  obtain ⟨s1, c1, x1, hrun, hna, hus, hkeep⟩ :=
    free_loop_ok P buddy (MSEGMENT_CLASS_MAX_BITS + 1) (free_begin P s c off)
      c off halign (by omega)
  have hfree : shmseg_free P s (off + offsetof_data P) (some buddy)
      = .ok (free_end s1 c1 x1) := by
    unfold shmseg_free
    simp only [Nat.add_sub_cancel, hne, if_false, hcls]
    rw [hrun]
  refine ⟨_, hfree, ?_, ?_, ?_⟩
  · have := hkeep off (by simp [free_begin, set_mtag, add_num_active, upd])
    simpa [free_end, add_num_free, mlist_add] using this
  · simp only [free_end, free_begin, add_num_free, mlist_add, hna, add_num_active, set_mtag, upd]
    simp; ring
  · simp only [free_end, free_begin, add_num_free, mlist_add, hus, add_num_active, set_mtag,
      shl1, hmod]

/-- C27 (the code at the failing input): in `segTail`, a segment of 48 MB, the
allocated chunk at 32 MB has class 24, so its buddy offset is 48 MB =
`segment_size` and the block of the buddy, `[48 MB, 64 MB)`, is outside the
segment.  The range test of lines 315-316 lets the offset through (it is not
greater than `segment_size`), and the header then read is the one `buddy`
designates, whichever that is, not the one at the buddy offset: the events of the
call start with the read of `segment_size` and of that header.  When `buddy`
designates the freed chunk itself the test succeeds and the call ends with a
free chunk of class 25 at 32 MB, which reaches 16 MB past the segment. -/
theorem C27_header_read_for_buddy_outside (b : Nat) :
    buddy_of 33554432 24 = 50331648 ∧ segTail.segment_size = 50331648 ∧
    ¬ (50331648 + 2 ^ 24 ≤ segTail.segment_size) ∧
    (shmseg_free_trace ilp32 segTail 33554436 (some b)).take 8
      = [.hdr 33554432, .hdr 33554432, .lock, .hdr 33554432, .seg, .seg, .seg, .hdr b] ∧
    (shmseg_free ilp32 segTail 33554436 (some 33554432)).map
        (fun s => (s.free_list 24, s.free_list 25, s.hdr 33554432, s.segment_size))
      = .ok ([], [33554432], ⟨25, MCHUNK_TAG_FREE⟩, 50331648) := by
  refine ⟨by decide, rfl, by decide, ?_, by decide⟩
  have hb : (segTail.hdr 33554432).mtag ≠ MCHUNK_TAG_FREE := by decide
  unfold shmseg_free_trace
  have h1 : (33554436 : Nat) - offsetof_data ilp32 = 33554432 := by decide
  have h2 : (segTail.hdr 33554432).mclass = 24 := by decide
  simp only [h1, h2, if_neg hb]
  rw [show MSEGMENT_CLASS_MAX_BITS + 1 = 31 + 1 from rfl, free_loop_trace]
  have c1 : (24 : Nat) < MSEGMENT_CLASS_MAX_BITS := by decide
  have c2 : (if 33554432 / shl1 24 % 2 = 1 then 33554432 - shl1 24
      else 33554432 + shl1 24) = 50331648 := by
    decide
  have c3 : ¬ (50331648 % shl1 24 ≠ 0) := by decide
  have c4 : ¬ (50331648 < ilp32.sizeof_msegment_t) := by decide
  have c5 : ¬ (50331648 > (free_begin ilp32 segTail 24 33554432).segment_size) := by decide
  simp only [c1, if_true, c2, c3, if_false, c4, c5]
  by_cases hm : ((free_begin ilp32 segTail 24 33554432).hdr b).mclass ≠ 24 ∨
      ((free_begin ilp32 segTail 24 33554432).hdr b).mtag ≠ MCHUNK_TAG_FREE
  · simp [hm]
  · simp [hm]

/-! ## The class passed to shmseg_split_chunk -/

/-- C30 (the code on the failing inputs): for a request whose class is
`MSEGMENT_CLASS_MAX_BITS` = 31 while `free_list[31]` is empty,
`shmseg_try_alloc` makes one call of `shmseg_split_chunk`, with class 32, which
is above `MSEGMENT_CLASS_MAX_BITS`: the assertion at the entry of
`shmseg_split_chunk` fails and ends the call. -/
theorem C30_split_called_above_max_class (P : Platform) (s : msegment_t) (size : Nat)
    (hr : request_class P size = .ok (some MSEGMENT_CLASS_MAX_BITS))
    (hemp : s.free_list MSEGMENT_CLASS_MAX_BITS = []) :
    split_calls (shmseg_try_alloc_trace P s size) = [MSEGMENT_CLASS_MAX_BITS + 1] ∧
    ¬ (MSEGMENT_CLASS_MAX_BITS + 1 ≤ MSEGMENT_CLASS_MAX_BITS) ∧
    shmseg_split_chunk P s (MSEGMENT_CLASS_MAX_BITS + 1) = .error .assertion ∧
    shmseg_try_alloc P s size = .error .assertion := by
  have hE : mlist_empty s MSEGMENT_CLASS_MAX_BITS = true := by
    simp [mlist_empty, hemp]
  have hsplit : shmseg_split_chunk P s (MSEGMENT_CLASS_MAX_BITS + 1) = .error .assertion := rfl
  have hpass : try_alloc_pass P s MSEGMENT_CLASS_MAX_BITS = .error .assertion := by
    unfold try_alloc_pass
    simp only [hE, if_true, hsplit]
  refine ⟨?_, by decide, hsplit, ?_⟩
  · unfold shmseg_try_alloc_trace
    simp only [hr, hpass, List.append_nil]
    unfold try_alloc_pass_trace
    simp only [hE, if_true, hsplit]
    rfl
  · unfold shmseg_try_alloc
    simp only [hr, hpass]

/-- Witness of C30: a request of `2 ^ 30` bytes on a 32-bit build, in a segment
whose free lists are empty. -/
theorem C30_split_called_above_max_class_witness :
    request_class ilp32 (2 ^ 30) = .ok (some MSEGMENT_CLASS_MAX_BITS) ∧
    segFull.free_list MSEGMENT_CLASS_MAX_BITS = [] ∧
    (split_calls (shmseg_try_alloc_trace ilp32 segFull (2 ^ 30))
      = [MSEGMENT_CLASS_MAX_BITS + 1] ∧
    ¬ (MSEGMENT_CLASS_MAX_BITS + 1 ≤ MSEGMENT_CLASS_MAX_BITS) ∧
    shmseg_split_chunk ilp32 segFull (MSEGMENT_CLASS_MAX_BITS + 1) = .error .assertion ∧
    shmseg_try_alloc ilp32 segFull (2 ^ 30) = .error .assertion) :=
  ⟨by decide, rfl,
    C30_split_called_above_max_class ilp32 segFull (2 ^ 30) (by decide) rfl⟩

/-! ## Buddies after initialization -/

/-- One round of the loop of `shmseg_init_msegment` that emits a chunk. -/
theorem init_loop_step (P : Platform) (fuel : Nat) (s : msegment_t) (offset c : Nat)
    (hcond : s.segment_size ≥ (offset + MSEGMENT_CLASS_MIN_SIZE) % P.arch.wordMod)
    (hffs : MSEGMENT_CLASS_MIN_BITS ≤ fast_ffs P offset)
    (hlt : fast_ffs P offset < MSEGMENT_CLASS_MAX_BITS)
    (htr : init_truncate P s.segment_size offset (fast_ffs P offset) = .ok c)
    (hc : MSEGMENT_CLASS_MIN_BITS ≤ c) :
    init_loop P (fuel + 1) s offset
      = init_loop P fuel (init_emit s c offset) ((offset + shl1 c) % P.arch.wordMod) := by
  rw [init_loop]
  have hclamp : (if fast_ffs P offset ≥ MSEGMENT_CLASS_MAX_BITS then MSEGMENT_CLASS_MAX_BITS
      else fast_ffs P offset) = fast_ffs P offset := by
    rw [if_neg (by omega)]
  have hassert : fast_ffs P offset ≥ MSEGMENT_CLASS_MIN_BITS := hffs
  have hnot : ¬ (c < MSEGMENT_CLASS_MIN_BITS) := by omega
  simp only [hcond, if_true, hclamp, hassert, not_true_eq_false, if_false, htr, hnot]

/-- On the 32-bit sample build, for every `segment_size` from 40960 up to
`2 ^ 31`, `shmseg_init_msegment` returns with the chunks at 8192 and at 24576
both on `free_list[14]`. -/
theorem init_two_chunks_ilp32 (raw : msegment_t) (segment_size : Nat)
    (h1 : 40960 ≤ segment_size) (h2 : segment_size < 2 ^ 31) :
    ∃ s, shmseg_init_msegment ilp32 raw segment_size = .ok s ∧
      8192 ∈ s.free_list 14 ∧ 24576 ∈ s.free_list 14 ∧
      s.hdr 8192 = ⟨14, MCHUNK_TAG_FREE⟩ ∧ s.hdr 24576 = ⟨14, MCHUNK_TAG_FREE⟩ := by
  obtain ⟨s, S, E, hinit, _, ht, _, _, _, _⟩ :=
    init_tiles_ilp32 ilp32 rfl raw segment_size h2 (by decide)
  have hstart : shmseg_init_msegment ilp32 raw segment_size
      = init_loop ilp32 (segment_size / MSEGMENT_CLASS_MIN_SIZE + 1)
          { raw with
            segment_size := segment_size
            segment_usage := 0
            free_list := fun _ => []
            num_active := fun _ => 0
            num_free := fun _ => 0 } 8192 := rfl
  have hfuel : segment_size / MSEGMENT_CLASS_MIN_SIZE + 1
      = (segment_size / MSEGMENT_CLASS_MIN_SIZE - 1) + 1 + 1 := by
    have : 1 ≤ segment_size / MSEGMENT_CLASS_MIN_SIZE := by
      simp only [MSEGMENT_CLASS_MIN_SIZE, MSEGMENT_CLASS_MIN_BITS]
      omega
    omega
  have hffs1 : fast_ffs ilp32 8192 = 14 := by decide
  have hffs2 : fast_ffs ilp32 24576 = 14 := by decide
  have hn1 : (8192 + shl1 14) % ilp32.arch.wordMod = 24576 := by decide
  have htr1 : init_truncate ilp32 segment_size 8192 (fast_ffs ilp32 8192) = .ok 14 := by
    rw [hffs1]
    unfold init_truncate
    have e : (8192 + shl1 (13 + 1)) % ilp32.arch.wordMod = 24576 := by decide
    rw [e, if_neg (by omega)]
  have htr2 : init_truncate ilp32 segment_size 24576 (fast_ffs ilp32 24576) = .ok 14 := by
    rw [hffs2]
    unfold init_truncate
    have e : (24576 + shl1 (13 + 1)) % ilp32.arch.wordMod = 40960 := by decide
    rw [e, if_neg (by omega)]
  have hinit0 := hinit
  rw [hstart, hfuel,
    init_loop_step ilp32 _ _ 8192 14
      (by
        have : (8192 + MSEGMENT_CLASS_MIN_SIZE) % ilp32.arch.wordMod = 8256 := by decide
        show segment_size ≥ _
        omega)
      (by rw [hffs1]; decide) (by rw [hffs1]; decide) htr1 (by decide),
    hn1,
    init_loop_step ilp32 _ _ 24576 14
      (by
        have : (24576 + MSEGMENT_CLASS_MIN_SIZE) % ilp32.arch.wordMod = 24640 := by decide
        show segment_size ≥ _
        omega)
      (by rw [hffs2]; decide) (by rw [hffs2]; decide) htr2 (by decide)] at hinit
  have hm1 : 8192 ∈ s.free_list 14 :=
    init_loop_mono ilp32 _ _ _ s hinit 14 8192 (by
      rw [init_emit_free_list, init_emit_free_list]; simp)
  have hm2 : 24576 ∈ s.free_list 14 :=
    init_loop_mono ilp32 _ _ _ s hinit 14 24576 (by
      rw [init_emit_free_list]; simp)
  exact ⟨s, hinit0, hm1, hm2, (ht.1 14 8192 hm1).2.2, (ht.1 14 24576 hm2).2.2⟩

/-- C28 (the code at the failing inputs): on the 32-bit sample build, for every
`segment_size` from 40960 up to `2 ^ 31`, the state that `shmseg_init_msegment`
returns has two Free chunks of class 14 on `free_list[14]`, at `X = 8192` and at
`X xor 2 ^ 14 = 24576`: a pair of free buddies of a class below
`MSEGMENT_CLASS_MAX_BITS`. -/
theorem C28_init_leaves_free_buddies (raw : msegment_t) (segment_size : Nat)
    (h1 : 40960 ≤ segment_size) (h2 : segment_size < 2 ^ 31) :
    (∃ s, shmseg_init_msegment ilp32 raw segment_size = .ok s ∧
      8192 ∈ s.free_list 14 ∧ 24576 ∈ s.free_list 14 ∧
      s.hdr 8192 = ⟨14, MCHUNK_TAG_FREE⟩ ∧ s.hdr 24576 = ⟨14, MCHUNK_TAG_FREE⟩) ∧
    14 < MSEGMENT_CLASS_MAX_BITS ∧ 8192 ^^^ 2 ^ 14 = 24576 ∧ buddy_of 8192 14 = 24576 :=
  ⟨init_two_chunks_ilp32 raw segment_size h1 h2, by decide, by decide, by decide⟩

/-- Witness of C28: the smallest configurable segment size, 32 MB. -/
theorem C28_init_leaves_free_buddies_witness :
    40960 ≤ 33554432 ∧ 33554432 < 2 ^ 31 ∧
    ((∃ s, shmseg_init_msegment ilp32 rawZero 33554432 = .ok s ∧
      8192 ∈ s.free_list 14 ∧ 24576 ∈ s.free_list 14 ∧
      s.hdr 8192 = ⟨14, MCHUNK_TAG_FREE⟩ ∧ s.hdr 24576 = ⟨14, MCHUNK_TAG_FREE⟩) ∧
    14 < MSEGMENT_CLASS_MAX_BITS ∧ 8192 ^^^ 2 ^ 14 = 24576 ∧ buddy_of 8192 14 = 24576) :=
  ⟨by decide, by decide,
    C28_init_leaves_free_buddies rawZero 33554432 (by decide) (by decide)⟩

/-! ## Facts about event lists -/

theorem lock_run_append (xs ys : List Event) :
    ∀ b, lock_run b (xs ++ ys) = (lock_run b xs).bind (fun h => lock_run h ys) := by
  induction xs with
  | nil => intro b; simp [lock_run]
  | cons e xs ih =>
    intro b
    cases e <;> cases b <;> simp [lock_run, ih]

theorem unlocked_append (xs ys : List Event) :
    ∀ b h, lock_run b xs = some h →
      unlocked b (xs ++ ys) = unlocked b xs ++ unlocked h ys := by
  induction xs with
  | nil => intro b h hr; simp [lock_run] at hr; subst hr; simp [unlocked]
  | cons e xs ih =>
    intro b h hr
    cases e <;> cases b <;> simp [lock_run] at hr <;> simp [unlocked, ih _ _ hr]

/-- Events that leave the lock alone leave it as it was. -/
theorem lock_run_quiet (xs : List Event)
    (hq : ∀ e ∈ xs, e ≠ Event.lock ∧ e ≠ Event.unlock) :
    ∀ b, lock_run b xs = some b := by
  induction xs with
  | nil => intro b; rfl
  | cons e xs ih =>
    intro b
    have hx := ih (fun e he => hq e (List.mem_cons_of_mem _ he))
    have he := hq e (List.mem_cons_self _ _)
    cases e <;> cases b <;> simp_all [lock_run]

/-- While the lock is held, events that leave the lock alone are not accesses
outside the lock. -/
theorem unlocked_quiet_held (xs : List Event)
    (hq : ∀ e ∈ xs, e ≠ Event.lock ∧ e ≠ Event.unlock) :
    unlocked true xs = [] := by
  induction xs with
  | nil => rfl
  | cons e xs ih =>
    have hx := ih (fun e he => hq e (List.mem_cons_of_mem _ he))
    have he := hq e (List.mem_cons_self _ _)
    cases e <;> simp_all [unlocked]

theorem count_lock_quiet (xs : List Event)
    (hq : ∀ e ∈ xs, e ≠ Event.lock ∧ e ≠ Event.unlock) :
    xs.count Event.lock = 0 ∧ xs.count Event.unlock = 0 := by
  constructor
  · exact List.count_eq_zero.mpr (fun h => (hq _ h).1 rfl)
  · exact List.count_eq_zero.mpr (fun h => (hq _ h).2 rfl)

theorem split_calls_append (xs ys : List Event) :
    split_calls (xs ++ ys) = split_calls xs ++ split_calls ys := by
  induction xs with
  | nil => rfl
  | cons e xs ih => cases e <;> simp [split_calls, ih]

theorem split_step_trace_quiet (P : Platform) (s : msegment_t) (c : Nat) :
    ∀ e ∈ split_step_trace P s c, e ≠ Event.lock ∧ e ≠ Event.unlock := by
  unfold split_step_trace
  split
  · simp
  · split <;> simp

theorem split_step_trace_calls (P : Platform) (s : msegment_t) (c : Nat) :
    split_calls (split_step_trace P s c) = [] := by
  unfold split_step_trace
  split
  · rfl
  · split <;> rfl

theorem split_chunk_trace_quiet (P : Platform) :
    ∀ (fuel : Nat) (s : msegment_t) (c : Nat),
      ∀ e ∈ split_chunk_trace P fuel s c, e ≠ Event.lock ∧ e ≠ Event.unlock := by
  intro fuel
  induction fuel with
  | zero => intro s c e he; simp [split_chunk_trace] at he
  | succ fuel ih =>
    intro s c e he
    rw [split_chunk_trace] at he
    rcases List.mem_cons.mp he with rfl | he
    · simp
    · by_cases h1 : ¬ (c > MSEGMENT_CLASS_MIN_BITS ∧ c ≤ MSEGMENT_CLASS_MAX_BITS)
      · rw [if_pos h1] at he; simp at he
      · rw [if_neg h1] at he
        by_cases h2 : mlist_empty s c = true
        · rw [if_pos h2] at he
          rcases List.mem_cons.mp he with rfl | he
          · simp
          · by_cases h3 : c = MSEGMENT_CLASS_MAX_BITS
            · rw [if_pos h3] at he; simp at he
            · rw [if_neg h3] at he
              rcases List.mem_append.mp he with he | he
              · exact ih _ _ _ he
              · split at he
                · exact split_step_trace_quiet _ _ _ _ he
                · simp at he
        · rw [if_neg h2] at he
          rcases List.mem_cons.mp he with rfl | he
          · simp
          · exact split_step_trace_quiet _ _ _ _ he

theorem free_loop_trace_quiet (P : Platform) (buddy : Option Nat) :
    ∀ (fuel : Nat) (s : msegment_t) (c x : Nat),
      ∀ e ∈ free_loop_trace P buddy fuel s c x, e ≠ Event.lock ∧ e ≠ Event.unlock := by
  intro fuel
  induction fuel with
  | zero => intro s c x e he; simp [free_loop_trace] at he
  | succ fuel ih =>
    intro s c x e he
    unfold free_loop_trace at he
    by_cases h0 : c < MSEGMENT_CLASS_MAX_BITS
    · rw [if_pos h0] at he
      simp only at he
      generalize (if x / shl1 c % 2 = 1 then x - shl1 c else x + shl1 c) = ob at he
      by_cases h1 : ob % shl1 c ≠ 0
      · rw [if_pos h1] at he; simp at he
      · rw [if_neg h1] at he
        by_cases h2 : ob < P.sizeof_msegment_t
        · rw [if_pos h2] at he; simp at he
        · rw [if_neg h2] at he
          by_cases h3 : ob > s.segment_size
          · rw [if_pos h3] at he; simp at he; subst he; simp
          · rw [if_neg h3] at he
            cases buddy with
            | none => simp at he; subst he; simp
            | some b =>
              dsimp only at he
              by_cases h4 : (s.hdr b).mclass ≠ c ∨ (s.hdr b).mtag ≠ MCHUNK_TAG_FREE
              · rw [if_pos h4] at he; simp at he
                rcases he with rfl | rfl <;> simp
              · rw [if_neg h4] at he
                rcases List.mem_append.mp he with he | he
                · simp at he
                  rcases he with rfl | rfl | rfl | rfl <;> simp
                · exact ih _ _ _ _ he
    · rw [if_neg h0] at he; simp at he

theorem shrink_loop_trace_quiet (P : Platform) :
    ∀ (fuel : Nat) (s : msegment_t) (a b : Nat),
      ∀ e ∈ shrink_loop_trace P fuel s a b, e ≠ Event.lock ∧ e ≠ Event.unlock := by
  intro fuel
  induction fuel with
  | zero => intro s a b e he; simp [shrink_loop_trace] at he
  | succ fuel ih =>
    intro s a b e he
    rw [shrink_loop_trace] at he
    by_cases h0 : a < b
    · rw [if_pos h0] at he
      simp only at he
      split at he
      · simp at he
      · split at he
        · simp at he
        · rcases List.mem_append.mp he with he | he
          · simp at he
            rcases he with rfl | rfl <;> simp
          · exact ih _ _ _ _ he
    · rw [if_neg h0] at he; simp at he

/-! ## The lock in shmseg_try_alloc -/

/-- A pass of `shmseg_try_alloc` that fails has found `free_list[r]` empty and
the split refused; its events are the lock, the look at the list, the split
attempt and the unlock. -/
theorem try_alloc_pass_none_trace (P : Platform) (s s1 : msegment_t) (r : Nat)
    (h : try_alloc_pass P s r = .ok (none, s1)) :
    shmseg_split_chunk P s (r + 1) = .ok (false, s) ∧
    try_alloc_pass_trace P s r
      = [Event.lock, Event.seg]
          ++ split_chunk_trace P (MSEGMENT_CLASS_MAX_BITS + 1) s (r + 1) ++ [Event.unlock] := by
  have hs1 := try_alloc_pass_none P s s1 r h
  subst hs1
  unfold try_alloc_pass at h
  unfold try_alloc_pass_trace
  simp only at h ⊢
  by_cases hE : mlist_empty s1 r = true
  · simp only [hE, if_true] at h ⊢
    cases hsp : shmseg_split_chunk P s1 (r + 1) with
    | error e => rw [hsp] at h; cases h
    | ok v =>
      obtain ⟨b, s2⟩ := v
      rw [hsp] at h
      cases b with
      | false =>
        have := split_chunk_fuel_false P _ _ _ _ hsp
        subst this
        exact ⟨rfl, rfl⟩
      | true =>
        simp only at h
        cases hl : s2.free_list r with
        | nil => rw [hl] at h; cases h
        | cons m rest =>
          rw [hl] at h
          simp only at h
          by_cases hc : (s2.hdr m).mclass ≠ r
          · rw [if_pos hc] at h; cases h
          · rw [if_neg hc] at h; cases h
  · have hE2 : mlist_empty s1 r = false := by simpa using hE
    rw [hE2] at h
    simp only [Bool.false_eq_true, if_false] at h
    cases hl : s1.free_list r with
    | nil => rw [hl] at h; cases h
    | cons m rest =>
      rw [hl] at h
      simp only at h
      by_cases hc : (s1.hdr m).mclass ≠ r
      · rw [if_pos hc] at h; cases h
      · rw [if_neg hc] at h; cases h

/-- The lock in one pass of `shmseg_try_alloc`: the pass takes the lock once,
makes no access outside it, and has released it when the pass ends without a
failed assertion. -/
theorem try_alloc_pass_trace_lock (P : Platform) (s : msegment_t) (r : Nat) :
    ∃ h, lock_run false (try_alloc_pass_trace P s r) = some h ∧
      unlocked false (try_alloc_pass_trace P s r) = [] ∧
      (try_alloc_pass_trace P s r).count Event.lock = 1 ∧
      (∀ v, try_alloc_pass P s r = .ok v → h = false) := by
  have hq : ∀ e ∈ (if mlist_empty s r = true then
      split_chunk_trace P (MSEGMENT_CLASS_MAX_BITS + 1) s (r + 1) else []),
      e ≠ Event.lock ∧ e ≠ Event.unlock := by
    intro e he
    split at he
    · exact split_chunk_trace_quiet P _ _ _ e he
    · simp at he
  unfold try_alloc_pass try_alloc_pass_trace
  simp only
  generalize (if mlist_empty s r = true then
      split_chunk_trace P (MSEGMENT_CLASS_MAX_BITS + 1) s (r + 1) else []) = X at hq
  generalize (if mlist_empty s r = true then shmseg_split_chunk P s (r + 1)
      else Except.ok (true, s)) = refill
  have hrun : ∀ T, lock_run false ([Event.lock, Event.seg] ++ X ++ T) = lock_run true T := by
    intro T
    rw [List.append_assoc, lock_run_append]
    simp only [lock_run, Bool.false_eq_true, if_false, Option.bind]
    rw [lock_run_append, lock_run_quiet X hq]
    rfl
  have hun : ∀ T, unlocked false ([Event.lock, Event.seg] ++ X ++ T) = unlocked true T := by
    intro T
    rw [List.append_assoc]
    show unlocked true (X ++ T) = unlocked true T
    rw [unlocked_append X T true true (lock_run_quiet X hq true), unlocked_quiet_held X hq]
    rfl
  have hcnt : ∀ T, ([Event.lock, Event.seg] ++ X ++ T).count Event.lock
      = 1 + T.count Event.lock := by
    intro T
    rw [List.count_append, List.count_append, (count_lock_quiet X hq).1]
    simp
  cases refill with
  | error e => exact ⟨true, by rw [hrun]; rfl, by rw [hun]; rfl, by rw [hcnt]; rfl,
      fun v hv => by cases hv⟩
  | ok v =>
    obtain ⟨b, s1⟩ := v
    cases b with
    | false => exact ⟨false, by rw [hrun]; rfl, by rw [hun]; rfl, by rw [hcnt]; rfl,
        fun _ _ => rfl⟩
    | true =>
      dsimp only
      cases hl : s1.free_list r with
      | nil =>
        dsimp only
        exact ⟨true, by rw [hrun]; rfl, by rw [hun]; rfl, by rw [hcnt]; rfl,
          fun v hv => by cases hv⟩
      | cons m rest =>
        dsimp only
        by_cases hc : (s1.hdr m).mclass ≠ r
        · rw [if_pos hc, if_pos hc]
          exact ⟨true, by rw [hrun]; rfl, by rw [hun]; rfl, by rw [hcnt]; rfl,
            fun v hv => by cases hv⟩
        · rw [if_neg hc, if_neg hc]
          exact ⟨false, by rw [hrun]; rfl, by rw [hun]; rfl, by rw [hcnt]; rfl,
            fun _ _ => rfl⟩

/-- The lock in `shmseg_try_alloc`: the call takes the lock at most twice, never
while it holds it, makes no access outside it, and has released it whenever the
call returns. -/
theorem try_alloc_trace_lock (P : Platform) (s : msegment_t) (size : Nat) :
    ∃ h, lock_run false (shmseg_try_alloc_trace P s size) = some h ∧
      unlocked false (shmseg_try_alloc_trace P s size) = [] ∧
      (shmseg_try_alloc_trace P s size).count Event.lock ≤ 2 ∧
      (∀ v, shmseg_try_alloc P s size = .ok v → h = false) := by
  unfold shmseg_try_alloc shmseg_try_alloc_trace
  cases hr : request_class P size with
  | error e => exact ⟨false, rfl, rfl, by simp, fun _ _ => rfl⟩
  | ok o =>
    cases o with
    | none => exact ⟨false, rfl, rfl, by simp, fun _ _ => rfl⟩
    | some r =>
      dsimp only
      obtain ⟨h1, hr1, hu1, hc1, hok1⟩ := try_alloc_pass_trace_lock P s r
      cases hp : try_alloc_pass P s r with
      | error e =>
        dsimp only
        rw [List.append_nil]
        exact ⟨h1, hr1, hu1, by omega, fun v hv => by cases hv⟩
      | ok v =>
        obtain ⟨p, s1⟩ := v
        have hf : h1 = false := hok1 _ hp
        subst hf
        cases p with
        | some q =>
          dsimp only
          rw [List.append_nil]
          exact ⟨false, hr1, hu1, by omega, fun _ _ => rfl⟩
        | none =>
          dsimp only
          obtain ⟨h2, hr2, hu2, hc2, hok2⟩ := try_alloc_pass_trace_lock P s1 r
          refine ⟨h2, ?_, ?_, ?_, ?_⟩
          · rw [lock_run_append, hr1]; exact hr2
          · rw [unlocked_append _ _ _ _ hr1, hu1, hu2]; rfl
          · rw [List.count_append]; omega
          · intro v hv
            cases hp2 : try_alloc_pass P s1 r with
            | error e => rw [hp2] at hv; cases hv
            | ok w => exact hok2 _ hp2

/-! ## The lock in shmseg_free and shmseg_try_resize -/

/-- The lock in `shmseg_free`: the call reads the class and the tag of the chunk
it is given before it takes the lock (lines 289-290), makes no other access
outside the lock, takes the lock at most once and has released it whenever the
call returns. -/
theorem free_trace_lock (P : Platform) (s : msegment_t) (addr : Nat) (buddy : Option Nat) :
    ∃ h, lock_run false (shmseg_free_trace P s addr buddy) = some h ∧
      unlocked false (shmseg_free_trace P s addr buddy)
        = [Event.hdr (addr - offsetof_data P), Event.hdr (addr - offsetof_data P)] ∧
      (∀ v, shmseg_free P s addr buddy = .ok v → h = false) := by
  unfold shmseg_free shmseg_free_trace
  dsimp only
  by_cases htag : (s.hdr (addr - offsetof_data P)).mtag = MCHUNK_TAG_FREE
  · rw [if_pos htag, if_pos htag]
    exact ⟨false, rfl, rfl, fun v hv => by cases hv⟩
  · rw [if_neg htag, if_neg htag]
    have hq := free_loop_trace_quiet P buddy (MSEGMENT_CLASS_MAX_BITS + 1)
      (free_begin P s (s.hdr (addr - offsetof_data P)).mclass (addr - offsetof_data P))
      (s.hdr (addr - offsetof_data P)).mclass (addr - offsetof_data P)
    generalize free_loop_trace P buddy (MSEGMENT_CLASS_MAX_BITS + 1)
      (free_begin P s (s.hdr (addr - offsetof_data P)).mclass (addr - offsetof_data P))
      (s.hdr (addr - offsetof_data P)).mclass (addr - offsetof_data P) = L at hq
    generalize free_loop P buddy (MSEGMENT_CLASS_MAX_BITS + 1)
      (free_begin P s (s.hdr (addr - offsetof_data P)).mclass (addr - offsetof_data P))
      (s.hdr (addr - offsetof_data P)).mclass (addr - offsetof_data P) = res
    generalize addr - offsetof_data P = m
    have hrun : ∀ T, lock_run false ([Event.hdr m, Event.hdr m]
        ++ ([Event.lock, Event.hdr m, Event.seg, Event.seg] ++ L ++ T)) = lock_run true T := by
      intro T
      show lock_run true (L ++ T) = lock_run true T
      rw [lock_run_append, lock_run_quiet L hq]
      rfl
    have hun : ∀ T, unlocked false ([Event.hdr m, Event.hdr m]
        ++ ([Event.lock, Event.hdr m, Event.seg, Event.seg] ++ L ++ T))
        = Event.hdr m :: Event.hdr m :: unlocked true T := by
      intro T
      show Event.hdr m :: Event.hdr m :: unlocked true (L ++ T) = _
      rw [unlocked_append L T true true (lock_run_quiet L hq true), unlocked_quiet_held L hq]
      rfl
    cases res with
    | error e => exact ⟨true, by rw [hrun]; rfl, by rw [hun]; rfl, fun v hv => by cases hv⟩
    | ok r => exact ⟨false, by rw [hrun]; rfl, by rw [hun]; rfl, fun _ _ => rfl⟩

/-- The lock in `shmseg_try_resize`: outside the lock the call accesses nothing
but the header of the chunk it is given; it never takes the lock while it holds
it and has released it whenever the call returns. -/
theorem resize_trace_lock (P : Platform) (s : msegment_t) (addr new_size : Nat)
    (buddy : Option Nat) :
    ∃ h, lock_run false (shmseg_try_resize_trace P s addr new_size buddy) = some h ∧
      (∀ e ∈ unlocked false (shmseg_try_resize_trace P s addr new_size buddy),
        e = Event.hdr (addr - offsetof_data P)) ∧
      (∀ v, shmseg_try_resize P s addr new_size buddy = .ok v → h = false) := by
  unfold shmseg_try_resize shmseg_try_resize_trace
  dsimp only
  by_cases htag : (s.hdr (addr - offsetof_data P)).mtag ≠ MCHUNK_TAG_ITEM
  · rw [if_pos htag, if_pos htag]
    exact ⟨false, rfl, by simp [unlocked], fun v hv => by cases hv⟩
  · rw [if_neg htag, if_neg htag]
    cases hr : request_class P new_size with
    | error e => exact ⟨false, rfl, by simp [unlocked], fun v hv => by cases hv⟩
    | ok o =>
      cases o with
      | none => exact ⟨false, rfl, by simp [unlocked], fun _ _ => rfl⟩
      | some n =>
        dsimp only
        by_cases hsame : (s.hdr (addr - offsetof_data P)).mclass = n
        · rw [if_pos hsame, if_pos hsame]
          exact ⟨false, rfl, by simp [unlocked], fun _ _ => rfl⟩
        · rw [if_neg hsame, if_neg hsame]
          by_cases hlt : (s.hdr (addr - offsetof_data P)).mclass < n
          · rw [if_pos hlt, if_pos hlt]
            unfold resize_expand
            obtain ⟨h1, hr1, hu1, _, hok1⟩ := try_alloc_trace_lock P s new_size
            cases ha : shmseg_try_alloc P s new_size with
            | error e =>
              dsimp only
              rw [List.append_nil]
              refine ⟨h1, by simpa [lock_run] using hr1, ?_, fun v hv => by cases hv⟩
              simp [unlocked, hu1]
            | ok v =>
              obtain ⟨p, s1⟩ := v
              have hf : h1 = false := hok1 _ ha
              subst hf
              cases p with
              | none =>
                dsimp only
                rw [List.append_nil]
                refine ⟨false, by simpa [lock_run] using hr1, ?_, fun _ _ => rfl⟩
                simp [unlocked, hu1]
              | some q =>
                dsimp only
                obtain ⟨h2, hr2, hu2, hok2⟩ := free_trace_lock P
                  (memcpy s1 q (addr - offsetof_data P + offsetof_data P)
                    ((shl1 (s1.hdr (addr - offsetof_data P)).mclass + P.arch.wordMod
                      - offsetof_data P) % P.arch.wordMod)) addr buddy
                have hok3 : ∀ v, (match shmseg_free P
                    (memcpy s1 q (addr - offsetof_data P + offsetof_data P)
                      ((shl1 (s1.hdr (addr - offsetof_data P)).mclass + P.arch.wordMod
                        - offsetof_data P) % P.arch.wordMod)) addr buddy with
                    | .error e => (.error e : Except Fault (Option Nat × msegment_t))
                    | .ok s3 => .ok (some q, s3)) = .ok v → h2 = false := by
                  intro v hv
                  cases hfr : shmseg_free P
                    (memcpy s1 q (addr - offsetof_data P + offsetof_data P)
                      ((shl1 (s1.hdr (addr - offsetof_data P)).mclass + P.arch.wordMod
                        - offsetof_data P) % P.arch.wordMod)) addr buddy with
                  | error e => rw [hfr] at hv; cases hv
                  | ok w => exact hok2 _ hfr
                generalize shmseg_free_trace P
                  (memcpy s1 q (addr - offsetof_data P + offsetof_data P)
                    ((shl1 (s1.hdr (addr - offsetof_data P)).mclass + P.arch.wordMod
                      - offsetof_data P) % P.arch.wordMod)) addr buddy = F at hr2 hu2 ⊢
                generalize shmseg_try_alloc_trace P s new_size = A at hr1 hu1 ⊢
                refine ⟨h2, ?_, ?_, hok3⟩
                · show lock_run false (A ++ Event.hdr (addr - offsetof_data P) :: F) = some h2
                  rw [lock_run_append, hr1]
                  exact hr2
                · show ∀ e ∈ Event.hdr (addr - offsetof_data P)
                      :: Event.hdr (addr - offsetof_data P)
                      :: Event.hdr (addr - offsetof_data P)
                      :: unlocked false (A ++ Event.hdr (addr - offsetof_data P) :: F),
                    e = Event.hdr (addr - offsetof_data P)
                  rw [unlocked_append _ _ _ _ hr1, hu1]
                  show ∀ e ∈ Event.hdr (addr - offsetof_data P)
                      :: Event.hdr (addr - offsetof_data P)
                      :: Event.hdr (addr - offsetof_data P)
                      :: ([] ++ Event.hdr (addr - offsetof_data P) :: unlocked false F),
                    e = Event.hdr (addr - offsetof_data P)
                  rw [hu2]
                  simp
          · rw [if_neg hlt, if_neg hlt]
            unfold resize_reduce
            dsimp only
            generalize hos : (addr - offsetof_data P + shl1 n) % P.arch.wordMod = os
            generalize hoe : (addr - offsetof_data P
              + shl1 (s.hdr (addr - offsetof_data P)).mclass) % P.arch.wordMod = oe
            have hq := shrink_loop_trace_quiet P (oe - os) s os oe
            generalize shrink_loop_trace P (oe - os) s os oe = L at hq
            generalize shrink_loop P (oe - os) s os oe = res
            generalize addr - offsetof_data P = m
            have hrun : ∀ T, lock_run false (Event.hdr m :: Event.hdr m :: Event.hdr m ::
                ([Event.hdr m, Event.lock] ++ L ++ T)) = lock_run true T := by
              intro T
              show lock_run true (L ++ T) = lock_run true T
              rw [lock_run_append, lock_run_quiet L hq]
              rfl
            have hun : ∀ T, unlocked false (Event.hdr m :: Event.hdr m :: Event.hdr m ::
                ([Event.hdr m, Event.lock] ++ L ++ T))
                = Event.hdr m :: Event.hdr m :: Event.hdr m :: Event.hdr m :: unlocked true T := by
              intro T
              show Event.hdr m :: Event.hdr m :: Event.hdr m :: Event.hdr m
                :: unlocked true (L ++ T) = _
              rw [unlocked_append L T true true (lock_run_quiet L hq true),
                unlocked_quiet_held L hq]
              rfl
            cases res with
            | error e =>
              exact ⟨true, by rw [hrun]; rfl, by rw [hun]; simp [unlocked],
                fun v hv => by cases hv⟩
            | ok r =>
              obtain ⟨s1, o1⟩ := r
              dsimp only
              by_cases hend : o1 ≠ oe
              · rw [if_pos hend, if_pos hend]
                exact ⟨true, by rw [hrun]; rfl, by rw [hun]; simp [unlocked],
                  fun v hv => by cases hv⟩
              · rw [if_neg hend, if_neg hend]
                exact ⟨false, by rw [hrun]; rfl, by rw [hun]; simp [unlocked],
                  fun _ _ => rfl⟩

/-! ## Depth of the split recursion -/

/-- The result of `shmseg_split_chunk` does not depend on the depth bound, once
the bound exceeds `MSEGMENT_CLASS_MAX_BITS - c`. -/
theorem split_chunk_fuel_stable (P : Platform) :
    ∀ (f1 f2 : Nat) (s : msegment_t) (c : Nat), MSEGMENT_CLASS_MAX_BITS - c < f1 →
      MSEGMENT_CLASS_MAX_BITS - c < f2 →
      split_chunk_fuel P f1 s c = split_chunk_fuel P f2 s c := by
  intro f1
  induction f1 with
  | zero => intro f2 s c h; omega
  | succ a ih =>
    intro f2 s c h1 h2
    cases f2 with
    | zero => omega
    | succ b =>
      rw [split_chunk_fuel, split_chunk_fuel]
      by_cases hassert : ¬ (c > MSEGMENT_CLASS_MIN_BITS ∧ c ≤ MSEGMENT_CLASS_MAX_BITS)
      · rw [if_pos hassert, if_pos hassert]
      · rw [if_neg hassert, if_neg hassert]
        by_cases hE : mlist_empty s c = true
        · rw [if_pos hE, if_pos hE]
          by_cases hmax : c = MSEGMENT_CLASS_MAX_BITS
          · rw [if_pos hmax, if_pos hmax]
          · rw [if_neg hmax, if_neg hmax]
            have hc : c < MSEGMENT_CLASS_MAX_BITS := by
              push_neg at hassert; omega
            rw [ih b s (c + 1) (by omega) (by omega)]
        · rw [if_neg hE, if_neg hE]

/-- The calls of `shmseg_split_chunk` started by a call on class `c` are on the
classes `c`, `c + 1`, ..., each made by the one before it, and none is above
`MSEGMENT_CLASS_MAX_BITS`. -/
theorem split_chunk_trace_calls (P : Platform) :
    ∀ (fuel : Nat) (s : msegment_t) (c : Nat), MSEGMENT_CLASS_MIN_BITS < c →
      c ≤ MSEGMENT_CLASS_MAX_BITS → MSEGMENT_CLASS_MAX_BITS - c < fuel →
      ∃ k, 1 ≤ k ∧ c + k ≤ MSEGMENT_CLASS_MAX_BITS + 1 ∧
        split_calls (split_chunk_trace P fuel s c) = List.range' c k := by
  intro fuel
  induction fuel with
  | zero => intro s c _ _ h; omega
  | succ fuel ih =>
    intro s c h6 h31 hfuel
    rw [split_chunk_trace]
    have hassert : ¬ ¬ (c > MSEGMENT_CLASS_MIN_BITS ∧ c ≤ MSEGMENT_CLASS_MAX_BITS) :=
      not_not.mpr ⟨h6, h31⟩
    rw [if_neg hassert]
    by_cases hE : mlist_empty s c = true
    · rw [if_pos hE]
      by_cases hmax : c = MSEGMENT_CLASS_MAX_BITS
      · rw [if_pos hmax]
        exact ⟨1, le_refl _, by omega, rfl⟩
      · rw [if_neg hmax]
        obtain ⟨k, hk1, hk2, hk3⟩ := ih s (c + 1) (by omega) (by omega) (by omega)
        refine ⟨k + 1, by omega, by omega, ?_⟩
        show c :: split_calls (Event.seg :: (split_chunk_trace P fuel s (c + 1) ++ _)) = _
        show c :: split_calls (split_chunk_trace P fuel s (c + 1) ++ _) = _
        rw [split_calls_append, hk3, List.range'_succ]
        split
        · rw [split_step_trace_calls, List.append_nil]
        · simp [split_calls]
    · rw [if_neg hE]
      refine ⟨1, le_refl _, by omega, ?_⟩
      show c :: split_calls (Event.seg :: split_step_trace P s c) = _
      show c :: split_calls (split_step_trace P s c) = _
      rw [split_step_trace_calls]
      rfl

/-- C26: for every class `c` with `MSEGMENT_CLASS_MIN_BITS < c ≤
MSEGMENT_CLASS_MAX_BITS` and every state, `shmseg_split_chunk(c)` ends (the
recursion bound of the model is not reached), a depth of
`MSEGMENT_CLASS_MAX_BITS - MSEGMENT_CLASS_MIN_BITS` = 25 nested calls is enough
for the same result, and the calls made are on the classes `c`, `c + 1`, ...,
`c + k - 1`, each made by the one before it, with `k ≤ 25`. -/
theorem C26_split_recursion_bounded (P : Platform) (s : msegment_t) (c : Nat)
    (h6 : MSEGMENT_CLASS_MIN_BITS < c) (h31 : c ≤ MSEGMENT_CLASS_MAX_BITS) :
    shmseg_split_chunk P s c ≠ .error .fuel ∧
    split_chunk_fuel P (MSEGMENT_CLASS_MAX_BITS - MSEGMENT_CLASS_MIN_BITS) s c
      = shmseg_split_chunk P s c ∧
    MSEGMENT_CLASS_MAX_BITS - MSEGMENT_CLASS_MIN_BITS = 25 ∧
    ∃ k, 1 ≤ k ∧ k ≤ MSEGMENT_CLASS_MAX_BITS - MSEGMENT_CLASS_MIN_BITS ∧
      split_calls (split_chunk_trace P (MSEGMENT_CLASS_MAX_BITS + 1) s c) = List.range' c k := by
  have hM : MSEGMENT_CLASS_MAX_BITS = 31 := rfl
  have hm : MSEGMENT_CLASS_MIN_BITS = 6 := rfl
  refine ⟨shmseg_split_chunk_terminates P s c, ?_, by decide, ?_⟩
  · exact split_chunk_fuel_stable P _ _ s c (by omega) (by omega)
  · obtain ⟨k, hk1, hk2, hk3⟩ :=
      split_chunk_trace_calls P (MSEGMENT_CLASS_MAX_BITS + 1) s c h6 h31 (by omega)
    exact ⟨k, hk1, by omega, hk3⟩

/-- Witness of C26: `shmseg_split_chunk(7)` in a segment whose free lists are
empty goes down the full depth, through the classes 7 to 31. -/
theorem C26_split_recursion_bounded_witness :
    MSEGMENT_CLASS_MIN_BITS < 7 ∧ 7 ≤ MSEGMENT_CLASS_MAX_BITS ∧
    split_calls (split_chunk_trace ilp32 (MSEGMENT_CLASS_MAX_BITS + 1) segFull 7)
      = List.range' 7 25 ∧
    (shmseg_split_chunk ilp32 segFull 7 ≠ .error .fuel ∧
    split_chunk_fuel ilp32 (MSEGMENT_CLASS_MAX_BITS - MSEGMENT_CLASS_MIN_BITS) segFull 7
      = shmseg_split_chunk ilp32 segFull 7 ∧
    MSEGMENT_CLASS_MAX_BITS - MSEGMENT_CLASS_MIN_BITS = 25 ∧
    ∃ k, 1 ≤ k ∧ k ≤ MSEGMENT_CLASS_MAX_BITS - MSEGMENT_CLASS_MIN_BITS ∧
      split_calls (split_chunk_trace ilp32 (MSEGMENT_CLASS_MAX_BITS + 1) segFull 7)
        = List.range' 7 k) :=
  ⟨by decide, by decide, by decide,
    C26_split_recursion_bounded ilp32 segFull 7 (by decide) (by decide)⟩

/-! ## The retry of shmseg_try_alloc -/

theorem request_class_no_fuel (P : Platform) (size : Nat) :
    request_class P size ≠ .error .fuel := by
  unfold request_class fast_fls builtin_clz
  intro h
  split at h
  · rename_i e heq
    cases h
    split at heq
    · cases heq
    · split at heq
      · rename_i e2 heq2
        split at heq2
        · cases heq; cases heq2
        · cases heq2
      · cases heq
  · split at h
    · cases h
    · split at h <;> cases h

theorem try_alloc_pass_no_fuel (P : Platform) (s : msegment_t) (r : Nat) :
    try_alloc_pass P s r ≠ .error .fuel := by
  unfold try_alloc_pass
  dsimp only
  intro h
  by_cases hE : mlist_empty s r = true
  · rw [if_pos hE] at h
    cases hsp : shmseg_split_chunk P s (r + 1) with
    | error e =>
      rw [hsp] at h
      dsimp only at h
      cases h
      exact shmseg_split_chunk_terminates P s (r + 1) hsp
    | ok v =>
      obtain ⟨b, s1⟩ := v
      rw [hsp] at h
      cases b with
      | false => cases h
      | true =>
        dsimp only at h
        cases hl : s1.free_list r with
        | nil => rw [hl] at h; cases h
        | cons m rest =>
          rw [hl] at h
          dsimp only at h
          by_cases hc : (s1.hdr m).mclass ≠ r
          · rw [if_pos hc] at h; cases h
          · rw [if_neg hc] at h; cases h
  · rw [if_neg hE] at h
    dsimp only at h
    cases hl : s.free_list r with
    | nil => rw [hl] at h; cases h
    | cons m rest =>
      rw [hl] at h
      dsimp only at h
      by_cases hc : (s.hdr m).mclass ≠ r
      · rw [if_pos hc] at h; cases h
      · rw [if_neg hc] at h; cases h

/-- Source `shmseg_try_alloc` ends for every state and every size: the recursion
bound of the model is never reached. -/
theorem try_alloc_no_fuel (P : Platform) (s : msegment_t) (size : Nat) :
    shmseg_try_alloc P s size ≠ .error .fuel := by
  unfold shmseg_try_alloc
  intro h
  cases hr : request_class P size with
  | error e =>
    rw [hr] at h
    dsimp only at h
    cases h
    exact request_class_no_fuel P size hr
  | ok o =>
    rw [hr] at h
    cases o with
    | none => cases h
    | some r =>
      dsimp only at h
      cases hp : try_alloc_pass P s r with
      | error e =>
        rw [hp] at h
        dsimp only at h
        cases h
        exact try_alloc_pass_no_fuel P s r hp
      | ok v =>
        obtain ⟨p, s1⟩ := v
        rw [hp] at h
        cases p with
        | some q => cases h
        | none =>
          dsimp only at h
          cases hp2 : try_alloc_pass P s1 r with
          | error e =>
            rw [hp2] at h
            dsimp only at h
            cases h
            exact try_alloc_pass_no_fuel P s1 r hp2
          | ok w =>
            obtain ⟨p2, s2⟩ := w
            rw [hp2] at h
            cases p2 <;> cases h

/-- A `shmseg_try_alloc` that returns `NULL` for a request of class `r` has made
two passes, each with a refused split. -/
theorem try_alloc_none_trace (P : Platform) (s s2 : msegment_t) (size r : Nat)
    (hr : request_class P size = .ok (some r))
    (h : shmseg_try_alloc P s size = .ok (none, s2)) :
    s2 = s ∧ shmseg_split_chunk P s (r + 1) = .ok (false, s) ∧
    shmseg_try_alloc_trace P s size
      = ([Event.lock, Event.seg]
          ++ split_chunk_trace P (MSEGMENT_CLASS_MAX_BITS + 1) s (r + 1) ++ [Event.unlock])
        ++ ([Event.lock, Event.seg]
          ++ split_chunk_trace P (MSEGMENT_CLASS_MAX_BITS + 1) s (r + 1) ++ [Event.unlock]) := by
  have hs2 := try_alloc_none P s s2 size h
  subst hs2
  unfold shmseg_try_alloc at h
  unfold shmseg_try_alloc_trace
  rw [hr] at h ⊢
  dsimp only at h ⊢
  cases hp : try_alloc_pass P s2 r with
  | error e => rw [hp] at h; cases h
  | ok v =>
    obtain ⟨p, s1⟩ := v
    rw [hp] at h
    cases p with
    | some q => cases h
    | none =>
      dsimp only at h ⊢
      have hs1 := try_alloc_pass_none P s2 s1 r hp
      subst hs1
      obtain ⟨hsplit, htrace⟩ := try_alloc_pass_none_trace P s1 s1 r hp
      exact ⟨rfl, hsplit, by rw [htrace]⟩

/-- When `free_list[r]` is empty and `shmseg_split_chunk(r + 1)` is refused,
`shmseg_try_alloc` returns `NULL` and the state is the one given. -/
theorem try_alloc_refused (P : Platform) (s s1 : msegment_t) (size r : Nat)
    (hr : request_class P size = .ok (some r)) (hemp : s.free_list r = [])
    (hsplit : shmseg_split_chunk P s (r + 1) = .ok (false, s1)) :
    shmseg_try_alloc P s size = .ok (none, s) := by
  have hs1 := split_chunk_fuel_false P _ _ _ _ hsplit
  subst hs1
  have hE : mlist_empty s1 r = true := by simp [mlist_empty, hemp]
  have hpass : try_alloc_pass P s1 r = .ok (none, s1) := by
    unfold try_alloc_pass
    simp [hE, hsplit]
  unfold shmseg_try_alloc
  simp [hr, hpass]

/-- The retry of `shmseg_try_alloc`: for every state and every size the call
ends (the recursion bound of the model is not reached) and takes the lock at
most twice.  When `free_list[r]` is empty and `shmseg_split_chunk(r + 1)` is
refused, for a request of class `r`, it returns `NULL`, and whenever it returns
`NULL` for a request whose class is in range it has run the sequence lock, look
at `free_list[r]`, `shmseg_split_chunk(r + 1)` refused, unlock exactly twice:
the first attempt and one retry.  A request of class `MSEGMENT_CLASS_MAX_BITS`
on an empty `free_list[r]` is not among these: its split is not refused. -/
theorem try_alloc_one_retry (P : Platform) (s : msegment_t) (size : Nat) :
    shmseg_try_alloc P s size ≠ .error .fuel ∧
    (shmseg_try_alloc_trace P s size).count Event.lock ≤ 2 ∧
    (∀ r s1, request_class P size = .ok (some r) → s.free_list r = [] →
      shmseg_split_chunk P s (r + 1) = .ok (false, s1) →
      shmseg_try_alloc P s size = .ok (none, s)) ∧
    (∀ r s2, request_class P size = .ok (some r) →
      shmseg_try_alloc P s size = .ok (none, s2) →
      shmseg_split_chunk P s (r + 1) = .ok (false, s) ∧
      shmseg_try_alloc_trace P s size
        = ([Event.lock, Event.seg]
            ++ split_chunk_trace P (MSEGMENT_CLASS_MAX_BITS + 1) s (r + 1) ++ [Event.unlock])
          ++ ([Event.lock, Event.seg]
            ++ split_chunk_trace P (MSEGMENT_CLASS_MAX_BITS + 1) s (r + 1) ++ [Event.unlock]) ∧
      (shmseg_try_alloc_trace P s size).count Event.lock = 2 ∧
      (shmseg_try_alloc_trace P s size).count Event.unlock = 2) := by
  refine ⟨try_alloc_no_fuel P s size, ?_, ?_, ?_⟩
  · obtain ⟨_, _, _, hc, _⟩ := try_alloc_trace_lock P s size
    exact hc
  · intro r s1 hr hemp hsplit
    exact try_alloc_refused P s s1 size r hr hemp hsplit
  · intro r s2 hr h
    obtain ⟨_, hsplit, htrace⟩ := try_alloc_none_trace P s s2 size r hr h
    have hq := count_lock_quiet _
      (split_chunk_trace_quiet P (MSEGMENT_CLASS_MAX_BITS + 1) s (r + 1))
    refine ⟨hsplit, htrace, ?_, ?_⟩
    · rw [htrace]
      simp only [List.count_append, hq.1]
      simp
    · rw [htrace]
      simp only [List.count_append, hq.2]
      simp

/-- C25 (the code on the failing inputs): for a request whose class is
`MSEGMENT_CLASS_MAX_BITS` while `free_list[31]` is empty, so that no block is
obtainable, `shmseg_try_alloc` does not run the sequence lock, split attempt,
unlock twice and does not return failure.  Its events are the lock, the look at
`free_list[31]` and the entry of `shmseg_split_chunk(32)`, whose assertion
fails: the lock is taken once and never released, and it is held when the call
ends, in its first pass. -/
theorem C25_max_class_aborts_in_first_pass (P : Platform) (s : msegment_t) (size : Nat)
    (hr : request_class P size = .ok (some MSEGMENT_CLASS_MAX_BITS))
    (hemp : s.free_list MSEGMENT_CLASS_MAX_BITS = []) :
    shmseg_try_alloc_trace P s size
      = [Event.lock, Event.seg, Event.split (MSEGMENT_CLASS_MAX_BITS + 1)] ∧
    (shmseg_try_alloc_trace P s size).count Event.lock = 1 ∧
    (shmseg_try_alloc_trace P s size).count Event.unlock = 0 ∧
    lock_run false (shmseg_try_alloc_trace P s size) = some true ∧
    shmseg_try_alloc P s size = .error .assertion ∧
    shmseg_try_alloc P s size ≠ .ok (none, s) := by
  have hE : mlist_empty s MSEGMENT_CLASS_MAX_BITS = true := by
    simp [mlist_empty, hemp]
  have hsplit : shmseg_split_chunk P s (MSEGMENT_CLASS_MAX_BITS + 1) = .error .assertion := rfl
  have hpass : try_alloc_pass P s MSEGMENT_CLASS_MAX_BITS = .error .assertion := by
    unfold try_alloc_pass
    simp only [hE, if_true, hsplit]
  have htrace : shmseg_try_alloc_trace P s size
      = [Event.lock, Event.seg, Event.split (MSEGMENT_CLASS_MAX_BITS + 1)] := by
    unfold shmseg_try_alloc_trace
    simp only [hr, hpass, List.append_nil]
    unfold try_alloc_pass_trace
    simp only [hE, if_true, hsplit]
    rfl
  have hres : shmseg_try_alloc P s size = .error .assertion := by
    unfold shmseg_try_alloc
    simp only [hr, hpass]
  refine ⟨htrace, ?_, ?_, ?_, hres, ?_⟩
  · rw [htrace]; decide
  · rw [htrace]; decide
  · rw [htrace]; rfl
  · rw [hres]; exact fun h => by cases h

/-- Witness of C25: a request of `2 ^ 30` bytes on a 32-bit build, in a segment
whose free lists are empty. -/
theorem C25_max_class_aborts_in_first_pass_witness :
    request_class ilp32 (2 ^ 30) = .ok (some MSEGMENT_CLASS_MAX_BITS) ∧
    segFull.free_list MSEGMENT_CLASS_MAX_BITS = [] ∧
    (shmseg_try_alloc_trace ilp32 segFull (2 ^ 30)
      = [Event.lock, Event.seg, Event.split (MSEGMENT_CLASS_MAX_BITS + 1)] ∧
    (shmseg_try_alloc_trace ilp32 segFull (2 ^ 30)).count Event.lock = 1 ∧
    (shmseg_try_alloc_trace ilp32 segFull (2 ^ 30)).count Event.unlock = 0 ∧
    lock_run false (shmseg_try_alloc_trace ilp32 segFull (2 ^ 30)) = some true ∧
    shmseg_try_alloc ilp32 segFull (2 ^ 30) = .error .assertion ∧
    shmseg_try_alloc ilp32 segFull (2 ^ 30) ≠ .ok (none, segFull)) :=
  ⟨by decide, rfl,
    C25_max_class_aborts_in_first_pass ilp32 segFull (2 ^ 30) (by decide) rfl⟩

/-! ## The lock discipline -/

/-- C29: whatever the state and the arguments, none of `shmseg_try_alloc`,
`shmseg_try_resize` and `shmseg_free` takes the lock while it holds it or
releases it while it does not hold it, and whenever one of them returns
(a pointer or `NULL`, by any path) the lock is not held: every acquisition has
been followed by its release. -/
theorem C29_lock_balanced (P : Platform) (s : msegment_t) (addr size new_size : Nat)
    (buddy : Option Nat) :
    (∃ h, lock_run false (shmseg_try_alloc_trace P s size) = some h ∧
      (∀ v, shmseg_try_alloc P s size = .ok v → h = false)) ∧
    (∃ h, lock_run false (shmseg_try_resize_trace P s addr new_size buddy) = some h ∧
      (∀ v, shmseg_try_resize P s addr new_size buddy = .ok v → h = false)) ∧
    (∃ h, lock_run false (shmseg_free_trace P s addr buddy) = some h ∧
      (∀ v, shmseg_free P s addr buddy = .ok v → h = false)) := by
  obtain ⟨h1, hr1, _, _, hok1⟩ := try_alloc_trace_lock P s size
  obtain ⟨h2, hr2, _, hok2⟩ := resize_trace_lock P s addr new_size buddy
  obtain ⟨h3, hr3, _, hok3⟩ := free_trace_lock P s addr buddy
  exact ⟨⟨h1, hr1, hok1⟩, ⟨h2, hr2, hok2⟩, ⟨h3, hr3, hok3⟩⟩

/-- Witness of C29: in `segGrow`, an allocation of 100 bytes, the grow of the
64-byte chunk at 10304 to 1024 bytes and the release of that chunk, with `buddy`
designating the buddy of the chunk at 10240, all return, with the lock
released. -/
theorem C29_lock_balanced_witness :
    lock_run false (shmseg_try_alloc_trace ilp32 segGrow 100) = some false ∧
    lock_run false (shmseg_try_resize_trace ilp32 segGrow 10308 1024 (some 10240)) = some false ∧
    lock_run false (shmseg_free_trace ilp32 segGrow 10308 (some 10240)) = some false ∧
    ((∃ h, lock_run false (shmseg_try_alloc_trace ilp32 segGrow 100) = some h ∧
      (∀ v, shmseg_try_alloc ilp32 segGrow 100 = .ok v → h = false)) ∧
    (∃ h, lock_run false (shmseg_try_resize_trace ilp32 segGrow 10308 1024 (some 10240)) = some h ∧
      (∀ v, shmseg_try_resize ilp32 segGrow 10308 1024 (some 10240) = .ok v → h = false)) ∧
    (∃ h, lock_run false (shmseg_free_trace ilp32 segGrow 10308 (some 10240)) = some h ∧
      (∀ v, shmseg_free ilp32 segGrow 10308 (some 10240) = .ok v → h = false))) :=
  ⟨by decide, by decide, by decide,
    C29_lock_balanced ilp32 segGrow 10308 100 1024 (some 10240)⟩

/-- A `shmseg_split_chunk(c)` that returns true has split the first chunk of
`free_list[c]`, in the given state or in the one left by a successful
`shmseg_split_chunk(c + 1)`. -/
theorem split_chunk_true (P : Platform) (s s2 : msegment_t) (c : Nat)
    (h : shmseg_split_chunk P s c = .ok (true, s2)) :
    MSEGMENT_CLASS_MIN_BITS < c ∧ c ≤ MSEGMENT_CLASS_MAX_BITS ∧
    ∃ s1 x rest,
      ((s.free_list c ≠ [] ∧ s1 = s) ∨
        (s.free_list c = [] ∧ shmseg_split_chunk P s (c + 1) = .ok (true, s1))) ∧
      s1.free_list c = x :: rest ∧ (s1.hdr x).mclass = c ∧ s2 = split_apply P s1 c x := by
  have hstep : ∀ t, split_step P t c = .ok (true, s2) →
      ∃ x rest, t.free_list c = x :: rest ∧ (t.hdr x).mclass = c ∧ s2 = split_apply P t c x := by
    intro t ht
    unfold split_step at ht
    cases hl : t.free_list c with
    | nil => rw [hl] at ht; cases ht
    | cons x rest =>
      rw [hl] at ht
      dsimp only at ht
      by_cases hcls : (t.hdr x).mclass ≠ c
      · rw [if_pos hcls] at ht; cases ht
      · rw [if_neg hcls] at ht
        cases ht
        exact ⟨x, rest, rfl, not_not.mp hcls, rfl⟩
  unfold shmseg_split_chunk at h
  rw [split_chunk_fuel] at h
  by_cases hassert : ¬ (c > MSEGMENT_CLASS_MIN_BITS ∧ c ≤ MSEGMENT_CLASS_MAX_BITS)
  · rw [if_pos hassert] at h; cases h
  · rw [if_neg hassert] at h
    have hr := not_not.mp hassert
    refine ⟨hr.1, hr.2, ?_⟩
    by_cases hE : mlist_empty s c = true
    · rw [if_pos hE] at h
      have hemp : s.free_list c = [] := by simpa [mlist_empty] using hE
      by_cases hmax : c = MSEGMENT_CLASS_MAX_BITS
      · rw [if_pos hmax] at h; cases h
      · rw [if_neg hmax] at h
        have hst : split_chunk_fuel P MSEGMENT_CLASS_MAX_BITS s (c + 1)
            = shmseg_split_chunk P s (c + 1) :=
          split_chunk_fuel_stable P _ _ s (c + 1)
            (by simp only [MSEGMENT_CLASS_MAX_BITS]; omega)
            (by simp only [MSEGMENT_CLASS_MAX_BITS]; omega)
        rw [hst] at h
        cases hrec : shmseg_split_chunk P s (c + 1) with
        | error e => rw [hrec] at h; cases h
        | ok v =>
          obtain ⟨b, s1⟩ := v
          rw [hrec] at h
          cases b with
          | false => cases h
          | true =>
            dsimp only at h
            obtain ⟨x, rest, h1, h2, h3⟩ := hstep s1 h
            exact ⟨s1, x, rest, Or.inr ⟨hemp, rfl⟩, h1, h2, h3⟩
    · rw [if_neg hE] at h
      have hne : s.free_list c ≠ [] := by simpa [mlist_empty] using hE
      obtain ⟨x, rest, h1, h2, h3⟩ := hstep s h
      exact ⟨s, x, rest, Or.inl ⟨hne, rfl⟩, h1, h2, h3⟩

/-- A property of states kept by every split of the first chunk of a list is
kept by `shmseg_split_chunk`. -/
theorem split_chunk_fuel_inv_head (P : Platform) (I : msegment_t → Prop)
    (hI : ∀ s c x rest, I s → s.free_list c = x :: rest → (s.hdr x).mclass = c →
      MSEGMENT_CLASS_MIN_BITS < c → I (split_apply P s c x)) :
    ∀ (fuel : Nat) (s : msegment_t) (c : Nat) (b : Bool) (s1 : msegment_t),
      I s → split_chunk_fuel P fuel s c = .ok (b, s1) → I s1 := by
  have hstep : ∀ (s : msegment_t) (c : Nat) (b : Bool) (s1 : msegment_t),
      MSEGMENT_CLASS_MIN_BITS < c → I s → split_step P s c = .ok (b, s1) → I s1 := by
    intro s c b s1 hc hs h
    unfold split_step at h
    cases hl : s.free_list c with
    | nil => rw [hl] at h; cases h
    | cons x rest =>
      rw [hl] at h
      dsimp only at h
      by_cases hcls : (s.hdr x).mclass ≠ c
      · rw [if_pos hcls] at h; cases h
      · rw [if_neg hcls] at h
        cases h
        exact hI s c x rest hs hl (not_not.mp hcls) hc
  intro fuel
  induction fuel with
  | zero => intro s c b s1 _ h; simp [split_chunk_fuel] at h
  | succ fuel ih =>
    intro s c b s1 hs h
    rw [split_chunk_fuel] at h
    by_cases hassert : ¬ (c > MSEGMENT_CLASS_MIN_BITS ∧ c ≤ MSEGMENT_CLASS_MAX_BITS)
    · rw [if_pos hassert] at h; cases h
    · rw [if_neg hassert] at h
      have hr := not_not.mp hassert
      by_cases hE : mlist_empty s c = true
      · rw [if_pos hE] at h
        by_cases hmax : c = MSEGMENT_CLASS_MAX_BITS
        · rw [if_pos hmax] at h; cases h; exact hs
        · rw [if_neg hmax] at h
          cases hrec : split_chunk_fuel P fuel s (c + 1) with
          | error e => rw [hrec] at h; cases h
          | ok v =>
            obtain ⟨b1, s2⟩ := v
            rw [hrec] at h
            have hs2 := ih s (c + 1) b1 s2 hs hrec
            cases b1 with
            | false => cases h; exact hs2
            | true => exact hstep _ _ _ _ hr.1 hs2 h
      · rw [if_neg hE] at h
        exact hstep _ _ _ _ hr.1 hs h

/-- Members of the free lists after one split. -/
theorem split_apply_mem (P : Platform) (s : msegment_t) (c x k z : Nat) :
    z ∈ (split_apply P s c x).free_list k ↔
      (k = c - 1 ∧ (z = (x + shl1 (c - 1)) % P.arch.wordMod ∨ z = x)) ∨
        (z ∈ s.free_list k ∧ z ≠ x) := by
  rw [split_apply_free_list]
  by_cases hk : k = c - 1
  · simp only [hk, if_true, List.mem_cons, List.mem_filter, true_and]
    simp only [ne_eq, decide_not, Bool.not_eq_true', decide_eq_false_iff_not]
    tauto
  · simp only [hk, if_false, List.mem_filter, false_and, false_or]
    simp

/-- In a state with well-formed free lists, the first chunk `x` of
`free_list[c]` is on no other list and not twice on its own, and the offset of
its upper half is on no list. -/
theorem freeWF_head_facts (P : Platform) (s : msegment_t) (c x : Nat) (rest : List Nat)
    (hwf : FreeWF P s) (hl : s.free_list c = x :: rest) (hc : 0 < c) :
    2 ^ c = 2 ^ (c - 1) + 2 ^ (c - 1) ∧
    x + 2 ^ (c - 1) + 2 ^ (c - 1) ≤ P.arch.wordMod ∧
    (x + shl1 (c - 1)) % P.arch.wordMod = x + 2 ^ (c - 1) ∧
    x ∉ rest ∧ (∀ k, k ≠ c → x ∉ s.free_list k) ∧
    (∀ k, x + 2 ^ (c - 1) ∉ s.free_list k) := by
  obtain ⟨hA, hB, hC⟩ := hwf
  have hx : x ∈ s.free_list c := by rw [hl]; exact List.mem_cons_self _ _
  have hpow : 2 ^ c = 2 ^ (c - 1) + 2 ^ (c - 1) := by
    have : c = (c - 1) + 1 := by omega
    conv_lhs => rw [this, pow_succ]
    ring
  have hpos : 0 < 2 ^ (c - 1) := Nat.two_pow_pos _
  have hend := (hA c x hx).1
  refine ⟨hpow, by omega, ?_, ?_, ?_, ?_⟩
  · unfold shl1
    exact Nat.mod_eq_of_lt (by omega)
  · have := hC c
    rw [hl] at this
    exact (List.nodup_cons.mp this).1
  · intro k hk hmem
    have hkpos : 0 < 2 ^ k := Nat.two_pow_pos _
    have := hB c x k x hx hmem (by omega) (by omega)
    exact hk this.1.symm
  · intro k hmem
    have hkpos : 0 < 2 ^ k := Nat.two_pow_pos _
    have := hB c x k (x + 2 ^ (c - 1)) hx hmem (by omega) (by omega)
    omega

/-- Splitting the first chunk of a list keeps the free lists well formed. -/
theorem split_apply_freeWF (P : Platform) (s : msegment_t) (c x : Nat) (rest : List Nat)
    (hwf : FreeWF P s) (hl : s.free_list c = x :: rest) (hc : 0 < c) :
    FreeWF P (split_apply P s c x) := by
  obtain ⟨hpow, hend, hy, hx1, hx2, hy2⟩ := freeWF_head_facts P s c x rest hwf hl hc
  obtain ⟨hA, hB, hC⟩ := hwf
  have hx : x ∈ s.free_list c := by rw [hl]; exact List.mem_cons_self _ _
  have hpos : 0 < 2 ^ (c - 1) := Nat.two_pow_pos _
  have hcc : c - 1 ≠ c := by omega
  -- an old member other than `x` does not meet the block of `x`
  have hold : ∀ k z, z ∈ s.free_list k → z ≠ x →
      ¬ (z < x + 2 ^ c ∧ x < z + 2 ^ k) := by
    intro k z hz hzx hov
    exact hzx (hB k z c x hz hx hov.1 hov.2).2
  refine ⟨?_, ?_, ?_⟩
  · intro k z hz
    rw [split_apply_mem, hy] at hz
    rw [split_apply_hdr, hy]
    rcases hz with ⟨hk, hz | hz⟩ | ⟨hz, hzx⟩
    · subst hk; subst hz
      simp only [or_true, if_true]
      exact ⟨by omega, trivial⟩
    · subst hk; subst hz
      simp only [true_or, if_true]
      exact ⟨by omega, trivial⟩
    · have hzy : z ≠ x + 2 ^ (c - 1) := fun e => hy2 k (e ▸ hz)
      simp only [hzx, hzy, or_self, if_false]
      exact hA k z hz
  · intro k1 z1 k2 z2 h1 h2 ho1 ho2
    rw [split_apply_mem, hy] at h1 h2
    rcases h1 with ⟨hk1, hz1 | hz1⟩ | ⟨hz1, hzx1⟩ <;>
      rcases h2 with ⟨hk2, hz2 | hz2⟩ | ⟨hz2, hzx2⟩
    · exact ⟨by omega, by omega⟩
    · subst hk1; subst hk2; subst hz1; subst hz2; omega
    · subst hk1; subst hz1
      exact (hold k2 z2 hz2 hzx2 ⟨by omega, by omega⟩).elim
    · subst hk1; subst hk2; subst hz1; subst hz2; omega
    · exact ⟨by omega, by omega⟩
    · subst hk1; subst hz1
      exact (hold k2 z2 hz2 hzx2 ⟨by omega, by omega⟩).elim
    · subst hk2; subst hz2
      exact (hold k1 z1 hz1 hzx1 ⟨by omega, by omega⟩).elim
    · subst hk2; subst hz2
      exact (hold k1 z1 hz1 hzx1 ⟨by omega, by omega⟩).elim
    · exact hB k1 z1 k2 z2 hz1 hz2 ho1 ho2
  · intro k
    rw [split_apply_free_list, hy]
    have hfil : ((s.free_list k).filter (fun z => decide (z ≠ x))).Nodup :=
      (hC k).filter _
    by_cases hk : k = c - 1
    · rw [if_pos hk]
      refine List.nodup_cons.mpr ⟨?_, List.nodup_cons.mpr ⟨?_, hfil⟩⟩
      · intro hmem
        rcases List.mem_cons.mp hmem with e | hmem
        · omega
        · exact hy2 k (List.mem_filter.mp hmem).1
      · intro hmem
        have := (List.mem_filter.mp hmem).2
        simp at this
    · rw [if_neg hk]
      exact hfil

theorem filter_ne_of_not_mem (l : List Nat) (x : Nat) (h : x ∉ l) :
    l.filter (fun z => decide (z ≠ x)) = l := by
  apply List.filter_eq_self.mpr
  intro z hz
  have : z ≠ x := fun e => h (e ▸ hz)
  simpa using this

/-- C23: in a state whose free lists are well formed (a chunk is on one list,
once, under its class), whenever `shmseg_split_chunk(c)` returns true, `c` is
above `MSEGMENT_CLASS_MIN_BITS` and at most `MSEGMENT_CLASS_MAX_BITS`, and for
the state `s1` in which the split is done (the given one, or the one left by the
successful `shmseg_split_chunk(c + 1)` when `free_list[c]` was empty) and the
first chunk `X` of its `free_list[c]`: `free_list[c]` has lost `X` and nothing
else, `free_list[c - 1]` has gained the chunks at `X + 2 ^ (c - 1)` and `X`,
neither of which was on it, and nothing else, the other lists are as in `s1`,
both headers read class `c - 1`, Free, the two blocks make up exactly the block
`[X, X + 2 ^ c)`, and the free lists are still well formed. -/
theorem C23_split_structure (P : Platform) (s s2 : msegment_t) (c : Nat)
    (hwf : FreeWF P s) (h : shmseg_split_chunk P s c = .ok (true, s2)) :
    MSEGMENT_CLASS_MIN_BITS < c ∧ c ≤ MSEGMENT_CLASS_MAX_BITS ∧
    ∃ s1 X,
      ((s.free_list c ≠ [] ∧ s1 = s) ∨
        (s.free_list c = [] ∧ shmseg_split_chunk P s (c + 1) = .ok (true, s1))) ∧
      FreeWF P s1 ∧ (s1.hdr X).mclass = c ∧
      s1.free_list c = X :: s2.free_list c ∧ X ∉ s2.free_list c ∧
      s2.free_list (c - 1) = (X + 2 ^ (c - 1)) :: X :: s1.free_list (c - 1) ∧
      X ∉ s1.free_list (c - 1) ∧ X + 2 ^ (c - 1) ∉ s1.free_list (c - 1) ∧
      (∀ k, k ≠ c → k ≠ c - 1 → s2.free_list k = s1.free_list k) ∧
      s2.hdr X = ⟨c - 1, MCHUNK_TAG_FREE⟩ ∧
      s2.hdr (X + 2 ^ (c - 1)) = ⟨c - 1, MCHUNK_TAG_FREE⟩ ∧
      (∀ a, (X ≤ a ∧ a < X + 2 ^ c) ↔
        ((X ≤ a ∧ a < X + 2 ^ (c - 1)) ∨
          (X + 2 ^ (c - 1) ≤ a ∧ a < X + 2 ^ (c - 1) + 2 ^ (c - 1)))) ∧
      FreeWF P s2 := by
  obtain ⟨h6, h31, s1, x, rest, hs1, hl, hcls, hs2⟩ := split_chunk_true P s s2 c h
  have hc : 0 < c := by
    simp only [MSEGMENT_CLASS_MIN_BITS] at h6; omega
  have hwf1 : FreeWF P s1 := by
    rcases hs1 with ⟨_, rfl⟩ | ⟨_, hrec⟩
    · exact hwf
    · exact split_chunk_fuel_inv_head P (FreeWF P)
        (fun t k z r ht hlt _ hk => split_apply_freeWF P t k z r ht hlt (by
          simp only [MSEGMENT_CLASS_MIN_BITS] at hk; omega))
        _ s (c + 1) true s1 hwf hrec
  obtain ⟨hpow, hend, hy, hx1, hx2, hy2⟩ := freeWF_head_facts P s1 c x rest hwf1 hl hc
  have hcc : c ≠ c - 1 := by omega
  have hlc : s2.free_list c = rest := by
    rw [hs2, split_apply_free_list, if_neg hcc, hl]
    rw [List.filter_cons_of_neg (by simp)]
    exact filter_ne_of_not_mem rest x hx1
  refine ⟨h6, h31, s1, x, hs1, hwf1, hcls, ?_, ?_, ?_, hx2 (c - 1) (by omega), hy2 (c - 1),
    ?_, ?_, ?_, ?_, ?_⟩
  · rw [hlc]; exact hl
  · rw [hlc]; exact hx1
  · rw [hs2, split_apply_free_list, if_pos rfl, hy,
      filter_ne_of_not_mem _ x (hx2 (c - 1) (by omega))]
  · intro k hk1 hk2
    rw [hs2, split_apply_free_list, if_neg hk2, filter_ne_of_not_mem _ x (hx2 k hk1)]
  · rw [hs2, split_apply_hdr]; simp
  · rw [hs2, split_apply_hdr, hy]; simp
  · intro a
    rw [hpow]
    omega
  · rw [hs2]
    exact split_apply_freeWF P s1 c x rest hwf1 hl hc

/-- Witness of C23: `shmseg_split_chunk(7)` in `seg256`, whose only free chunk
is the 256-byte chunk at 8192: `free_list[7]` is empty, the call refills it by
`shmseg_split_chunk(8)` and then splits its first chunk, at 8320. -/
theorem C23_split_structure_witness :
    FreeWF ilp32 seg256 ∧
    shmseg_split_chunk ilp32 seg256 7
      = .ok (true, split_apply ilp32 (split_apply ilp32 seg256 8 8192) 7 8320) ∧
    (split_apply ilp32 (split_apply ilp32 seg256 8 8192) 7 8320).free_list 7 = [8192] ∧
    (split_apply ilp32 (split_apply ilp32 seg256 8 8192) 7 8320).free_list 6 = [8384, 8320] ∧
    MSEGMENT_CLASS_MIN_BITS < 7 := by
  have hwf : FreeWF ilp32 seg256 := by
    refine ⟨?_, ?_, ?_⟩
    · intro c x hx
      by_cases hc : c = 8
      · subst hc
        have : x = 8192 := by simpa [seg256] using hx
        subst this
        decide
      · simp [seg256, hc] at hx
    · intro c x d y hx hy _ _
      by_cases hc : c = 8
      · by_cases hd : d = 8
        · subst hc; subst hd
          have h1 : x = 8192 := by simpa [seg256] using hx
          have h2 : y = 8192 := by simpa [seg256] using hy
          exact ⟨rfl, by rw [h1, h2]⟩
        · simp [seg256, hd] at hy
      · simp [seg256, hc] at hx
    · intro c
      by_cases hc : c = 8
      · subst hc; decide
      · simp [seg256, hc]
  exact ⟨hwf, rfl, by decide, by decide,
    (C23_split_structure ilp32 seg256
      (split_apply ilp32 (split_apply ilp32 seg256 8 8192) 7 8320) 7 hwf rfl).1⟩

/-! ## The bit helpers as the callers use them -/

/-- `fast_ffs` of a non-zero value is one more than the index of its lowest set
bit: `2 ^ (fast_ffs v - 1)` divides `v` and `2 ^ fast_ffs v` does not. -/
theorem fast_ffs_not_dvd (P : Platform) (v : Nat) (hv : 0 < v) (hlt : v < P.arch.wordMod) :
    1 ≤ fast_ffs P v ∧ 2 ^ (fast_ffs P v - 1) ∣ v ∧ ¬ (2 ^ fast_ffs P v ∣ v) := by
  obtain ⟨k, m, hm, hx⟩ := Nat.exists_eq_two_pow_mul_odd (Nat.pos_iff_ne_zero.mp hv)
  have hm1 : m % 2 = 1 := Nat.odd_iff.mp hm
  rw [hx] at hlt
  have hffs := fast_ffs_odd_multiple P k m hm1 hlt
  rw [← hx] at hffs
  rw [hffs]
  refine ⟨by omega, ?_, ?_⟩
  · rw [Nat.add_sub_cancel, hx]
    exact Dvd.intro _ rfl
  · intro hdvd
    rw [hx, pow_succ] at hdvd
    have h2 : 2 ∣ m := (Nat.mul_dvd_mul_iff_left (Nat.two_pow_pos k)).mp hdvd
    omega

/-- On a 64-bit build `fast_fls` of a non-zero value below `2 ^ 32` is 32 more
than the position of its highest set bit. -/
theorem fast_fls_lp64 (P : Platform) (hP : P.arch = .LP64) (v : Nat) (hv : 0 < v)
    (hlt : v < 2 ^ 32) :
    ∃ b, fast_fls P v = .ok (b + 32) ∧ 1 ≤ b ∧ 2 ^ (b - 1) ≤ v ∧ v < 2 ^ b := by
  obtain ⟨a, b, c⟩ := clzLoop_spec 32 v hv hlt
  have hmod : v % 2 ^ 32 = v := Nat.mod_eq_of_lt hlt
  have hb : 2 ^ (32 - clzLoop 32 v - 1) ≤ v := by
    have e : 32 - clzLoop 32 v - 1 = 32 - 1 - clzLoop 32 v := by omega
    rw [e]; exact b
  refine ⟨32 - clzLoop 32 v, ?_, by omega, hb, c⟩
  unfold fast_fls builtin_clz
  rw [hmod]
  have h0 : v ≠ 0 := by omega
  simp only [h0, if_false, hP, Arch.ptrBytes]
  congr 1
  omega

/-- C34 (the code on every input): for every non-zero value `v` of type
`uintptr_t`, `fast_ffs(v)` is one more than the index of the lowest set bit, so
`2 ^ fast_ffs(v)` does not divide `v`; and on a 64-bit build, for every non-zero
`v` below `2 ^ 32`, `fast_fls(v)` is `b + 32` where `b` is the least `k` with
`v < 2 ^ k`, while for `v = 2 ^ 32` the argument of `__builtin_clz` is zero and
the result is not defined. -/
theorem C34_bit_helpers_off (P : Platform) (v : Nat) (hv : 0 < v)
    (hlt : v < P.arch.wordMod) :
    (1 ≤ fast_ffs P v ∧ 2 ^ (fast_ffs P v - 1) ∣ v ∧ ¬ (2 ^ fast_ffs P v ∣ v)) ∧
    (P.arch = .LP64 → v < 2 ^ 32 →
      ∃ b, fast_fls P v = .ok (b + 32) ∧ 1 ≤ b ∧ 2 ^ (b - 1) ≤ v ∧ v < 2 ^ b) ∧
    (P.arch = .LP64 → fast_fls P (2 ^ 32) = .error .undefined) := by
  refine ⟨fast_ffs_not_dvd P v hv hlt, fun hP h32 => fast_fls_lp64 P hP v hv h32, ?_⟩
  intro hP
  unfold fast_fls builtin_clz
  simp

/-- Witness of C34: the value 8192 on the 64-bit sample build:
`fast_ffs(8192) = 14` and `fast_fls(8192) = 46`. -/
theorem C34_bit_helpers_off_witness :
    0 < 8192 ∧ 8192 < lp64.arch.wordMod ∧
    fast_ffs lp64 8192 = 14 ∧ fast_fls lp64 8192 = .ok 46 ∧
    fast_ffs ilp32 8192 = 14 ∧
    ((1 ≤ fast_ffs lp64 8192 ∧ 2 ^ (fast_ffs lp64 8192 - 1) ∣ 8192 ∧
      ¬ (2 ^ fast_ffs lp64 8192 ∣ 8192)) ∧
    (lp64.arch = .LP64 → 8192 < 2 ^ 32 →
      ∃ b, fast_fls lp64 8192 = .ok (b + 32) ∧ 1 ≤ b ∧ 2 ^ (b - 1) ≤ 8192 ∧ 8192 < 2 ^ b) ∧
    (lp64.arch = .LP64 → fast_fls lp64 (2 ^ 32) = .error .undefined)) :=
  ⟨by decide, by decide, by decide, by decide, by decide,
    C34_bit_helpers_off lp64 8192 (by decide) (by decide)⟩

/-! ## Counters and lists -/

/-- Source `shmseg_split_chunk(c)` leaves `num_free[k]` alone for the classes
`k < c - 1`. -/
theorem split_chunk_fuel_num_free_below (P : Platform) :
    ∀ (fuel : Nat) (s : msegment_t) (c : Nat) (b : Bool) (s1 : msegment_t),
      split_chunk_fuel P fuel s c = .ok (b, s1) →
      ∀ k, k + 1 < c → s1.num_free k = s.num_free k := by
  have hstep : ∀ (s : msegment_t) (c : Nat) (b : Bool) (s1 : msegment_t),
      0 < c → split_step P s c = .ok (b, s1) →
      ∀ k, k + 1 < c → s1.num_free k = s.num_free k := by
    intro s c b s1 hc h k hk
    unfold split_step at h
    cases hl : s.free_list c with
    | nil => rw [hl] at h; cases h
    | cons x rest =>
      rw [hl] at h
      dsimp only at h
      by_cases hcls : (s.hdr x).mclass ≠ c
      · rw [if_pos hcls] at h; cases h
      · rw [if_neg hcls] at h
        cases h
        rw [split_apply_num_free _ _ _ _ _ hc, if_neg (by omega), if_neg (by omega)]
  intro fuel
  induction fuel with
  | zero => intro s c b s1 h; simp [split_chunk_fuel] at h
  | succ fuel ih =>
    intro s c b s1 h k hk
    rw [split_chunk_fuel] at h
    by_cases hassert : ¬ (c > MSEGMENT_CLASS_MIN_BITS ∧ c ≤ MSEGMENT_CLASS_MAX_BITS)
    · rw [if_pos hassert] at h; cases h
    · rw [if_neg hassert] at h
      by_cases hE : mlist_empty s c = true
      · rw [if_pos hE] at h
        by_cases hmax : c = MSEGMENT_CLASS_MAX_BITS
        · rw [if_pos hmax] at h; cases h; rfl
        · rw [if_neg hmax] at h
          cases hrec : split_chunk_fuel P fuel s (c + 1) with
          | error e => rw [hrec] at h; cases h
          | ok v =>
            obtain ⟨b1, s2⟩ := v
            rw [hrec] at h
            have hs2 := ih s (c + 1) b1 s2 hrec k (by omega)
            cases b1 with
            | false => cases h; exact hs2
            | true =>
              dsimp only at h
              rw [hstep s2 c b s1 (by omega) h k hk, hs2]
      · rw [if_neg hE] at h
        exact hstep s c b s1 (by omega) h k hk

/-- A `shmseg_try_alloc` that finds `free_list[r]` empty and returns a chunk has
lowered `num_free[r]` by three: two at the end of the split that filled the
list with two chunks (line 132), one for the chunk taken (line 181). -/
theorem try_alloc_split_num_free (P : Platform) (s s2 : msegment_t) (size r p : Nat)
    (hr : request_class P size = .ok (some r)) (hemp : s.free_list r = [])
    (h : shmseg_try_alloc P s size = .ok (some p, s2)) :
    s2.num_free r = s.num_free r - 3 := by
  obtain ⟨r1, hr1, hpass⟩ := try_alloc_some P s s2 size p h
  rw [hr] at hr1
  cases hr1
  obtain ⟨s1, off, rest, hs1, _, _, _, hs2⟩ := try_alloc_pass_some P s s2 r p hpass
  rcases hs1 with ⟨hne, _⟩ | ⟨_, hsplit⟩
  · exact (hne hemp).elim
  · obtain ⟨_, _, t, x, rest1, ht, _, _, hs1⟩ := split_chunk_true P s s1 (r + 1) hsplit
    have htr : t.num_free r = s.num_free r := by
      rcases ht with ⟨_, rfl⟩ | ⟨_, hrec⟩
      · rfl
      · exact split_chunk_fuel_num_free_below P _ s (r + 1 + 1) true t hrec r (by omega)
    have h1 : s1.num_free r = t.num_free r - 2 := by
      rw [hs1, split_apply_num_free _ _ _ _ _ (by omega)]
      simp
    rw [hs2]
    simp only [alloc_apply, add_num_free, add_num_active, set_mtag, mlist_del, upd]
    simp only [if_true, h1, htr]
    ring

/-- C31 (the code on every input of this kind): in a state whose `num_free[r]`
agrees with an empty `free_list[r]`, a `shmseg_try_alloc` for a request of class
`r` that returns a chunk (after splitting a larger one) leaves `num_free[r]` at
-3: it is negative and is not the number of chunks on `free_list[r]`. -/
theorem C31_num_free_negative_after_split (P : Platform) (s s2 : msegment_t) (size r p : Nat)
    (hr : request_class P size = .ok (some r)) (hemp : s.free_list r = [])
    (hagree : s.num_free r = ((s.free_list r).length : Int))
    (h : shmseg_try_alloc P s size = .ok (some p, s2)) :
    s2.num_free r = -3 ∧ s2.num_free r < 0 ∧
    s2.num_free r ≠ ((s2.free_list r).length : Int) := by
  have h3 := try_alloc_split_num_free P s s2 size r p hr hemp h
  rw [hemp] at hagree
  simp only [List.length_nil, Nat.cast_zero] at hagree
  rw [hagree] at h3
  have hval : s2.num_free r = -3 := by rw [h3]; norm_num
  refine ⟨hval, by omega, ?_⟩
  have : (0 : Int) ≤ ((s2.free_list r).length : Int) := Int.natCast_nonneg _
  omega

/-- Witness of C31: `shmseg_init_msegment` with `segment_size = 24576` on the
32-bit sample build, then `shmseg_try_alloc(100)`: `num_free[7]` is -3 while
`free_list[7]` holds one chunk, and `num_free[13]` is -3 while `free_list[13]`
holds one chunk. -/
theorem C31_num_free_negative_after_split_witness :
    shmseg_init_msegment ilp32 rawZero 24576 = .ok initOne ∧
    request_class ilp32 100 = .ok (some 7) ∧ initOne.free_list 7 = [] ∧
    initOne.num_free 7 = ((initOne.free_list 7).length : Int) ∧
    shmseg_try_alloc ilp32 initOne 100 = .ok (some 24452, initOne_alloc) ∧
    (initOne_alloc.free_list 7, initOne_alloc.num_free 7) = ([24320], -3) ∧
    (initOne_alloc.free_list 13, initOne_alloc.num_free 13) = ([8192], -3) ∧
    (initOne_alloc.num_free 7 = -3 ∧ initOne_alloc.num_free 7 < 0 ∧
      initOne_alloc.num_free 7 ≠ ((initOne_alloc.free_list 7).length : Int)) :=
  ⟨rfl, by decide, by decide, by decide, rfl, by decide, by decide,
    C31_num_free_negative_after_split ilp32 initOne initOne_alloc 100 7 24452
      (by decide) (by decide) (by decide) rfl⟩

end Msegment

namespace Textlib

/-! ## varlena_cmp -/

/-- The loop of `varlena_cmp`, run for the length of the shorter payload, never
reads past a payload; a `return -1` or `return 1` inside it is the verdict of
the first position where the payloads differ, and when it runs to its end the
shorter payload is a prefix of the other. -/
theorem varlena_cmp_loop_spec (a : List Int) :
    ∀ b : List Int, ∃ x, varlena_cmp_loop (min a.length b.length) a b = some x ∧
      (x = none ∨ x = some (-1) ∨ x = some 1) ∧
      (x = some (-1) → List.Lex (· < ·) a b) ∧
      (x = some 1 → List.Lex (· < ·) b a) ∧
      (x = none → (a.length = b.length → a = b) ∧
        (a.length < b.length → List.Lex (· < ·) a b) ∧
        (b.length < a.length → List.Lex (· < ·) b a)) := by
  induction a with
  | nil =>
    intro b
    refine ⟨none, by simp [varlena_cmp_loop], Or.inl rfl, (fun h => by cases h),
      (fun h => by cases h), fun _ => ⟨?_, ?_, ?_⟩⟩
    · intro h
      cases b with
      | nil => rfl
      | cons c bs => simp at h
    · intro h
      cases b with
      | nil => simp at h
      | cons c bs => exact List.Lex.nil
    · intro h; simp at h
  | cons c1 s1 ih =>
    intro b
    cases b with
    | nil =>
      refine ⟨none, by simp [varlena_cmp_loop], Or.inl rfl, (fun h => by cases h),
        (fun h => by cases h), fun _ => ⟨?_, ?_, ?_⟩⟩
      · intro h; simp at h
      · intro h; simp at h
      · intro _; exact List.Lex.nil
    | cons c2 s2 =>
      have hmin : min (c1 :: s1).length (c2 :: s2).length = min s1.length s2.length + 1 := by
        simp only [List.length_cons]
        omega
      rw [hmin, varlena_cmp_loop]
      by_cases hlt : c1 < c2
      · rw [if_pos hlt]
        exact ⟨some (-1), rfl, Or.inr (Or.inl rfl), fun _ => List.Lex.rel hlt,
          (fun h => by cases h), (fun h => by cases h)⟩
      · rw [if_neg hlt]
        by_cases hgt : c1 > c2
        · rw [if_pos hgt]
          exact ⟨some 1, rfl, Or.inr (Or.inr rfl), (fun h => by cases h),
            fun _ => List.Lex.rel hgt, (fun h => by cases h)⟩
        · rw [if_neg hgt]
          have heq : c1 = c2 := by omega
          subst heq
          obtain ⟨x, hx, hcases, hm, hp, hn⟩ := ih s2
          refine ⟨x, hx, hcases, fun h => List.Lex.cons (hm h), fun h => List.Lex.cons (hp h),
            fun h => ?_⟩
          obtain ⟨h1, h2, h3⟩ := hn h
          refine ⟨fun hl => ?_, fun hl => ?_, fun hl => ?_⟩
          · rw [h1 (by simpa using hl)]
          · exact List.Lex.cons (h2 (by simpa using hl))
          · exact List.Lex.cons (h3 (by simpa using hl))

/-- Source `varlena_cmp` returns, and what it returns is -1 with the first
payload before the second in the lexicographic order, 0 with equal payloads, or
1 with the second before the first. -/
theorem varlena_cmp_cases (a b : List Int) :
    ∃ r, varlena_cmp ⟨a⟩ ⟨b⟩ = some r ∧
      ((r = -1 ∧ List.Lex (· < ·) a b) ∨ (r = 0 ∧ a = b) ∨
        (r = 1 ∧ List.Lex (· < ·) b a)) := by
  obtain ⟨x, hx, hcases, hm, hp, hn⟩ := varlena_cmp_loop_spec a b
  unfold varlena_cmp
  dsimp only
  rw [hx]
  rcases hcases with rfl | rfl | rfl
  · obtain ⟨h1, h2, h3⟩ := hn rfl
    dsimp only
    by_cases hne : a.length ≠ b.length
    · rw [if_pos hne]
      by_cases hgt : a.length > b.length
      · rw [if_pos hgt]
        exact ⟨1, rfl, Or.inr (Or.inr ⟨rfl, h3 hgt⟩)⟩
      · rw [if_neg hgt]
        exact ⟨-1, rfl, Or.inl ⟨rfl, h2 (by omega)⟩⟩
    · rw [if_neg hne]
      exact ⟨0, rfl, Or.inr (Or.inl ⟨rfl, h1 (not_not.mp hne)⟩)⟩
  · exact ⟨-1, rfl, Or.inl ⟨rfl, hm rfl⟩⟩
  · exact ⟨1, rfl, Or.inr (Or.inr ⟨rfl, hp rfl⟩)⟩

theorem lex_lt_asymm (a b : List Int) (h1 : List.Lex (· < ·) a b)
    (h2 : List.Lex (· < ·) b a) : False :=
  asymm h1 h2

/-- The result of `varlena_cmp` in full: it is -1 exactly when the first payload
is before the second, 1 exactly when it is after it, 0 exactly when the payloads
are equal. -/
theorem varlena_cmp_iff (a b : List Int) :
    ∃ r, varlena_cmp ⟨a⟩ ⟨b⟩ = some r ∧ (r = -1 ∨ r = 0 ∨ r = 1) ∧
      (r = -1 ↔ List.Lex (· < ·) a b) ∧ (r = 1 ↔ List.Lex (· < ·) b a) ∧
      (r = 0 ↔ a = b) := by
  obtain ⟨r, hr, hc⟩ := varlena_cmp_cases a b
  refine ⟨r, hr, ?_, ?_, ?_, ?_⟩
  · rcases hc with ⟨h, _⟩ | ⟨h, _⟩ | ⟨h, _⟩
    · exact Or.inl h
    · exact Or.inr (Or.inl h)
    · exact Or.inr (Or.inr h)
  · constructor
    · intro h
      rcases hc with ⟨_, hl⟩ | ⟨h0, _⟩ | ⟨h1, _⟩
      · exact hl
      · omega
      · omega
    · intro hl
      rcases hc with ⟨h, _⟩ | ⟨_, he⟩ | ⟨_, hl2⟩
      · exact h
      · subst he; exact (lex_lt_asymm a a hl hl).elim
      · exact (lex_lt_asymm a b hl hl2).elim
  · constructor
    · intro h
      rcases hc with ⟨h0, _⟩ | ⟨h0, _⟩ | ⟨_, hl⟩
      · omega
      · omega
      · exact hl
    · intro hl
      rcases hc with ⟨_, hl2⟩ | ⟨_, he⟩ | ⟨h, _⟩
      · exact (lex_lt_asymm a b hl2 hl).elim
      · subst he; exact (lex_lt_asymm a a hl hl).elim
      · exact h
  · constructor
    · intro h
      rcases hc with ⟨h0, _⟩ | ⟨_, he⟩ | ⟨h0, _⟩
      · omega
      · exact he
      · omega
    · intro he
      subst he
      rcases hc with ⟨_, hl⟩ | ⟨h, _⟩ | ⟨_, hl⟩
      · exact (lex_lt_asymm a a hl hl).elim
      · exact h
      · exact (lex_lt_asymm a a hl hl).elim

theorem lex_lt_append_cons (a : List Int) (c : Int) (t : List Int) :
    List.Lex (· < ·) a (a ++ c :: t) := by
  induction a with
  | nil => exact List.Lex.nil
  | cons x xs ih => exact List.Lex.cons ih

/-- C32: for all varlena values `a` and `b`, `varlena_cmp(a, b)` returns (the
loop ends and reads inside the payloads) a value `r` in {-1, 0, 1}; `r` is -1
exactly when the payload of `a` is before that of `b` in the lexicographic order
of their `cl_char` values, in which a proper prefix is before the longer string,
1 exactly when it is after it, 0 exactly when `a` and `b` have the same bytes
(and so the same length); `varlena_cmp(b, a)` returns `-r`; `pgfn_texteq` and
`pgfn_bpchareq` return a null result when an argument is null and otherwise a
non-null result whose value is true exactly when the payloads are identical. -/
theorem C32_varlena_cmp_lexicographic (a b : varlena) :
    ∃ r, varlena_cmp a b = some r ∧ (r = -1 ∨ r = 0 ∨ r = 1) ∧
      (r = -1 ↔ List.Lex (· < ·) a.data b.data) ∧
      (r = 1 ↔ List.Lex (· < ·) b.data a.data) ∧
      (r = 0 ↔ a = b) ∧
      (r = 0 ↔ a.data.length = b.data.length ∧ ∀ i, a.data.get? i = b.data.get? i) ∧
      (∀ c t, b.data = a.data ++ c :: t → r = -1) ∧
      varlena_cmp b a = some (-r) ∧
      (∀ n1 n2 : Bool,
        pgfn_texteq ⟨a, n1⟩ ⟨b, n2⟩
          = some ⟨n1 || n2, if n1 || n2 then none else some (decide (a = b))⟩ ∧
        pgfn_bpchareq ⟨a, n1⟩ ⟨b, n2⟩
          = some ⟨n1 || n2, if n1 || n2 then none else some (decide (a = b))⟩) := by
  obtain ⟨a⟩ := a
  obtain ⟨b⟩ := b
  obtain ⟨r, hr, hrange, hm, hp, hz⟩ := varlena_cmp_iff a b
  obtain ⟨r2, hr2, hrange2, hm2, hp2, hz2⟩ := varlena_cmp_iff b a
  have hz3 : r = 0 ↔ (⟨a⟩ : varlena) = ⟨b⟩ := by
    rw [hz]
    constructor
    · intro h; rw [h]
    · intro h; cases h; rfl
  refine ⟨r, hr, hrange, hm, hp, hz3, ?_, ?_, ?_, ?_⟩
  · rw [hz]
    constructor
    · intro h; subst h; exact ⟨rfl, fun _ => rfl⟩
    · intro h
      exact List.ext_get? h.2
  · intro c t hb
    dsimp only at hb
    exact hm.mpr (hb ▸ lex_lt_append_cons a c t)
  · rw [hr2]
    congr 1
    rcases hrange with h | h | h
    · have : r2 = 1 := hp2.mpr (hm.mp h)
      omega
    · have : r2 = 0 := hz2.mpr (hz.mp h).symm
      omega
    · have : r2 = -1 := hm2.mpr (hp.mp h)
      omega
  · intro n1 n2
    have hdec : decide (r = 0) = decide ((⟨a⟩ : varlena) = ⟨b⟩) := by
      by_cases h0 : r = 0
      · have := hz3.mp h0
        simp [h0, this]
      · have : ¬ ((⟨a⟩ : varlena) = ⟨b⟩) := fun h => h0 (hz3.mpr h)
        simp [h0, this]
    unfold pgfn_texteq pgfn_bpchareq
    dsimp only
    cases n1 <;> cases n2 <;> simp [hr, hdec]

/-- Witness of C32: the payloads `h`, `0xC3` and `h`, `i`.  As `cl_char` the
byte `0xC3` is -61, below `i` = 105, so the first is before the second; read as
unsigned bytes the order would be the other way round. -/
theorem C32_varlena_cmp_lexicographic_witness :
    varlena_cmp ⟨[104, -61]⟩ ⟨[104, 105]⟩ = some (-1) ∧
    varlena_cmp ⟨[104, 105]⟩ ⟨[104, -61]⟩ = some 1 ∧
    varlena_cmp ⟨[104]⟩ ⟨[104, 105]⟩ = some (-1) ∧
    pgfn_texteq ⟨⟨[104, 105]⟩, false⟩ ⟨⟨[104, 105]⟩, false⟩ = some ⟨false, some true⟩ ∧
    pgfn_texteq ⟨⟨[104, 105]⟩, false⟩ ⟨⟨[104]⟩, false⟩ = some ⟨false, some false⟩ ∧
    pgfn_bpchareq ⟨⟨[104, 105]⟩, true⟩ ⟨⟨[104, 105]⟩, false⟩ = some ⟨true, none⟩ ∧
    ∃ r, varlena_cmp ⟨[104, -61]⟩ ⟨[104, 105]⟩ = some r ∧ (r = -1 ∨ r = 0 ∨ r = 1) :=
  ⟨by decide, by decide, by decide, by decide, by decide, by decide,
    (C32_varlena_cmp_lexicographic ⟨[104, -61]⟩ ⟨[104, 105]⟩).imp
      (fun _ h => ⟨h.1, h.2.1⟩)⟩

end Textlib

namespace Relscan

/-! ## The clause set of an index -/

end Relscan
